import Mathlib

set_option autoImplicit false

/-!
Verification of avl_tree and avl_heap

A shallow embedding of `avl_tree.hpp`, `avl_heap.hpp` and `avl_set.hpp`.

The tree.

A `node *` of the source is embedded as a value of `avl_node T`: either `nullptr`, or the node
it points to together with the two subtrees that hang below it.  The `parent` pointer of a node
is embedded as the list of `parent_link`s that leads from the node up to the root: the head of
the list is the node's parent (with the parent's other child), the next entry the grandparent,
and so on; the empty list is a null `parent`.  A pointer to a node inside a tree is a
`node_ptr`: the node and its chain of parents.  The payload `T` stands for the node object
itself, so that two nodes are the same node exactly when their payloads are equal.

Whatever stops the process in the source (a failing `assert`, a `panic`, a null dereference)
is the result `none`.

`int8_t balance` is embedded as an `Int`: on the balances `-2 .. 2` that the tree produces no
operation of the source leaves the range of `int8_t`.
-/

/-- The node a `node *` points to, with its subtrees (`avl_node<T>`, the `parent` member apart). -/
inductive avl_node (T : Type) where
  | nullptr : avl_node T
  | mk (left : avl_node T) (right : avl_node T) (balance : Int) (data : T) : avl_node T
deriving DecidableEq

/-- The `parent` member of a node, seen from that node. -/
inductive parent_link (T : Type) where
  /-- The node is `parent->left`; the fields are the parent's `right`, `balance` and payload. -/
  | of_left (right : avl_node T) (balance : Int) (data : T) : parent_link T
  /-- The node is `parent->right`; the fields are the parent's `left`, `balance` and payload. -/
  | of_right (left : avl_node T) (balance : Int) (data : T) : parent_link T
deriving DecidableEq

/-- A pointer to a node inside a tree: the chain of its parents and the node itself. -/
structure node_ptr (T : Type) where
  parents : List (parent_link T)
  node : avl_node T
deriving DecidableEq

namespace avl_node

variable {T : Type}

/-- The test `!cur` on a pointer. -/
def is_null : avl_node T → Bool
  | nullptr => true
  | mk _ _ _ _ => false

/-- In-order traversal of the subtree below a pointer. -/
def inorder : avl_node T → List T
  | nullptr => []
  | mk l r _ d => inorder l ++ d :: inorder r

/-- Height of the subtree below a pointer (the `depth` that `check_node` returns). -/
def height : avl_node T → Nat
  | nullptr => 0
  | mk l r _ _ => max (height l) (height r) + 1

/-- Every node's stored balance is in `{-1, 0, 1}` and equals the height of its right subtree
minus the height of its left subtree. -/
def legal : avl_node T → Prop
  | nullptr => True
  | mk l r b _ => legal l ∧ legal r ∧ b = (height r : Int) - (height l : Int) ∧ -1 ≤ b ∧ b ≤ 1

end avl_node

namespace avl_tree

open avl_node parent_link

variable {T : Type}

/-- `get_side(cur)`: `0` without a parent, `-1` for a left child, `1` for a right child. -/
def get_side : List (parent_link T) → Int
  | [] => 0
  | of_left _ _ _ :: _ => -1
  | of_right _ _ _ :: _ => 1

/-- The parent node of a link, with `cur` stored in the child pointer the link stands for
(`parent->left = cur` or `parent->right = cur`). -/
def attach : parent_link T → avl_node T → avl_node T
  | of_left r b d, cur => mk cur r b d
  | of_right l b d, cur => mk l cur b d

/-- The root of the tree that holds `cur` below the chain `parents`. -/
def root_of : List (parent_link T) → avl_node T → avl_node T
  | [], cur => cur
  | p :: ps, cur => root_of ps (attach p cur)

/-- `is_leaf(cur)`, with its `assert(cur->balance == 0)`. -/
def is_leaf : avl_node T → Option Bool
  | nullptr => none
  | mk l r b _ =>
    if !l.is_null || !r.is_null then some false
    else if b = 0 then some true
    else none

/-- `rotate_left(cur)`; the result is the returned `top`. -/
def rotate_left : avl_node T → Option (avl_node T)
  | mk l (mk tl tr tb td) b d =>
    let same : Bool := decide (b = tb)
    let cb := b - 1
    let cb := if tb > 0 then cb - tb else cb
    let tb := tb - (1 + (if same then 1 else 0))
    some (mk (mk l tl cb d) tr tb td)
  | _ => none

/-- `rotate_right(cur)`; the result is the returned `top`. -/
def rotate_right : avl_node T → Option (avl_node T)
  | mk (mk tl tr tb td) r b d =>
    let same : Bool := decide (b = tb)
    let cb := b + 1
    let cb := if tb < 0 then cb - tb else cb
    let tb := tb + (1 + (if same then 1 else 0))
    some (mk tl (mk tr r cb d) tb td)
  | _ => none

/-- `cur->balance` of a pointer. -/
def balance_of : avl_node T → Option Int
  | nullptr => none
  | mk _ _ b _ => some b

/-- The rotation step of `rebalance` (the `if (cur->balance == -2) ... else if (cur->balance == 2)`
block); the result is the new `cur`. -/
def rotate (cur : avl_node T) : Option (avl_node T) :=
  match cur with
  | nullptr => none
  | mk l r b d =>
    if b = -2 then do
      let lb ← balance_of l
      if lb = 1 then do
        let l ← rotate_left l
        rotate_right (mk l r b d)
      else rotate_right (mk l r b d)
    else if b = 2 then do
      let rb ← balance_of r
      if rb = -1 then do
        let r ← rotate_right r
        rotate_left (mk l r b d)
      else rotate_left (mk l r b d)
    else some (mk l r b d)

/-- `rebalance(cur, diff, remove)`; `cur` is given by its parents and the node, and the result is
the root of the tree when the call chain returns.  The first test is the `assert` on `diff`. -/
def rebalance : List (parent_link T) → avl_node T → Int → Bool → Option (avl_node T)
  | _, nullptr, _, _ => none
  | [], mk l r b d, diff, remove =>
    if ¬ (diff = -1 ∨ diff = 1) then none
    else
      let b := if remove then b - diff else b + diff
      if -1 ≤ b ∧ b ≤ 1 then some (mk l r b d)
      else rotate (mk l r b d)
  | p :: ps, mk l r b d, diff, remove =>
    if ¬ (diff = -1 ∨ diff = 1) then none
    else
      let side := get_side (p :: ps)
      let b := if remove then b - diff else b + diff
      if (if remove then b = 0 else b = diff) then
        rebalance ps (attach p (mk l r b d)) side remove
      else if -1 ≤ b ∧ b ≤ 1 then some (root_of (p :: ps) (mk l r b d))
      else do
        let cur ← rotate (mk l r b d)
        let cb ← balance_of cur
        if remove ∧ cb = 0 then rebalance ps (attach p cur) side remove
        else some (root_of (p :: ps) cur)

/-- The descent loop of `insert`: the result is the `cur` and the `side` the loop ends with. -/
def insert_loop (less_than : T → T → Bool) (new_node : T) :
    List (parent_link T) → avl_node T → Int → node_ptr T × Int
  | parents, nullptr, side => (⟨parents, nullptr⟩, side)
  | parents, mk l r b d, _ =>
    let side : Int :=
      if less_than new_node d then -1
      else if less_than d new_node then 1
      else if b > 0 then -1 else 1
    if side = -1 then
      match l with
      | nullptr => (⟨parents, mk nullptr r b d⟩, side)
      | mk ll lr lb ld => insert_loop less_than new_node (of_left r b d :: parents) (mk ll lr lb ld) side
    else
      match r with
      | nullptr => (⟨parents, mk l nullptr b d⟩, side)
      | mk rl rr rb rd => insert_loop less_than new_node (of_right l b d :: parents) (mk rl rr rb rd) side

/-- `insert(new_node)`; the result is the new `root`.  The node is detached: it is the leaf
`mk nullptr nullptr 0 new_node`. -/
def insert (less_than : T → T → Bool) (root : avl_node T) (new_node : T) : Option (avl_node T) :=
  match insert_loop less_than new_node [] root 0 with
  | (⟨_, nullptr⟩, _) => some (mk nullptr nullptr 0 new_node)
  | (⟨parents, mk l r b d⟩, side) =>
    if side = -1 then
      if l.is_null then rebalance parents (mk (mk nullptr nullptr 0 new_node) r b d) side false
      else none
    else if side = 1 then
      if r.is_null then rebalance parents (mk l (mk nullptr nullptr 0 new_node) b d) side false
      else none
    else none

end avl_tree

namespace avl_tree

open avl_node parent_link

variable {T : Type}

/-- The loop `while (cur->left) cur = cur->left;`. -/
def leftmost : List (parent_link T) → avl_node T → node_ptr T
  | parents, nullptr => ⟨parents, nullptr⟩
  | parents, mk nullptr r b d => ⟨parents, mk nullptr r b d⟩
  | parents, mk (mk ll lr lb ld) r b d => leftmost (of_left r b d :: parents) (mk ll lr lb ld)

/-- The loop `while (cur->right) cur = cur->right;`. -/
def rightmost : List (parent_link T) → avl_node T → node_ptr T
  | parents, nullptr => ⟨parents, nullptr⟩
  | parents, mk l nullptr b d => ⟨parents, mk l nullptr b d⟩
  | parents, mk l (mk rl rr rb rd) b d => rightmost (of_right l b d :: parents) (mk rl rr rb rd)

/-- `head_node()`; a null result is the pointer to `nullptr`. -/
def head_node (root : avl_node T) : node_ptr T := leftmost [] root

/-- `tail_node()`; a null result is the pointer to `nullptr`. -/
def tail_node (root : avl_node T) : node_ptr T := rightmost [] root

/-- The ascent loop of `prev_node`: climb while the node is a left child; `none` is the null
result. -/
def prev_ascend : List (parent_link T) → avl_node T → Option (node_ptr T)
  | [], _ => none
  | of_left r b d :: ps, cur => prev_ascend ps (mk cur r b d)
  | of_right l b d :: ps, cur => some ⟨ps, mk l cur b d⟩

/-- The ascent loop of `next_node`: climb while the node is a right child; `none` is the null
result. -/
def next_ascend : List (parent_link T) → avl_node T → Option (node_ptr T)
  | [], _ => none
  | of_right l b d :: ps, cur => next_ascend ps (mk l cur b d)
  | of_left r b d :: ps, cur => some ⟨ps, mk cur r b d⟩

/-- `prev_node(cur)`; `some none` is the null result, `none` the failing `assert(cur)`. -/
def prev_node (cur : node_ptr T) : Option (Option (node_ptr T)) :=
  match cur.node with
  | nullptr => none
  | mk nullptr r b d => some (prev_ascend cur.parents (mk nullptr r b d))
  | mk (mk ll lr lb ld) r b d => some (some (rightmost (of_left r b d :: cur.parents) (mk ll lr lb ld)))

/-- `next_node(cur)`; `some none` is the null result, `none` the failing `assert(cur)`. -/
def next_node (cur : node_ptr T) : Option (Option (node_ptr T)) :=
  match cur.node with
  | nullptr => none
  | mk l nullptr b d => some (next_ascend cur.parents (mk l nullptr b d))
  | mk l (mk rl rr rb rd) b d => some (some (leftmost (of_right l b d :: cur.parents) (mk rl rr rb rd)))

/-- `search(func)`.  The decider may write to variables it captured by reference: it is embedded
as a function of the captured state `S` and the visited node's payload that returns the side and
the new state.  The result is the returned pointer (`nullptr` when the loop runs off the tree)
and the final captured state. -/
def search {S : Type} (func : S → T → Int × S) : avl_node T → S → avl_node T × S
  | nullptr, s => (nullptr, s)
  | mk l r b d, s =>
    let (side, s) := func s d
    if side = 0 then (mk l r b d, s)
    else if side < 0 then search func l s
    else search func r s

/-- Dereference of a node pointer known by the node object it points to: the place of the node
whose payload is `target` in the subtree `cur` below `parents` (pre-order; nodes of one tree are
distinct objects, so at most one place matches). -/
def find_node [DecidableEq T] (target : T) : List (parent_link T) → avl_node T → Option (node_ptr T)
  | _, nullptr => none
  | parents, mk l r b d =>
    if d = target then some ⟨parents, mk l r b d⟩
    else match find_node target (of_left r b d :: parents) l with
      | some p => some p
      | none => find_node target (of_right l b d :: parents) r

/-- `unlink(cur)`; the result is the new `root`. -/
def unlink (cur : node_ptr T) : Option (avl_node T) := do
  let leaf ← is_leaf cur.node
  if !leaf then none
  else
    match cur.parents with
    | [] => some nullptr
    | p :: ps => rebalance ps (attach p nullptr) (get_side (p :: ps)) true

/-- The `switch` of `erase` that selects `prev_node(del_node)` for `-1` and `next_node(del_node)`
for `1`. -/
def neighbour (side : Int) (del_node : node_ptr T) : Option (Option (node_ptr T)) :=
  if side = -1 then prev_node del_node
  else if side = 1 then next_node del_node
  else some none

/-- The payload of the node a pointer points to. -/
def data_of : avl_node T → Option T
  | nullptr => none
  | mk _ _ _ d => some d

/-- The search of `erase` for a leaf among the two in-order neighbours (the `for` loop over
`i = 1, -1`): the result is `replace_node` after the loop, `some none` when it is null. -/
def find_replace (side : Int) (del_node : node_ptr T) : Option (Option (node_ptr T)) := do
  let first ← neighbour (side * 1) del_node
  match first with
  | none => none
  | some first =>
    if (← is_leaf first.node) then some (some first)
    else do
      let second ← neighbour (side * -1) del_node
      match second with
      | none => none
      | some second =>
        if (← is_leaf second.node) then some (some second)
        else some none

/-- The end of `erase`: `replace_node` takes the links and the balance of `del_node`, and the
pointer that pointed to `del_node` now points to `replace_node`. -/
def replace [DecidableEq T] (root : avl_node T) (del_node : T) (replace_node : T) : Option (avl_node T) :=
  match find_node del_node [] root with
  | some ⟨parents, mk l r b _⟩ => some (root_of parents (mk l r b replace_node))
  | _ => none

/-- `erase(del_node)` with a bound on the depth of its recursion; the result is the new `root`. -/
def erase_depth [DecidableEq T] : Nat → avl_node T → T → Option (avl_node T)
  | 0, _, _ => none
  | depth + 1, root, del_node => do
    let cur ← find_node del_node [] root
    if (← is_leaf cur.node) then unlink cur
    else do
      let b ← balance_of cur.node
      let side : Int := if b > 0 then 1 else -1
      let found ← find_replace side cur
      match found with
      | some replace_node =>
        let root ← unlink replace_node
        let r ← data_of replace_node.node
        replace root del_node r
      | none =>
        let next ← neighbour side cur
        match next with
        | none => none
        | some replace_node =>
          let r ← data_of replace_node.node
          let root ← erase_depth depth root r
          replace root del_node r

/-- `erase(del_node)`; the result is the new `root`.  Each recursive call is made on a node
further down the tree, so the height of the tree bounds the depth of the recursion. -/
def erase [DecidableEq T] (root : avl_node T) (del_node : T) : Option (avl_node T) :=
  erase_depth (height root) root del_node

/-- `check_node(cur, count)`; the result is the returned depth, `none` when an `assert` fails.
The counter, which no `assert` reads, is left out; the parent links hold by construction. -/
def check_node (less_than : T → T → Bool) : avl_node T → Option Nat
  | nullptr => none
  | mk l r b d =>
    if ¬ (b ≥ -1 ∧ b ≤ 1) then none
    else if l.is_null && r.is_null then (if b = 0 then some 1 else none)
    else do
      let depth_l ← match l with
        | nullptr => some 0
        | mk _ _ _ ld => if less_than d ld then none else check_node less_than l
      let depth_r ← match r with
        | nullptr => some 0
        | mk _ _ _ rd => if less_than rd d then none else check_node less_than r
      if (depth_l : Int) + b = depth_r then some (max depth_l depth_r + 1) else none

/-- `check_integrity(str)`: `true` when no `assert` fails. -/
def check_integrity (less_than : T → T → Bool) (root : avl_node T) : Bool :=
  if root.is_null then true else (check_node less_than root).isSome

end avl_tree

namespace avl_tree

open avl_node parent_link

variable {T : Type}

/-- The chain `parents` comes from a legal tree in which the subtree below the chain has height
`h`: every parent's other subtree is legal and every parent's stored balance is in `{-1, 0, 1}`
and equals its right height minus its left height. -/
def legal_around : List (parent_link T) → Nat → Prop
  | [], _ => True
  | of_left r b _ :: ps, h =>
    legal r ∧ b = (height r : Int) - (h : Int) ∧ -1 ≤ b ∧ b ≤ 1 ∧ legal_around ps (max h (height r) + 1)
  | of_right l b _ :: ps, h =>
    legal l ∧ b = (h : Int) - (height l : Int) ∧ -1 ≤ b ∧ b ≤ 1 ∧ legal_around ps (max (height l) h + 1)

/-- In-order traversal of the nodes of the chain `parents` that come before the subtree below
the chain. -/
def before : List (parent_link T) → List T
  | [] => []
  | of_left _ _ _ :: ps => before ps
  | of_right l _ d :: ps => before ps ++ (inorder l ++ [d])

/-- In-order traversal of the nodes of the chain `parents` that come after the subtree below
the chain. -/
def after : List (parent_link T) → List T
  | [] => []
  | of_left r _ d :: ps => (d :: inorder r) ++ after ps
  | of_right _ _ _ :: ps => after ps

end avl_tree

namespace avl_tree

variable {T : Type}

/-- The comparator `C` is a strict weak ordering, as the source expects of `less_than`. -/
def strict_weak (less_than : T → T → Bool) : Prop :=
  (∀ a b, less_than a b = true → less_than b a = false) ∧
  (∀ a b c, less_than a b = false → less_than b c = false → less_than a c = false)

/-- The sequence is non-decreasing under the comparator: no element is less than one that
comes before it. -/
def ordered (less_than : T → T → Bool) (xs : List T) : Prop :=
  xs.Pairwise (fun a b => less_than b a = false)

end avl_tree

namespace avl_tree

variable {T : Type}

/-- The sequence is non-decreasing under the comparator: no element is less than its
predecessor. -/
def non_decreasing (less_than : T → T → Bool) (xs : List T) : Prop :=
  xs.Chain' (fun a b => less_than b a = false)

end avl_tree

/-!
The heap.

`avl_heap.hpp` is compiled for a target with `PTRDIFF_WIDTH == 64` or `PTRDIFF_WIDTH == 32`; the
embedding takes the target as a parameter.  `size_t` values are natural numbers, reduced modulo
`2 ^ PTRDIFF_WIDTH` wherever the source computes with them; addresses are natural numbers and the
null pointer is `0`.

A `block` lives in the free bytes it describes.  Its two nodes are members of the same object,
and `container_of` leads from either node back to the block: the embedding therefore stores the
block itself (its address and the payloads of its two nodes) as the payload of both tree nodes.
-/

/-- The target: `PTRDIFF_WIDTH` is 32 or 64. -/
inductive ptrdiff_width where
  | w32 : ptrdiff_width
  | w64 : ptrdiff_width
deriving DecidableEq

namespace ptrdiff_width

/-- `sizeof(void *)`. -/
def pointer_bytes : ptrdiff_width → Nat
  | w32 => 4
  | w64 => 8

/-- `half_size_shift = sizeof(half_size_t) * 8`. -/
def half_size_shift : ptrdiff_width → Nat
  | w32 => 16
  | w64 => 32

/-- `half_size_mask = half_size_t(-1)`. -/
def half_size_mask (w : ptrdiff_width) : Nat := 2 ^ w.half_size_shift - 1

/-- The number of values of `size_t`. -/
def size_range (w : ptrdiff_width) : Nat := 2 ^ (2 * w.half_size_shift)

/-- `sizeof(node)`, four pointers by the `static_assert` of the source. -/
def node_bytes (w : ptrdiff_width) : Nat := 4 * w.pointer_bytes

/-- `min_size = sizeof(block)`, eight pointers by the `static_assert` of the source. -/
def min_size (w : ptrdiff_width) : Nat := 8 * w.pointer_bytes

end ptrdiff_width

/-- `alignment = 0x10`. -/
def alignment : Nat := 0x10

/-- `align_mask = alignment - 1`. -/
def align_mask : Nat := alignment - 1

/-- A `block` at address `base`: the payloads of its `size_node` and of its `addr_node`. -/
structure block where
  base : Nat
  size_node : Nat
  addr_node : Nat
deriving DecidableEq

namespace block

/-- The constructor `block(size)` run at address `ptr` (`new(ptr) block(size)`): the low half of
the size goes to `size_node`, the high half, converted to `half_size_t`, to `addr_node`. -/
def create (w : ptrdiff_width) (ptr : Nat) (size : Nat) : block :=
  { base := ptr
    size_node := size &&& w.half_size_mask
    addr_node := (size >>> w.half_size_shift) % 2 ^ w.half_size_shift }

/-- `block::size()`. -/
def size (w : ptrdiff_width) (b : block) : Nat :=
  (b.addr_node <<< w.half_size_shift) ||| b.size_node

end block

/-- `size_cmp`: both nodes lead to their blocks by `container_of`. -/
def size_cmp (w : ptrdiff_width) (a b : block) : Bool :=
  decide (a.size w < b.size w)

/-- `addr_cmp`: the operands are the `addr_node`s of two blocks, `sizeof(node)` bytes after the
start of their blocks; `container_of(_, block, size_node)` subtracts the offset `0` from both. -/
def addr_cmp (w : ptrdiff_width) (a b : block) : Bool :=
  decide (a.base + w.node_bytes - 0 < b.base + w.node_bytes - 0)

/-- The backing allocator `Alloc`.  Its state is the list of the answers it will give: each call
of `alloc(size)` takes the next answer, a function of the requested size that returns the pointer
(`0` for null) and the size written back.  When the list is used up, `alloc` returns null. -/
structure Alloc where
  answers : List (Nat → Nat × Nat)

namespace Alloc

/-- `allocator.alloc(size)`: the returned pointer, the size written back and the allocator
afterwards. -/
def alloc (a : Alloc) (size : Nat) : (Nat × Nat) × Alloc :=
  match a.answers with
  | [] => ((0, size), a)
  | f :: rest => (f size, ⟨rest⟩)

end Alloc

/-- The data members of `avl_heap` (the mutex and the reference to the allocator apart; the
allocator is passed to the member functions that call it). -/
structure avl_heap where
  size_tree : avl_node block
  addr_tree : avl_node block
  used_size : Nat
  total_size : Nat

namespace avl_heap

open avl_node

/-- A heap after its constructor. -/
def empty : avl_heap := ⟨nullptr, nullptr, 0, 0⟩

/-- `used()`. -/
def used (h : avl_heap) : Nat := h.used_size

/-- `total()`. -/
def total (h : avl_heap) : Nat := h.total_size

/-- `align_size(size)`, computed in `size_t`. -/
def align_size (w : ptrdiff_width) (size : Nat) : Nat :=
  if size ≤ w.min_size then w.min_size
  else ((size + align_mask) % w.size_range) &&& (w.size_range - 1 - align_mask)

/-- `merge_block(base, extra)`: the result is the returned flag, the block at `base` after the
call and the heap; `none` is the `panic`. -/
def merge_block (w : ptrdiff_width) (h : avl_heap) (base extra : block) :
    Option (Bool × block × avl_heap) :=
  if base.base + base.size w > extra.base then none
  else if base.base + base.size w < extra.base then some (false, base, h)
  else do
    let st ← avl_tree.erase h.size_tree base
    let adt ← avl_tree.erase h.addr_tree base
    let st ← avl_tree.erase st extra
    let adt ← avl_tree.erase adt extra
    let new_size := (base.size w + extra.size w) % w.size_range
    let base := block.create w base.base new_size
    let st ← avl_tree.insert (size_cmp w) st base
    let adt ← avl_tree.insert (addr_cmp w) adt base
    some (true, base, { h with size_tree := st, addr_tree := adt })

/-- `insert(cur_block)`, the coalescing insert; `none` is a `panic`. -/
def insert (w : ptrdiff_width) (h : avl_heap) (cur_block : block) : Option avl_heap := do
  let st ← avl_tree.insert (size_cmp w) h.size_tree cur_block
  let adt ← avl_tree.insert (addr_cmp w) h.addr_tree cur_block
  let h := { h with size_tree := st, addr_tree := adt }
  let cur ← avl_tree.find_node cur_block [] h.addr_tree
  let prev_node ← avl_tree.prev_node cur
  let (cur_block, h) ← match prev_node with
    | none => some (cur_block, h)
    | some prev_node => do
      let prev_block ← avl_tree.data_of prev_node.node
      let (merged, prev_block, h) ← merge_block w h prev_block cur_block
      if merged then some (prev_block, h) else some (cur_block, h)
  let cur ← avl_tree.find_node cur_block [] h.addr_tree
  let next_node ← avl_tree.next_node cur
  match next_node with
  | none => some h
  | some next_node => do
    let next_block ← avl_tree.data_of next_node.node
    let (_, _, h) ← merge_block w h cur_block next_block
    some h

/-- The body of `expand(size)`: the result is the run the heap takes from the allocator
(`none` when the allocator returns null or less than `min_size`), the heap and the allocator. -/
def expand_run (w : ptrdiff_width) (h : avl_heap) (allocator : Alloc) (size : Nat) :
    Option (Option (Nat × Nat) × avl_heap × Alloc) :=
  match allocator.alloc size with
  | ((ptr, size), allocator) =>
    if ptr ≠ 0 ∧ size ≥ w.min_size then do
      let h ← insert w h (block.create w ptr size)
      some (some (ptr, size), { h with total_size := (h.total_size + size) % w.size_range }, allocator)
    else some (none, h, allocator)

/-- `expand(size)`: the returned size, the heap and the allocator. -/
def expand (w : ptrdiff_width) (h : avl_heap) (allocator : Alloc) (size : Nat) :
    Option (Nat × avl_heap × Alloc) :=
  (expand_run w h allocator size).map fun (run, h, allocator) =>
    (match run with
      | some (_, size) => size
      | none => 0, h, allocator)

/-- The search of `alloc`: the decider captures `found_block` and `size` by reference, and the
result is `found_block` after `size_tree.search` (`none` for null). -/
def alloc_search (w : ptrdiff_width) (h : avl_heap) (size : Nat) : Option block :=
  (avl_tree.search (fun (found_block : Option block) (cur_block : block) =>
      if cur_block.size w ≥ size then ((-1 : Int), some cur_block) else ((1 : Int), found_block))
    h.size_tree none).2

/-- The loop of `alloc`, at most `n` times round: the result is `found_block` (`none` when
`alloc` returns null), the heap, the allocator and the runs the heap took from the allocator in
this call.  `none` is a `panic`, or the bound `n` reached. -/
def alloc_loop (w : ptrdiff_width) (size : Nat) :
    Nat → avl_heap → Alloc → List (Nat × Nat) → Option (Option block × avl_heap × Alloc × List (Nat × Nat))
  | 0, _, _, _ => none
  | n + 1, h, allocator, runs =>
    match alloc_search w h size with
    | some found_block => some (some found_block, h, allocator, runs)
    | none =>
      match expand_run w h allocator ((size <<< 4) % w.size_range) with
      | none => none
      | some (none, h, allocator) => some (none, h, allocator, runs)
      | some (some run, h, allocator) => alloc_loop w size n h allocator (runs ++ [run])

/-- The end of `alloc`, after the loop has found `found_block`: the result is the returned
pointer, the size written back and the heap. -/
def alloc_take (w : ptrdiff_width) (h : avl_heap) (found_block : block) (size : Nat) :
    Option (Nat × Nat × avl_heap) := do
  let block_size := found_block.size w
  let st ← avl_tree.erase h.size_tree found_block
  let adt ← avl_tree.erase h.addr_tree found_block
  if (block_size + w.size_range - size) % w.size_range ≥ w.min_size then do
    let new_block := block.create w (found_block.base + size)
      ((block_size + w.size_range - size) % w.size_range)
    let st ← avl_tree.insert (size_cmp w) st new_block
    let adt ← avl_tree.insert (addr_cmp w) adt new_block
    some (found_block.base, size,
      { h with size_tree := st, addr_tree := adt, used_size := (h.used_size + size) % w.size_range })
  else
    some (found_block.base, block_size,
      { h with size_tree := st, addr_tree := adt,
               used_size := (h.used_size + block_size) % w.size_range })

/-- `alloc(size)` with the runs taken from the allocator: the returned pointer (`0` for null), the
size written back, the heap, the allocator and the runs.  Every turn of the loop but the last
takes one answer from the allocator, so the number of answers bounds the number of turns. -/
def alloc_runs (w : ptrdiff_width) (h : avl_heap) (allocator : Alloc) (size : Nat) :
    Option (Nat × Nat × avl_heap × Alloc × List (Nat × Nat)) := do
  let size := align_size w size
  let (found_block, h, allocator, runs) ← alloc_loop w size (allocator.answers.length + 2) h allocator []
  match found_block with
  | none => some (0, size, h, allocator, runs)
  | some found_block => do
    let (ptr, size, h) ← alloc_take w h found_block size
    some (ptr, size, h, allocator, runs)

/-- `alloc(size)`: the returned pointer (`0` for null), the size written back, the heap and the
allocator. -/
def alloc (w : ptrdiff_width) (h : avl_heap) (allocator : Alloc) (size : Nat) :
    Option (Nat × Nat × avl_heap × Alloc) :=
  (alloc_runs w h allocator size).map fun (ptr, size, h, allocator, _) => (ptr, size, h, allocator)

/-- `free(ptr, size)`; `none` is a `panic`. -/
def free (w : ptrdiff_width) (h : avl_heap) (ptr size : Nat) : Option avl_heap :=
  if ptr = 0 ∨ size < w.min_size ∨ ptr &&& align_mask ≠ 0 then none
  else do
    let h ← insert w h (block.create w ptr size)
    some { h with used_size := (h.used_size + w.size_range - size) % w.size_range }

/-- The free regions of the heap in address order: base and size of every block of the address
tree. -/
def free_regions (w : ptrdiff_width) (h : avl_heap) : List (Nat × Nat) :=
  (inorder h.addr_tree).map fun b => (b.base, b.size w)

/-- The free regions of the heap as the size tree indexes them, in size order: base and size of
every block of the size tree. -/
def size_regions (w : ptrdiff_width) (h : avl_heap) : List (Nat × Nat) :=
  (inorder h.size_tree).map fun b => (b.base, b.size w)

end avl_heap

namespace avl_heap

/-- A 64-bit heap with three free blocks, of sizes 64, 128 and 256 at the addresses 4096, 16384
and 8192. -/
def three_blocks : avl_heap :=
  { size_tree := avl_node.mk (avl_node.mk avl_node.nullptr avl_node.nullptr 0 ⟨4096, 64, 0⟩)
      (avl_node.mk avl_node.nullptr avl_node.nullptr 0 ⟨8192, 256, 0⟩) 0 ⟨16384, 128, 0⟩
    addr_tree := avl_node.mk (avl_node.mk avl_node.nullptr avl_node.nullptr 0 ⟨4096, 64, 0⟩)
      (avl_node.mk avl_node.nullptr avl_node.nullptr 0 ⟨16384, 128, 0⟩) 0 ⟨8192, 256, 0⟩
    used_size := 0
    total_size := 448 }

end avl_heap

namespace avl_heap

/-- A backing allocator that answers one call, with the run of 1 MiB at address `B`. -/
def one_answer (B : Nat) : Alloc := ⟨[fun _ => (B, 2 ^ 20)]⟩

/-- The heap after `expand` has taken the run of 1 MiB at address `B` from `one_answer B`. -/
def one_region (w : ptrdiff_width) (B : Nat) : avl_heap :=
  { size_tree := avl_node.mk avl_node.nullptr avl_node.nullptr 0 (block.create w B (2 ^ 20))
    addr_tree := avl_node.mk avl_node.nullptr avl_node.nullptr 0 (block.create w B (2 ^ 20))
    used_size := 0
    total_size := 2 ^ 20 }

end avl_heap

namespace block

/-- The payloads of the two nodes of a block are values of `half_size_t`. -/
def wf (w : ptrdiff_width) (b : block) : Prop :=
  b.size_node < 2 ^ w.half_size_shift ∧ b.addr_node < 2 ^ w.half_size_shift

end block

namespace avl_heap

open avl_node avl_tree

/-- The two trees of the heap are legal AVL trees over the same blocks, the size tree ordered by
size, the address tree strictly by address. -/
def heap_wf (w : ptrdiff_width) (h : avl_heap) : Prop :=
  legal h.size_tree ∧ legal h.addr_tree ∧
  ordered (size_cmp w) (inorder h.size_tree) ∧
  (inorder h.addr_tree).Pairwise (fun a b => a.base < b.base) ∧
  (inorder h.size_tree).Perm (inorder h.addr_tree) ∧
  ∀ b ∈ inorder h.addr_tree, b.wf w

/-- No two blocks of the list overlap or touch: each ends strictly before the start of every
later one. -/
def tight (w : ptrdiff_width) (bs : List block) : Prop :=
  bs.Pairwise (fun a b => a.base + a.size w < b.base)

/-- Every block of the list is at a non-null address, has at least `min_size` bytes and ends
inside the address space. -/
def in_range (w : ptrdiff_width) (bs : List block) : Prop :=
  ∀ b ∈ bs, b.base ≠ 0 ∧ w.min_size ≤ b.size w ∧ b.base + b.size w ≤ w.size_range

/-- The byte ranges `[a.1, a.1 + a.2)` and `[b.1, b.1 + b.2)` have no byte in common. -/
def disjoint (a b : Nat × Nat) : Prop :=
  a.2 = 0 ∨ b.2 = 0 ∨ a.1 + a.2 ≤ b.1 ∨ b.1 + b.2 ≤ a.1

/-- The byte `x` lies in one of the ranges of the list. -/
def covers (rs : List (Nat × Nat)) (x : Nat) : Prop :=
  ∃ r ∈ rs, r.1 ≤ x ∧ x < r.1 + r.2

/-- The sum of the sizes of the ranges of the list. -/
def total_bytes (rs : List (Nat × Nat)) : Nat :=
  (rs.map fun r => r.2).sum

/-- The backing allocator returns fresh non-overlapping runs: whatever size is requested, a run
the heap takes lies inside the address space and shares no byte with the runs taken before. -/
def fresh_answers (w : ptrdiff_width) : List (Nat × Nat) → List (Nat → Nat × Nat) → Prop
  | _, [] => True
  | runs, f :: rest =>
    ∀ size : Nat,
      if (f size).1 ≠ 0 ∧ (f size).2 ≥ w.min_size then
        (f size).1 + (f size).2 ≤ w.size_range ∧ (∀ r ∈ runs, disjoint (f size) r) ∧
          fresh_answers w (runs ++ [f size]) rest
      else fresh_answers w runs rest

/-- A heap with its allocator, together with the record of its history: the allocations that
were returned by `alloc` and not yet freed (pointer and reported size), and the runs taken from
the allocator (pointer and size, the non-zero values returned by `expand`). -/
structure heap_state where
  heap : avl_heap
  allocator : Alloc
  outstanding : List (Nat × Nat)
  runs : List (Nat × Nat)

/-- The heap states reachable from the empty heap by `expand`, `alloc` and `free` calls that
return, each `free` passing a pointer and size reported by an earlier, not yet freed `alloc`;
the backing allocator returns fresh non-overlapping runs. -/
inductive reachable (w : ptrdiff_width) : heap_state → Prop where
  | init (allocator : Alloc) (hfresh : fresh_answers w [] allocator.answers) :
      reachable w ⟨empty, allocator, [], []⟩
  | expand (s : heap_state) (size : Nat) (run : Option (Nat × Nat)) (h : avl_heap) (a : Alloc)
      (hs : reachable w s) (hcall : expand_run w s.heap s.allocator size = some (run, h, a)) :
      reachable w ⟨h, a, s.outstanding, s.runs ++ run.toList⟩
  | alloc (s : heap_state) (size ptr size_out : Nat) (h : avl_heap) (a : Alloc)
      (runs : List (Nat × Nat)) (hs : reachable w s)
      (hcall : alloc_runs w s.heap s.allocator size = some (ptr, size_out, h, a, runs)) :
      reachable w ⟨h, a, if ptr = 0 then s.outstanding else (ptr, size_out) :: s.outstanding,
        s.runs ++ runs⟩
  | free (s : heap_state) (ptr size : Nat) (h : avl_heap) (hs : reachable w s)
      (hmem : (ptr, size) ∈ s.outstanding) (hcall : free w s.heap ptr size = some h) :
      reachable w ⟨h, s.allocator, s.outstanding.erase (ptr, size), s.runs⟩

/-- The invariant of the reachable heap states. -/
def inv (w : ptrdiff_width) (s : heap_state) : Prop :=
  heap_wf w s.heap ∧ tight w (inorder s.heap.addr_tree) ∧ in_range w (inorder s.heap.addr_tree) ∧
  (∀ o ∈ s.outstanding, o.1 + o.2 ≤ w.size_range) ∧
  s.outstanding.Pairwise disjoint ∧
  (∀ r ∈ free_regions w s.heap, ∀ o ∈ s.outstanding, disjoint r o) ∧
  s.runs.Pairwise disjoint ∧
  (∀ r ∈ s.runs, r.1 ≠ 0 ∧ r.1 + r.2 ≤ w.size_range) ∧
  (∀ x, covers (free_regions w s.heap) x ∨ covers s.outstanding x ↔ covers s.runs x) ∧
  s.heap.used_size = total_bytes s.outstanding ∧
  s.heap.used_size + total_bytes (free_regions w s.heap) = s.heap.total_size ∧
  s.heap.total_size = total_bytes s.runs ∧
  fresh_answers w s.runs s.allocator.answers

end avl_heap

namespace avl_heap

/-- The state after `alloc(17)` on the empty 64-bit heap over the allocator `one_answer 4096`:
the heap has taken the run of 1 MiB at 4096 and returned its first 64 bytes. -/
def after_alloc_17 : heap_state :=
  { heap :=
      { size_tree := avl_node.mk avl_node.nullptr avl_node.nullptr 0
          (block.create ptrdiff_width.w64 4160 1048512)
        addr_tree := avl_node.mk avl_node.nullptr avl_node.nullptr 0
          (block.create ptrdiff_width.w64 4160 1048512)
        used_size := 64
        total_size := 2 ^ 20 }
    allocator := ⟨[]⟩
    outstanding := [(4096, 64)]
    runs := [(4096, 2 ^ 20)] }

end avl_heap

/-!
The set.

A node of `avl_set<T, C>` is an object made by `new node(...)`: the embedding takes the pair of
its address and its value as the payload of the tree, so that equal values in distinct nodes are
distinct nodes.  The member `container` of an iterator is left out (there is one container); its
member `ptr` is the node it points to, `none` for the null pointer.  `count` is a `size_t`.
-/

/-- The data members of `avl_set`. -/
structure avl_set (T : Type) where
  tree : avl_node (Nat × T)
  count : Nat

namespace avl_set

open avl_node avl_tree

variable {T : Type}

/-- `data_cmp`: the comparator `C` on the values of two nodes. -/
def data_cmp (less_than : T → T → Bool) (a b : Nat × T) : Bool :=
  less_than a.2 b.2

/-- `avl_set::iterator`. -/
structure iterator (T : Type) where
  ptr : Option (Nat × T)

/-- A set after its constructor `avl_set(void)`. -/
def initial : avl_set T := ⟨nullptr, 0⟩

/-- `empty()`, with its `assert((count == 0) == tree.empty())`. -/
def empty (s : avl_set T) : Option Bool :=
  if decide (s.count = 0) = s.tree.is_null then some (decide (s.count = 0)) else none

/-- `clear()`: every node is deleted and the tree is left empty. -/
def clear (_ : avl_set T) : avl_set T := ⟨nullptr, 0⟩

/-- `size()`. -/
def size (s : avl_set T) : Nat := s.count

/-- `iterator::operator++`: with a non-null `ptr` the branch taken is `head_node()`, with a null
`ptr` it is `next_node(ptr)`, whose `assert(cur)` fails. -/
def iterator.increment (s : avl_set T) (it : iterator T) : Option (iterator T) :=
  match it.ptr with
  | some _ => some ⟨data_of (head_node s.tree).node⟩
  | none => do
    let next ← next_node (⟨[], nullptr⟩ : node_ptr (Nat × T))
    some ⟨next.bind fun p => data_of p.node⟩

/-- `iterator::operator--`: with a non-null `ptr` the branch taken is `tail_node()`, with a null
`ptr` it is `prev_node(ptr)`, whose `assert(cur)` fails. -/
def iterator.decrement (s : avl_set T) (it : iterator T) : Option (iterator T) :=
  match it.ptr with
  | some _ => some ⟨data_of (tail_node s.tree).node⟩
  | none => do
    let prev ← prev_node (⟨[], nullptr⟩ : node_ptr (Nat × T))
    some ⟨prev.bind fun p => data_of p.node⟩

/-- The type of `this` in a member function of `avl_set`: `avl_set *` in a non-const member,
`const avl_set *` in a member declared `const`. -/
inductive this_pointer where
  | non_const : this_pointer
  | const : this_pointer
deriving DecidableEq

/-- The private constructor `iterator(avl_set *cont, node *p = nullptr)` called with
`cont = this`.  Its first parameter is a pointer to a non-const set; no implicit conversion
leads from `const avl_set *` to it, so with the `this` of a `const` member the call is
ill-formed and no iterator is made: the result is `none`. -/
def iterator.construct (cont : this_pointer) (p : Option (Nat × T)) : Option (iterator T) :=
  match cont with
  | this_pointer.non_const => some ⟨p⟩
  | this_pointer.const => none

/-- The statement `node *ptr = tree.search(...)` of `find(key)`, with `K = T` and `CMP = C`:
the node the three-way search ends at, `none` for null. -/
def find_search (less_than : T → T → Bool) (s : avl_set T) (key : T) : Option (Nat × T) :=
  data_of (search (fun (_ : Unit) (cur : Nat × T) =>
      if less_than key cur.2 then ((-1 : Int), ())
      else if less_than cur.2 key then ((1 : Int), ())
      else ((0 : Int), ())) s.tree ()).1

/-- `find(key)` with `K = T` and `CMP = C`.  The member is declared `const` and returns
`iterator(this, ptr)`: `none` is the ill-formed call of the constructor. -/
def find (less_than : T → T → Bool) (s : avl_set T) (key : T) : Option (iterator T) :=
  iterator.construct this_pointer.const (find_search less_than s key)

/-- `insert(args...)`; `addr` is the address of the node that `new` returns and `value` the value
built from `args`.  The result is the returned iterator and the set. -/
def insert (w : ptrdiff_width) (less_than : T → T → Bool) (s : avl_set T) (addr : Nat) (value : T) :
    Option (iterator T × avl_set T) := do
  let tree ← avl_tree.insert (data_cmp less_than) s.tree (addr, value)
  some (⟨some (addr, value)⟩, ⟨tree, (s.count + 1) % w.size_range⟩)

/-- `erase(it)`: the result is the returned iterator and the set. -/
def erase [DecidableEq T] (w : ptrdiff_width) (s : avl_set T) (it : iterator T) :
    Option (iterator T × avl_set T) := do
  let del_node := it.ptr
  let it ← it.increment s
  match del_node with
  | none => none
  | some del_node =>
    let tree ← avl_tree.erase s.tree del_node
    some (it, ⟨tree, (s.count + w.size_range - 1) % w.size_range⟩)

/-- The sets built from the empty set by `insert` and `erase` calls that return; `new` returns
the address of no node that is in the set, and `erase` is given an iterator to a node of the
set. -/
inductive reachable [DecidableEq T] (w : ptrdiff_width) (less_than : T → T → Bool) :
    avl_set T → Prop where
  | init : reachable w less_than initial
  | insert (s : avl_set T) (addr : Nat) (value : T) (it : iterator T) (s' : avl_set T)
      (hs : reachable w less_than s) (hnew : ∀ n ∈ inorder s.tree, n.1 ≠ addr)
      (hcall : insert w less_than s addr value = some (it, s')) : reachable w less_than s'
  | erase (s : avl_set T) (del_node : Nat × T) (it : iterator T) (s' : avl_set T)
      (hs : reachable w less_than s) (hmem : del_node ∈ inorder s.tree)
      (hcall : erase w s ⟨some del_node⟩ = some (it, s')) : reachable w less_than s'

/-- The set of the values 10, 20 and 30 in the nodes at the addresses 1, 2 and 3. -/
def three_values : avl_set Nat :=
  { tree := avl_node.mk (avl_node.mk nullptr nullptr 0 (1, 10))
      (avl_node.mk nullptr nullptr 0 (3, 30)) 0 (2, 20)
    count := 3 }

end avl_set

namespace avl_heap

open avl_node

/-- The state after `alloc(17)`, `alloc(64)` and `free(4096, 64)` on the empty 64-bit heap over
the allocator `one_answer 4096`: the first 64 bytes of the run are free again, the next 64 bytes
are outstanding, and the rest of the run is free. -/
def two_free_regions : heap_state :=
  { heap :=
      { size_tree := avl_node.mk
          (avl_node.mk nullptr nullptr 0 (block.create ptrdiff_width.w64 4096 64)) nullptr (-1)
          (block.create ptrdiff_width.w64 4224 1048448)
        addr_tree := avl_node.mk
          (avl_node.mk nullptr nullptr 0 (block.create ptrdiff_width.w64 4096 64)) nullptr (-1)
          (block.create ptrdiff_width.w64 4224 1048448)
        used_size := 64
        total_size := 2 ^ 20 }
    allocator := ⟨[]⟩
    outstanding := [(4160, 64)]
    runs := [(4096, 2 ^ 20)] }

/-- The base and the size of every free block, and the pointer and the size of every
outstanding allocation, are multiples of `alignment`. -/
def aligned_state (w : ptrdiff_width) (s : heap_state) : Prop :=
  (∀ b ∈ inorder s.heap.addr_tree, b.base % alignment = 0 ∧ b.size w % alignment = 0) ∧
  (∀ o ∈ s.outstanding, o.1 % alignment = 0 ∧ o.2 % alignment = 0)

end avl_heap

namespace avl_tree

open avl_node parent_link

variable {T : Type}

theorem inorder_root_of (parents : List (parent_link T)) (cur : avl_node T) :
    inorder (root_of parents cur) = before parents ++ inorder cur ++ after parents := by
  induction parents generalizing cur with
  | nil => simp [root_of, before, after]
  | cons p ps ih =>
    cases p <;> simp [root_of, attach, before, after, ih, inorder]

theorem legal_root_of (parents : List (parent_link T)) (cur : avl_node T) (h : Nat)
    (hp : legal_around parents h) (hc : legal cur) (hh : height cur = h) :
    legal (root_of parents cur) := by
  induction parents generalizing cur h with
  | nil => simpa [root_of] using hc
  | cons p ps ih =>
    cases p with
    | of_left r b d =>
      obtain ⟨hr, hb, h1, h2, hps⟩ := hp
      exact ih (mk cur r b d) _ hps ⟨hc, hr, by rw [hh]; exact hb, h1, h2⟩ (by simp [height, hh])
    | of_right l b d =>
      obtain ⟨hl, hb, h1, h2, hps⟩ := hp
      exact ih (mk l cur b d) _ hps ⟨hl, hc, by rw [hh]; exact hb, h1, h2⟩ (by simp [height, hh])

theorem rotate_left_inorder (cur t : avl_node T) (h : rotate_left cur = some t) :
    inorder t = inorder cur := by
  match cur, h with
  | mk l (mk tl tr tb td) b d, h =>
    simp only [rotate_left, Option.some.injEq] at h
    subst h
    simp [inorder]

theorem rotate_right_inorder (cur t : avl_node T) (h : rotate_right cur = some t) :
    inorder t = inorder cur := by
  match cur, h with
  | mk (mk tl tr tb td) r b d, h =>
    simp only [rotate_right, Option.some.injEq] at h
    subst h
    simp [inorder]

end avl_tree

namespace avl_tree

open avl_node parent_link

variable {T : Type}

theorem rotate_inorder (cur t : avl_node T) (h : rotate cur = some t) :
    inorder t = inorder cur := by
  cases cur with
  | nullptr => simp [rotate] at h
  | mk l r b d =>
    simp only [rotate] at h
    split at h
    · cases hl : balance_of l with
      | none => simp [hl] at h
      | some lb =>
        simp only [hl, Option.bind_eq_bind, Option.some_bind] at h
        split at h
        · cases hl2 : rotate_left l with
          | none => simp [hl2] at h
          | some l2 =>
            simp only [hl2, Option.some_bind] at h
            rw [rotate_right_inorder _ _ h]
            simp [inorder, rotate_left_inorder _ _ hl2]
        · exact rotate_right_inorder _ _ h
    · split at h
      · cases hr : balance_of r with
        | none => simp [hr] at h
        | some rb =>
          simp only [hr, Option.bind_eq_bind, Option.some_bind] at h
          split at h
          · cases hr2 : rotate_right r with
            | none => simp [hr2] at h
            | some r2 =>
              simp only [hr2, Option.some_bind] at h
              rw [rotate_left_inorder _ _ h]
              simp [inorder, rotate_right_inorder _ _ hr2]
          · exact rotate_left_inorder _ _ h
      · simp only [Option.some.injEq] at h
        subst h; rfl

/-- Rotation at a node whose left subtree is two higher than its right one. -/
theorem rotate_left_heavy (l r : avl_node T) (d : T) (hl : legal l) (hr : legal r)
    (hh : height l = height r + 2) :
    ∃ t, rotate (mk l r (-2) d) = some t ∧ legal t ∧ ∃ tb, balance_of t = some tb ∧
      ((tb = 0 ∧ height t = height r + 2 ∧ balance_of l ≠ some 0) ∨
       (tb ≠ 0 ∧ height t = height r + 3 ∧ balance_of l = some 0)) := by
  cases l with
  | nullptr => simp [height] at hh
  | mk ll lr lb ld =>
    obtain ⟨hll, hlr, hlb, h1, h2⟩ := hl
    simp only [height] at hh
    by_cases hb1 : lb = 1
    · subst hb1
      cases lr with
      | nullptr => simp [height] at hlb; omega
      | mk ml mr mb md =>
        obtain ⟨hml, hmr, hmb, h3, h4⟩ := hlr
        simp only [height] at hlb hh
        simp only [rotate, balance_of, rotate_left, rotate_right, if_true, Option.bind_eq_bind,
          Option.some_bind]
        refine ⟨_, rfl, ?_, _, rfl, ?_⟩
        · simp only [legal, height]
          refine ⟨⟨hll, hml, ?_, ?_, ?_⟩, ⟨hmr, hr, ?_, ?_, ?_⟩, ?_, ?_, ?_⟩ <;> (try simp only [decide_eq_true_eq]) <;> split_ifs <;> omega
        · left
          simp only [height]
          refine ⟨by simp only [decide_eq_true_eq]; split_ifs <;> omega, by omega, by simp⟩
    · simp only [rotate, balance_of, rotate_right, if_true, Option.bind_eq_bind,
          Option.some_bind, Option.some.injEq, hb1, if_false]
      refine ⟨_, rfl, ?_, _, rfl, ?_⟩
      · simp only [legal, height]
        refine ⟨hll, ⟨hlr, hr, ?_, ?_, ?_⟩, ?_, ?_, ?_⟩ <;> (try simp only [decide_eq_true_eq]) <;> split_ifs <;> omega
      · simp only [height]
        by_cases hb0 : lb = 0
        · right; subst hb0; simp; omega
        · left
          refine ⟨by simp only [decide_eq_true_eq]; split_ifs <;> omega, by omega, by simpa using hb0⟩

/-- Rotation at a node whose right subtree is two higher than its left one. -/
theorem rotate_right_heavy (l r : avl_node T) (d : T) (hl : legal l) (hr : legal r)
    (hh : height r = height l + 2) :
    ∃ t, rotate (mk l r 2 d) = some t ∧ legal t ∧ ∃ tb, balance_of t = some tb ∧
      ((tb = 0 ∧ height t = height l + 2 ∧ balance_of r ≠ some 0) ∨
       (tb ≠ 0 ∧ height t = height l + 3 ∧ balance_of r = some 0)) := by
  cases r with
  | nullptr => simp [height] at hh
  | mk rl rr rb rd =>
    obtain ⟨hrl, hrr, hrb, h1, h2⟩ := hr
    simp only [height] at hh
    by_cases hb1 : rb = -1
    · subst hb1
      cases rl with
      | nullptr => simp [height] at hrb
      | mk ml mr mb md =>
        obtain ⟨hml, hmr, hmb, h3, h4⟩ := hrl
        simp only [height] at hrb hh
        simp only [rotate, balance_of, rotate_left, rotate_right, if_true, Option.bind_eq_bind,
          Option.some_bind]
        refine ⟨_, rfl, ?_, _, rfl, ?_⟩
        · simp only [legal, height]
          refine ⟨⟨hl, hml, ?_, ?_, ?_⟩, ⟨hmr, hrr, ?_, ?_, ?_⟩, ?_, ?_, ?_⟩ <;>
            (try simp only [decide_eq_true_eq]) <;> split_ifs <;> omega
        · left
          simp only [height]
          refine ⟨by simp only [decide_eq_true_eq]; split_ifs <;> omega, by omega, by simp⟩
    · simp only [rotate, balance_of, rotate_left, if_true, Option.bind_eq_bind,
          Option.some_bind, Option.some.injEq, hb1, if_false]
      refine ⟨_, rfl, ?_, _, rfl, ?_⟩
      · simp only [legal, height]
        refine ⟨⟨hl, hrl, ?_, ?_, ?_⟩, hrr, ?_, ?_, ?_⟩ <;>
          (try simp only [decide_eq_true_eq]) <;> split_ifs <;> omega
      · simp only [height]
        by_cases hb0 : rb = 0
        · right; subst hb0; simp; omega
        · left
          refine ⟨by simp only [decide_eq_true_eq]; split_ifs <;> omega, by omega, by simpa using hb0⟩

end avl_tree

namespace avl_tree

open avl_node parent_link

variable {T : Type}

/-- Insert mode of `rebalance`: the subtree of `cur` on side `diff` has grown by one. -/
theorem rebalance_insert_legal (parents : List (parent_link T)) (l r : avl_node T) (b : Int) (d : T)
    (diff : Int) (h : Nat) (hp : legal_around parents h) (hl : legal l) (hr : legal r)
    (hb1 : -1 ≤ b) (hb2 : b ≤ 1)
    (hg : (diff = -1 ∧ ∃ n, height l = n + 1 ∧ b = (height r : Int) - n ∧ h = max n (height r) + 1 ∧
              (n = 0 ∨ balance_of l ≠ some 0)) ∨
          (diff = 1 ∧ ∃ n, height r = n + 1 ∧ b = (n : Int) - height l ∧ h = max (height l) n + 1 ∧
              (n = 0 ∨ balance_of r ≠ some 0))) :
    ∃ t, rebalance parents (mk l r b d) diff false = some t ∧ legal t := by
  have hdiff : diff = -1 ∨ diff = 1 := by
    rcases hg with ⟨h1, -⟩ | ⟨h1, -⟩
    · exact Or.inl h1
    · exact Or.inr h1
  induction parents generalizing l r b d diff h with
  | nil =>
    simp only [rebalance, Bool.false_eq_true, if_false, hdiff, not_true_eq_false]
    split_ifs with hin
    · refine ⟨_, rfl, hl, hr, ?_, hin.1, hin.2⟩
      rcases hg with ⟨rfl, n, h1, h2, -, -⟩ | ⟨rfl, n, h1, h2, -, -⟩ <;> omega
    · rcases hg with ⟨rfl, n, h1, h2, -, h4⟩ | ⟨rfl, n, h1, h2, -, h4⟩
      · have hb : b = -1 := by omega
        subst hb
        obtain ⟨t, ht, hlt, -⟩ := rotate_left_heavy l r d hl hr (by omega)
        exact ⟨t, ht, hlt⟩
      · have hb : b = 1 := by omega
        subst hb
        obtain ⟨t, ht, hlt, -⟩ := rotate_right_heavy l r d hl hr (by omega)
        exact ⟨t, ht, hlt⟩
  | cons p ps ih =>
    simp only [rebalance, Bool.false_eq_true, if_false, false_and, hdiff, not_true_eq_false]
    split_ifs with hprop hin
    · -- the height has grown: propagate
      have hb : b = 0 := by omega
      subst hb
      have hcur : legal (mk l r (0 + diff) d) := by
        refine ⟨hl, hr, ?_, ?_, ?_⟩ <;>
          rcases hg with ⟨rfl, n, h1, h2, -, -⟩ | ⟨rfl, n, h1, h2, -, -⟩ <;> omega
      have hcurh : height (mk l r (0 + diff) d) = h + 1 := by
        simp only [height]
        rcases hg with ⟨rfl, n, h1, h2, h3, -⟩ | ⟨rfl, n, h1, h2, h3, -⟩ <;> omega
      have hne : balance_of (mk l r (0 + diff) d) ≠ some 0 := by
        simp only [balance_of, ne_eq, Option.some.injEq]
        rcases hg with ⟨rfl, -⟩ | ⟨rfl, -⟩ <;> omega
      cases p with
      | of_left pr pb pd =>
        obtain ⟨hpr, hpb, h1, h2, hps⟩ := hp
        exact ih _ pr pb pd (-1) _ hps hcur hpr h1 h2
          (Or.inl ⟨rfl, h, hcurh, hpb, rfl, Or.inr hne⟩) (Or.inl rfl)
      | of_right pl pb pd =>
        obtain ⟨hpl, hpb, h1, h2, hps⟩ := hp
        exact ih pl _ pb pd 1 _ hps hpl hcur h1 h2
          (Or.inr ⟨rfl, h, hcurh, hpb, rfl, Or.inr hne⟩) (Or.inr rfl)
    · -- the height is unchanged
      refine ⟨_, rfl, legal_root_of _ _ h hp ⟨hl, hr, ?_, hin.1, hin.2⟩ ?_⟩
      · rcases hg with ⟨rfl, n, h1, h2, -, -⟩ | ⟨rfl, n, h1, h2, -, -⟩ <;> omega
      · simp only [height]
        rcases hg with ⟨rfl, n, h1, h2, h3, -⟩ | ⟨rfl, n, h1, h2, h3, -⟩ <;> omega
    · rcases hg with ⟨rfl, n, h1, h2, h3, h4⟩ | ⟨rfl, n, h1, h2, h3, h4⟩
      · have hb : b = -1 := by omega
        subst hb
        obtain ⟨t, ht, hlt, tb, htb, hcase⟩ := rotate_left_heavy l r d hl hr (by omega)
        have ht2 : rotate (mk l r (-1 + -1) d) = some t := ht
        simp only [ht2, htb, Option.bind_eq_bind, Option.some_bind]
        refine ⟨_, rfl, legal_root_of _ _ h hp hlt ?_⟩
        rcases hcase with ⟨-, hh, -⟩ | ⟨-, -, h0⟩
        · omega
        · rcases h4 with h4 | h4
          · omega
          · exact absurd h0 h4
      · have hb : b = 1 := by omega
        subst hb
        obtain ⟨t, ht, hlt, tb, htb, hcase⟩ := rotate_right_heavy l r d hl hr (by omega)
        have ht2 : rotate (mk l r (1 + 1) d) = some t := ht
        simp only [ht2, htb, Option.bind_eq_bind, Option.some_bind]
        refine ⟨_, rfl, legal_root_of _ _ h hp hlt ?_⟩
        rcases hcase with ⟨-, hh, -⟩ | ⟨-, -, h0⟩
        · omega
        · rcases h4 with h4 | h4
          · omega
          · exact absurd h0 h4

end avl_tree

namespace avl_tree

open avl_node parent_link

variable {T : Type}

/-- Remove mode of `rebalance`: the subtree of `cur` on side `diff` has shrunk by one. -/
theorem rebalance_remove_legal (parents : List (parent_link T)) (l r : avl_node T) (b : Int) (d : T)
    (diff : Int) (h : Nat) (hp : legal_around parents h) (hl : legal l) (hr : legal r)
    (hb1 : -1 ≤ b) (hb2 : b ≤ 1)
    (hg : (diff = -1 ∧ b = (height r : Int) - (height l + 1) ∧ h = max (height l + 1) (height r) + 1) ∨
          (diff = 1 ∧ b = ((height r : Int) + 1) - height l ∧ h = max (height l) (height r + 1) + 1)) :
    ∃ t, rebalance parents (mk l r b d) diff true = some t ∧ legal t := by
  have hdiff : diff = -1 ∨ diff = 1 := by
    rcases hg with ⟨h1, -⟩ | ⟨h1, -⟩
    · exact Or.inl h1
    · exact Or.inr h1
  induction parents generalizing l r b d diff h with
  | nil =>
    simp only [rebalance, if_true, hdiff, not_true_eq_false, if_false]
    split_ifs with hin
    · refine ⟨_, rfl, hl, hr, ?_, hin.1, hin.2⟩
      rcases hg with ⟨rfl, h1, -⟩ | ⟨rfl, h1, -⟩ <;> omega
    · rcases hg with ⟨rfl, h1, -⟩ | ⟨rfl, h1, -⟩
      · have hb : b = 1 := by omega
        subst hb
        obtain ⟨t, ht, hlt, -⟩ := rotate_right_heavy l r d hl hr (by omega)
        exact ⟨t, ht, hlt⟩
      · have hb : b = -1 := by omega
        subst hb
        obtain ⟨t, ht, hlt, -⟩ := rotate_left_heavy l r d hl hr (by omega)
        exact ⟨t, ht, hlt⟩
  | cons p ps ih =>
    simp only [rebalance, if_true, true_and, hdiff, not_true_eq_false, if_false]
    split_ifs with hprop hin
    · -- the height has shrunk: propagate
      have hcur : legal (mk l r (b - diff) d) := by
        refine ⟨hl, hr, ?_, ?_, ?_⟩ <;>
          rcases hg with ⟨rfl, h1, -⟩ | ⟨rfl, h1, -⟩ <;> omega
      have hcurh : height (mk l r (b - diff) d) + 1 = h := by
        simp only [height]
        rcases hg with ⟨rfl, h1, h2⟩ | ⟨rfl, h1, h2⟩ <;> omega
      cases p with
      | of_left pr pb pd =>
        obtain ⟨hpr, hpb, h1, h2, hps⟩ := hp
        refine ih _ pr pb pd (-1) _ hps hcur hpr h1 h2 (Or.inl ⟨rfl, ?_, ?_⟩) (Or.inl rfl)
        · rw [hpb, ← hcurh]; push_cast; ring
        · rw [hcurh]
      | of_right pl pb pd =>
        obtain ⟨hpl, hpb, h1, h2, hps⟩ := hp
        refine ih pl _ pb pd 1 _ hps hpl hcur h1 h2 (Or.inr ⟨rfl, ?_, ?_⟩) (Or.inr rfl)
        · rw [hpb, ← hcurh]; push_cast; ring
        · rw [hcurh]
    · -- the height is unchanged
      refine ⟨_, rfl, legal_root_of _ _ h hp ⟨hl, hr, ?_, hin.1, hin.2⟩ ?_⟩
      · rcases hg with ⟨rfl, h1, -⟩ | ⟨rfl, h1, -⟩ <;> omega
      · simp only [height]
        rcases hg with ⟨rfl, h1, h2⟩ | ⟨rfl, h1, h2⟩ <;> omega
    · have key : ∃ t, rotate (mk l r (b - diff) d) = some t ∧ legal t ∧ ∃ tb, balance_of t = some tb ∧
          ((tb = 0 ∧ height t + 1 = h) ∨ (tb ≠ 0 ∧ height t = h)) := by
        rcases hg with ⟨rfl, h1, h2⟩ | ⟨rfl, h1, h2⟩
        · have hb : b = 1 := by omega
          subst hb
          obtain ⟨t, ht, hlt, tb, htb, hcase⟩ := rotate_right_heavy l r d hl hr (by omega)
          refine ⟨t, ht, hlt, tb, htb, ?_⟩
          rcases hcase with ⟨h0, hh, -⟩ | ⟨h0, hh, -⟩
          · left; exact ⟨h0, by omega⟩
          · right; exact ⟨h0, by omega⟩
        · have hb : b = -1 := by omega
          subst hb
          obtain ⟨t, ht, hlt, tb, htb, hcase⟩ := rotate_left_heavy l r d hl hr (by omega)
          refine ⟨t, ht, hlt, tb, htb, ?_⟩
          rcases hcase with ⟨h0, hh, -⟩ | ⟨h0, hh, -⟩
          · left; exact ⟨h0, by omega⟩
          · right; exact ⟨h0, by omega⟩
      obtain ⟨t, ht, hlt, tb, htb, hcase⟩ := key
      simp only [ht, htb, Option.bind_eq_bind, Option.some_bind]
      rcases hcase with ⟨h0, hh⟩ | ⟨h0, hh⟩
      · rw [if_pos h0]
        cases p with
        | of_left pr pb pd =>
          obtain ⟨hpr, hpb, h1, h2, hps⟩ := hp
          refine ih _ pr pb pd (-1) _ hps hlt hpr h1 h2 (Or.inl ⟨rfl, ?_, ?_⟩) (Or.inl rfl)
          · rw [hpb, ← hh]; push_cast; ring
          · rw [hh]
        | of_right pl pb pd =>
          obtain ⟨hpl, hpb, h1, h2, hps⟩ := hp
          refine ih pl _ pb pd 1 _ hps hpl hlt h1 h2 (Or.inr ⟨rfl, ?_, ?_⟩) (Or.inr rfl)
          · rw [hpb, ← hh]; push_cast; ring
          · rw [hh]
      · rw [if_neg h0]
        exact ⟨_, rfl, legal_root_of _ _ h hp hlt hh⟩

end avl_tree

namespace avl_tree

open avl_node parent_link

variable {T : Type}

/-- `rebalance` leaves the in-order traversal of the tree as it is. -/
theorem rebalance_inorder (parents : List (parent_link T)) (cur : avl_node T) (diff : Int)
    (remove : Bool) (t : avl_node T) (h : rebalance parents cur diff remove = some t) :
    inorder t = before parents ++ inorder cur ++ after parents := by
  induction parents generalizing cur diff with
  | nil =>
    cases cur with
    | nullptr => simp [rebalance] at h
    | mk l r b d =>
      simp only [rebalance] at h
      split_ifs at h
      · simp only [Option.some.injEq] at h
        subst h; simp [inorder, before, after]
      · rw [rotate_inorder _ _ h]; simp [inorder, before, after]
      · simp only [Option.some.injEq] at h
        subst h; simp [inorder, before, after]
      · rw [rotate_inorder _ _ h]; simp [inorder, before, after]
  | cons p ps ih =>
    cases cur with
    | nullptr => simp [rebalance] at h
    | mk l r b d =>
      have hatt : ∀ c : avl_node T, before ps ++ inorder (attach p c) ++ after ps
          = before (p :: ps) ++ inorder c ++ after (p :: ps) := by
        intro c; cases p <;> simp [attach, before, after, inorder]
      simp only [rebalance] at h
      split_ifs at h with h1 h2 h3 h4
      all_goals first
        | (rw [ih _ _ h, hatt]; simp [inorder]; done)
        | (simp only [Option.some.injEq] at h; subst h; rw [inorder_root_of]; simp [inorder]; done)
        | skip
      all_goals
        simp only [Option.bind_eq_bind, Option.bind_eq_some] at h
        obtain ⟨c, hrot, cb, hcb, h⟩ := h
        have hio := rotate_inorder _ _ hrot
        split_ifs at h
        · rw [ih _ _ h, hatt, hio]; simp [inorder]
        · simp only [Option.some.injEq] at h
          subst h; rw [inorder_root_of, hio]; simp [inorder]

end avl_tree

namespace avl_tree

open avl_node parent_link

variable {T : Type}

theorem ordered_append (lt : T → T → Bool) (xs ys : List T) :
    ordered lt (xs ++ ys) ↔ ordered lt xs ∧ ordered lt ys ∧ ∀ a ∈ xs, ∀ b ∈ ys, lt b a = false := by
  simp [ordered, List.pairwise_append]

theorem ordered_cons (lt : T → T → Bool) (x : T) (ys : List T) :
    ordered lt (x :: ys) ↔ (∀ b ∈ ys, lt b x = false) ∧ ordered lt ys := by
  simp [ordered]

/-- The descent of `insert` ends at a node with a free child pointer on the side it reports; the
new node's place in the in-order traversal splits the traversal of the subtree in two. -/
theorem insert_loop_spec (lt : T → T → Bool) (n : T) (cur : avl_node T) (hcur : cur ≠ nullptr)
    (parents : List (parent_link T)) (side0 : Int) :
    ∃ parents' l' r' b' d' side A B,
      insert_loop lt n parents cur side0 = (⟨parents', mk l' r' b' d'⟩, side) ∧
      inorder cur = A ++ B ∧
      ((side = -1 ∧ l' = nullptr ∧ before parents' = before parents ++ A ∧
          d' :: inorder r' ++ after parents' = B ++ after parents) ∨
       (side = 1 ∧ r' = nullptr ∧ before parents' ++ (inorder l' ++ [d']) = before parents ++ A ∧
          after parents' = B ++ after parents)) ∧
      (legal cur → legal_around parents (height cur) →
        legal (mk l' r' b' d') ∧ legal_around parents' (height (mk l' r' b' d'))) ∧
      (strict_weak lt → ordered lt (inorder cur) →
        (∀ a ∈ A, lt n a = false) ∧ (∀ a ∈ B, lt a n = false)) := by
  induction cur generalizing parents side0 with
  | nullptr => exact absurd rfl hcur
  | mk l r b d ihl ihr =>
    clear hcur
    unfold insert_loop
    dsimp only
    obtain ⟨side, hsd⟩ : ∃ side : Int,
        side = (if lt n d = true then -1 else if lt d n = true then 1 else if b > 0 then -1 else 1) :=
      ⟨_, rfl⟩
    rw [← hsd]
    by_cases hside : side = -1
    · -- go left
      rw [if_pos hside]
      have hdn : strict_weak lt → lt d n = false := by
        intro hsw
        by_cases h1 : lt n d = true
        · exact hsw.1 _ _ h1
        · by_cases h2 : lt d n = true
          · simp [h1, h2] at hsd; omega
          · simpa using h2
      cases l with
      | nullptr =>
        refine ⟨parents, nullptr, r, b, d, _, [], inorder (mk nullptr r b d), rfl, by simp,
          Or.inl ⟨hside, rfl, by simp, by simp [inorder]⟩, fun h1 h2 => ⟨h1, h2⟩, ?_⟩
        intro hsw hord
        refine ⟨by simp, ?_⟩
        simp only [inorder, List.nil_append, ordered_cons] at hord
        intro a ha
        rcases List.mem_cons.1 ha with rfl | ha
        · exact hdn hsw
        · exact hsw.2 _ _ _ (hord.1 a ha) (hdn hsw)
      | mk ll lr lb ld =>
        obtain ⟨parents', l', r', b', d', side, A, B, heq, hio, hpos, hleg, hord⟩ :=
          ihl (by simp) (of_left r b d :: parents) side
        refine ⟨parents', l', r', b', d', side, A, B ++ d :: inorder r, heq, ?_, ?_, ?_, ?_⟩
        · simp only [inorder] at hio ⊢
          rw [hio]; simp
        · rcases hpos with ⟨h1, h2, h3, h4⟩ | ⟨h1, h2, h3, h4⟩
          · exact Or.inl ⟨h1, h2, by simpa [before] using h3, by simpa [after] using h4⟩
          · exact Or.inr ⟨h1, h2, by simpa [before] using h3, by simpa [after] using h4⟩
        · intro hl hp
          obtain ⟨hl1, hl2, hl3, hl4, hl5⟩ := hl
          exact hleg hl1 ⟨hl2, hl3, hl4, hl5, hp⟩
        · intro hsw ho
          have ho2 := ho
          simp only [inorder] at ho2
          rw [ordered_append, ordered_cons] at ho2
          obtain ⟨hA, hB⟩ := hord hsw ho2.1
          refine ⟨hA, ?_⟩
          intro a ha
          rcases List.mem_append.1 ha with ha | ha
          · exact hB a ha
          · rcases List.mem_cons.1 ha with rfl | ha
            · exact hdn hsw
            · exact hsw.2 _ _ _ (ho2.2.1.1 a ha) (hdn hsw)
    · -- go right
      rw [if_neg hside]
      have hside1 : side = 1 := by
        rw [hsd] at hside ⊢
        split_ifs at hside ⊢ <;> simp_all
      have hnd : strict_weak lt → lt n d = false := by
        intro hsw
        by_cases h1 : lt n d = true
        · simp [h1] at hsd; omega
        · simpa using h1
      cases r with
      | nullptr =>
        refine ⟨parents, l, nullptr, b, d, _, inorder (mk l nullptr b d), [], rfl, by simp,
          Or.inr ⟨hside1, rfl, by simp [inorder], by simp⟩, fun h1 h2 => ⟨h1, h2⟩, ?_⟩
        intro hsw hord
        refine ⟨?_, by simp⟩
        simp only [inorder, ordered_append, ordered_cons] at hord
        intro a ha
        simp only [inorder, List.mem_append, List.mem_cons, List.not_mem_nil, or_false] at ha
        rcases ha with ha | rfl
        · exact hsw.2 _ _ _ (hnd hsw) (hord.2.2 a ha d (by simp))
        · exact hnd hsw
      | mk rl rr rb rd =>
        obtain ⟨parents', l', r', b', d', side, A, B, heq, hio, hpos, hleg, hord⟩ :=
          ihr (by simp) (of_right l b d :: parents) side
        refine ⟨parents', l', r', b', d', side, inorder l ++ d :: A, B, heq, ?_, ?_, ?_, ?_⟩
        · simp only [inorder] at hio ⊢
          rw [hio]; simp
        · rcases hpos with ⟨h1, h2, h3, h4⟩ | ⟨h1, h2, h3, h4⟩
          · exact Or.inl ⟨h1, h2, by simpa [before] using h3, by simpa [after] using h4⟩
          · exact Or.inr ⟨h1, h2, by simpa [before] using h3, by simpa [after] using h4⟩
        · intro hl hp
          obtain ⟨hl1, hl2, hl3, hl4, hl5⟩ := hl
          refine hleg hl2 ⟨hl1, hl3, hl4, hl5, ?_⟩
          simpa [height] using hp
        · intro hsw ho
          have ho2 := ho
          simp only [inorder] at ho2
          rw [ordered_append, ordered_cons] at ho2
          obtain ⟨hA, hB⟩ := hord hsw ho2.2.1.2
          refine ⟨?_, hB⟩
          intro a ha
          rcases List.mem_append.1 ha with ha | ha
          · exact hsw.2 _ _ _ (hnd hsw) (ho2.2.2 a ha d (by simp))
          · rcases List.mem_cons.1 ha with rfl | ha
            · exact hnd hsw
            · exact hA a ha

end avl_tree

namespace avl_tree

open avl_node parent_link

variable {T : Type}

/-- What `insert` does to a legal tree: the new node is put into the in-order traversal at a
place where nothing before it is greater and nothing after it is smaller, and the tree stays
legal. -/
theorem insert_spec (lt : T → T → Bool) (root : avl_node T) (n : T) (hroot : legal root) :
    ∃ t A B, insert lt root n = some t ∧ legal t ∧ inorder root = A ++ B ∧
      inorder t = A ++ n :: B ∧
      (strict_weak lt → ordered lt (inorder root) →
        (∀ a ∈ A, lt n a = false) ∧ (∀ a ∈ B, lt a n = false)) := by
  cases root with
  | nullptr =>
    refine ⟨mk nullptr nullptr 0 n, [], [], rfl, ?_, rfl, rfl, fun _ _ => ⟨by simp, by simp⟩⟩
    simp [legal, height]
  | mk l r b d =>
    obtain ⟨parents', l', r', b', d', side, A, B, heq, hio, hpos, hleg, hord⟩ :=
      insert_loop_spec lt n (mk l r b d) (by simp) [] 0
    obtain ⟨hcur, hps⟩ := hleg hroot trivial
    obtain ⟨hl', hr', hb', hb1, hb2⟩ := hcur
    have hleaf : legal (mk nullptr nullptr 0 n) := by simp [legal, height]
    simp only [insert, heq]
    rcases hpos with ⟨rfl, rfl, h3, h4⟩ | ⟨rfl, rfl, h3, h4⟩
    · simp only [if_true, is_null]
      obtain ⟨t, ht, hlt⟩ := rebalance_insert_legal parents' (mk nullptr nullptr 0 n) r' b' d' (-1)
        (height (mk nullptr r' b' d')) hps hleaf hr' hb1 hb2
        (Or.inl ⟨rfl, 0, by simp [height], by simpa [height] using hb', by simp [height], Or.inl rfl⟩)
      refine ⟨t, A, B, ht, hlt, hio, ?_, hord⟩
      rw [rebalance_inorder _ _ _ _ _ ht, h3]
      simp only [before, after, inorder, List.nil_append, List.append_nil, List.append_assoc,
        List.cons_append] at h4 ⊢
      rw [h4]
    · have hne : ¬ ((1 : Int) = -1) := by decide
      simp only [if_neg hne, if_true, is_null]
      obtain ⟨t, ht, hlt⟩ := rebalance_insert_legal parents' l' (mk nullptr nullptr 0 n) b' d' 1
        (height (mk l' nullptr b' d')) hps hl' hleaf hb1 hb2
        (Or.inr ⟨rfl, 0, by simp [height], by simpa [height] using hb', by simp [height], Or.inl rfl⟩)
      refine ⟨t, A, B, ht, hlt, hio, ?_, hord⟩
      rw [rebalance_inorder _ _ _ _ _ ht, h4]
      simp only [before, after, inorder, List.nil_append, List.append_nil, List.append_assoc,
        List.cons_append] at h3 ⊢
      rw [← h3]
      simp

end avl_tree

namespace avl_tree

open avl_node parent_link

variable {T : Type}

theorem root_of_append (ps qs : List (parent_link T)) (cur : avl_node T) :
    root_of (ps ++ qs) cur = root_of qs (root_of ps cur) := by
  induction ps generalizing cur with
  | nil => rfl
  | cons p ps ih => simp [root_of, ih]

/-- Every node of a tree is reached from the root by a chain of parents. -/
theorem exists_position (t : avl_node T) (x : T) (hx : x ∈ inorder t) :
    ∃ ps l r b, t = root_of ps (mk l r b x) := by
  induction t with
  | nullptr => simp [inorder] at hx
  | mk l r b d ihl ihr =>
    simp only [inorder, List.mem_append, List.mem_cons] at hx
    rcases hx with hx | rfl | hx
    · obtain ⟨ps, l', r', b', h⟩ := ihl hx
      exact ⟨ps ++ [of_left r b d], l', r', b', by rw [root_of_append, ← h]; rfl⟩
    · exact ⟨[], l, r, b, rfl⟩
    · obtain ⟨ps, l', r', b', h⟩ := ihr hx
      exact ⟨ps ++ [of_right l b d], l', r', b', by rw [root_of_append, ← h]; rfl⟩

theorem find_node_none [DecidableEq T] (x : T) (parents : List (parent_link T)) (cur : avl_node T)
    (hx : x ∉ inorder cur) : find_node x parents cur = none := by
  induction cur generalizing parents with
  | nullptr => rfl
  | mk l r b d ihl ihr =>
    simp only [inorder, List.mem_append, List.mem_cons, not_or] at hx
    simp only [find_node]
    rw [if_neg (fun h => hx.2.1 h.symm), ihl _ hx.1, ihr _ hx.2.2]

/-- Pointer resolution: in a tree without repeated nodes, `find_node` returns the place of the
node. -/
theorem find_node_root_of [DecidableEq T] (ps qs : List (parent_link T)) (l r : avl_node T) (b : Int)
    (x : T) (hnd : (inorder (root_of ps (mk l r b x))).Nodup) :
    find_node x qs (root_of ps (mk l r b x)) = some ⟨ps ++ qs, mk l r b x⟩ := by
  induction ps using List.reverseRecOn generalizing qs with
  | nil => simp [root_of, find_node]
  | append_singleton ps p ih =>
    rw [root_of_append] at hnd ⊢
    have hmem : x ∈ inorder (root_of ps (mk l r b x)) := by
      rw [inorder_root_of]; simp [inorder]
    cases p with
    | of_left pr pb pd =>
      simp only [root_of, attach, inorder] at hnd ⊢
      have hne : pd ≠ x := by
        rintro rfl
        exact (List.nodup_append.1 hnd).2.2 hmem (by simp)
      simp only [find_node, if_neg hne]
      rw [ih _ (List.nodup_append.1 hnd).1]
      simp
    | of_right pl pb pd =>
      simp only [root_of, attach, inorder] at hnd ⊢
      have hnd2 := List.nodup_append.1 hnd
      have hne : pd ≠ x := by
        rintro rfl
        exact (List.nodup_cons.1 hnd2.2.1).1 hmem
      have hnl : x ∉ inorder pl := fun h => hnd2.2.2 h (List.mem_cons_of_mem _ hmem)
      simp only [find_node, if_neg hne, find_node_none x _ pl hnl]
      rw [ih _ (List.nodup_cons.1 hnd2.2.1).2]
      simp

/-- A legal tree is legal around each of its nodes. -/
theorem legal_of_root_of (ps : List (parent_link T)) (cur : avl_node T)
    (h : legal (root_of ps cur)) : legal cur ∧ legal_around ps (height cur) := by
  induction ps generalizing cur with
  | nil => exact ⟨h, trivial⟩
  | cons p ps ih =>
    obtain ⟨h1, h2⟩ := ih _ h
    cases p with
    | of_left pr pb pd =>
      obtain ⟨hc, hr, hb, hb1, hb2⟩ := h1
      exact ⟨hc, hr, hb, hb1, hb2, by simpa [attach, height] using h2⟩
    | of_right pl pb pd =>
      obtain ⟨hl, hc, hb, hb1, hb2⟩ := h1
      exact ⟨hc, hl, hb, hb1, hb2, by simpa [attach, height] using h2⟩

theorem append_cons_inj_of_nodup (A B A' B' : List T) (x : T) (hnd : (A ++ x :: B).Nodup)
    (h : A ++ x :: B = A' ++ x :: B') : A = A' ∧ B = B' := by
  induction A generalizing A' with
  | nil =>
    cases A' with
    | nil => simpa using h
    | cons a A' =>
      simp only [List.nil_append, List.cons_append, List.cons.injEq] at h
      obtain ⟨rfl, h2⟩ := h
      simp only [List.nil_append, List.nodup_cons] at hnd
      exact absurd (by rw [h2]; simp) hnd.1
  | cons a A ih =>
    cases A' with
    | nil =>
      simp only [List.nil_append, List.cons_append, List.cons.injEq] at h
      obtain ⟨rfl, h2⟩ := h
      simp only [List.cons_append, List.nodup_cons] at hnd
      exact absurd (by simp) hnd.1
    | cons a' A' =>
      simp only [List.cons_append, List.cons.injEq] at h
      obtain ⟨rfl, h2⟩ := h
      simp only [List.cons_append, List.nodup_cons] at hnd
      obtain ⟨h3, h4⟩ := ih A' hnd.2 h2
      exact ⟨by rw [h3], h4⟩

end avl_tree

namespace avl_tree

open avl_node parent_link

variable {T : Type}

theorem rightmost_spec (cur : avl_node T) (hcur : cur ≠ nullptr) (parents : List (parent_link T)) :
    ∃ ps l b d, rightmost parents cur = ⟨ps, mk l nullptr b d⟩ ∧
      root_of ps (mk l nullptr b d) = root_of parents cur ∧
      before ps ++ (inorder l ++ [d]) = before parents ++ inorder cur ∧
      after ps = after parents ∧ height (mk l nullptr b d) ≤ height cur := by
  induction cur generalizing parents with
  | nullptr => exact absurd rfl hcur
  | mk l r b d _ ihr =>
    cases r with
    | nullptr => exact ⟨parents, l, b, d, rfl, rfl, by simp [inorder], rfl, le_refl _⟩
    | mk rl rr rb rd =>
      obtain ⟨ps, l', b', d', h1, h2, h3, h4, h5⟩ := ihr (by simp) (of_right l b d :: parents)
      refine ⟨ps, l', b', d', by rw [rightmost]; exact h1, by rw [h2]; rfl, ?_, by rw [h4]; rfl, ?_⟩
      · rw [h3]; simp [before, inorder]
      · simp only [height] at h5 ⊢; omega

theorem leftmost_spec (cur : avl_node T) (hcur : cur ≠ nullptr) (parents : List (parent_link T)) :
    ∃ ps r b d, leftmost parents cur = ⟨ps, mk nullptr r b d⟩ ∧
      root_of ps (mk nullptr r b d) = root_of parents cur ∧
      before ps = before parents ∧
      d :: inorder r ++ after ps = inorder cur ++ after parents ∧
      height (mk nullptr r b d) ≤ height cur := by
  induction cur generalizing parents with
  | nullptr => exact absurd rfl hcur
  | mk l r b d ihl _ =>
    cases l with
    | nullptr => exact ⟨parents, r, b, d, rfl, rfl, rfl, by simp [inorder], le_refl _⟩
    | mk ll lr lb ld =>
      obtain ⟨ps, r', b', d', h1, h2, h3, h4, h5⟩ := ihl (by simp) (of_left r b d :: parents)
      refine ⟨ps, r', b', d', by rw [leftmost]; exact h1, by rw [h2]; rfl, by rw [h3]; rfl, ?_, ?_⟩
      · rw [h4]; simp [after, inorder]
      · simp only [height] at h5 ⊢; omega

/-- Unlinking a leaf of a legal tree. -/
theorem unlink_spec (ps : List (parent_link T)) (d : T) (hps : legal_around ps 1) :
    ∃ t, unlink ⟨ps, mk nullptr nullptr 0 d⟩ = some t ∧ legal t ∧
      inorder t = before ps ++ after ps := by
  cases ps with
  | nil => exact ⟨nullptr, by simp [unlink, is_leaf, is_null], trivial, by simp [inorder, before, after]⟩
  | cons p ps =>
    cases p with
    | of_left pr pb pd =>
      obtain ⟨hpr, hpb, h1, h2, hps'⟩ := hps
      obtain ⟨t, ht, hlt⟩ := rebalance_remove_legal ps nullptr pr pb pd (-1) _ hps' trivial hpr h1 h2
        (Or.inl ⟨rfl, by simpa [height] using hpb, by simp [height]⟩)
      refine ⟨t, by simpa [unlink, is_leaf, is_null, attach, get_side] using ht, hlt, ?_⟩
      rw [rebalance_inorder _ _ _ _ _ ht]
      simp [inorder, before, after]
    | of_right pl pb pd =>
      obtain ⟨hpl, hpb, h1, h2, hps'⟩ := hps
      obtain ⟨t, ht, hlt⟩ := rebalance_remove_legal ps pl nullptr pb pd 1 _ hps' hpl trivial h1 h2
        (Or.inr ⟨rfl, by simpa [height] using hpb, by simp [height]⟩)
      refine ⟨t, by simpa [unlink, is_leaf, is_null, attach, get_side] using ht, hlt, ?_⟩
      rw [rebalance_inorder _ _ _ _ _ ht]
      simp [inorder, before, after]

/-- The end of `erase`: `replace_node` takes the place of `del_node`. -/
theorem replace_spec [DecidableEq T] (root : avl_node T) (del rep : T) (X Y : List T)
    (hroot : legal root) (hnd : (inorder root).Nodup) (hio : inorder root = X ++ del :: Y) :
    ∃ t, replace root del rep = some t ∧ legal t ∧ inorder t = X ++ rep :: Y := by
  obtain ⟨ps, l, r, b, rfl⟩ := exists_position root del (by rw [hio]; simp)
  have hf := find_node_root_of ps [] l r b del hnd
  simp only [List.append_nil] at hf
  obtain ⟨hcur, hps⟩ := legal_of_root_of _ _ hroot
  refine ⟨root_of ps (mk l r b rep), by simp [replace, hf], ?_, ?_⟩
  · exact legal_root_of ps _ _ hps hcur rfl
  · rw [inorder_root_of] at hio hnd ⊢
    simp only [inorder, List.append_assoc, List.cons_append] at hio hnd ⊢
    rw [← List.append_assoc] at hio hnd ⊢
    obtain ⟨h1, h2⟩ := append_cons_inj_of_nodup _ _ _ _ _ hnd hio
    rw [h1, h2]

theorem is_leaf_legal (l r : avl_node T) (b : Int) (d : T) (h : legal (mk l r b d)) :
    is_leaf (mk l r b d) = some (l.is_null && r.is_null) := by
  obtain ⟨-, -, hb, -, -⟩ := h
  cases l <;> cases r <;> simp_all [is_leaf, is_null, height]

end avl_tree

namespace avl_tree

open avl_node parent_link

variable {T : Type}

theorem replace_after_next [DecidableEq T] (root1 : avl_node T) (ps ps2 : List (parent_link T))
    (l r r2 : avl_node T) (b : Int) (del d2 : T)
    (hnd : (inorder (root_of ps (mk l r b del))).Nodup)
    (h1 : legal root1)
    (hio1 : inorder root1 = before ps2 ++ inorder r2 ++ after ps2)
    (hb : before ps2 = before ps ++ (inorder l ++ [del]))
    (ha : d2 :: inorder r2 ++ after ps2 = inorder r ++ after ps) :
    ∃ t, replace root1 del d2 = some t ∧ legal t ∧
      inorder t = before ps ++ inorder l ++ inorder r ++ after ps := by
  rw [inorder_root_of] at hnd
  simp only [inorder, List.append_assoc, List.cons_append] at hnd
  rw [← ha] at hnd
  have hio : inorder root1 = (before ps ++ inorder l) ++ del :: (inorder r2 ++ after ps2) := by
    rw [hio1, hb]; simp
  have hnd1 : (inorder root1).Nodup := by
    rw [hio]
    refine List.Nodup.sublist ?_ hnd
    simp only [List.append_assoc]
    refine List.Sublist.append_left ?_ _
    refine List.Sublist.append_left ?_ _
    exact List.Sublist.cons₂ _ (List.sublist_cons_self _ _)
  obtain ⟨t, ht, hlt, hit⟩ := replace_spec root1 del d2 _ _ h1 hnd1 hio
  refine ⟨t, ht, hlt, ?_⟩
  rw [hit]
  simp only [List.append_assoc]
  rw [← ha]; simp

theorem replace_after_prev [DecidableEq T] (root1 : avl_node T) (ps ps1 : List (parent_link T))
    (l r l1 : avl_node T) (b : Int) (del d1 : T)
    (hnd : (inorder (root_of ps (mk l r b del))).Nodup)
    (h1 : legal root1)
    (hio1 : inorder root1 = before ps1 ++ inorder l1 ++ after ps1)
    (hb : before ps1 ++ (inorder l1 ++ [d1]) = before ps ++ inorder l)
    (ha : after ps1 = del :: inorder r ++ after ps) :
    ∃ t, replace root1 del d1 = some t ∧ legal t ∧
      inorder t = before ps ++ inorder l ++ inorder r ++ after ps := by
  rw [inorder_root_of] at hnd
  simp only [inorder] at hnd
  have hnd' : ((before ps ++ inorder l) ++ del :: (inorder r ++ after ps)).Nodup := by
    simpa using hnd
  rw [← hb] at hnd'
  have hio : inorder root1 = (before ps1 ++ inorder l1) ++ del :: (inorder r ++ after ps) := by
    rw [hio1, ha]; simp
  have hnd1 : (inorder root1).Nodup := by
    rw [hio]
    refine List.Nodup.sublist ?_ hnd'
    refine List.Sublist.append ?_ (List.Sublist.refl _)
    rw [← List.append_assoc]
    exact List.sublist_append_left _ _
  obtain ⟨t, ht, hlt, hit⟩ := replace_spec root1 del d1 _ _ h1 hnd1 hio
  refine ⟨t, ht, hlt, ?_⟩
  rw [hit, ← hb]
  simp

end avl_tree

namespace avl_tree

open avl_node parent_link

variable {T : Type}

theorem neighbour_one (c : node_ptr T) : neighbour 1 c = next_node c := by
  simp [neighbour]

theorem neighbour_neg_one (c : node_ptr T) : neighbour (-1) c = prev_node c := by
  simp [neighbour]

theorem next_node_right (ps : List (parent_link T)) (l r : avl_node T) (b : Int) (d : T)
    (hr : r ≠ nullptr) :
    next_node ⟨ps, mk l r b d⟩ = some (some (leftmost (of_right l b d :: ps) r)) := by
  cases r with
  | nullptr => exact absurd rfl hr
  | mk rl rr rb rd => rfl

theorem prev_node_left (ps : List (parent_link T)) (l r : avl_node T) (b : Int) (d : T)
    (hl : l ≠ nullptr) :
    prev_node ⟨ps, mk l r b d⟩ = some (some (rightmost (of_left r b d :: ps) l)) := by
  cases l with
  | nullptr => exact absurd rfl hl
  | mk ll lr lb ld => rfl

theorem height_pos_of_ne (t : avl_node T) (h : t ≠ nullptr) : 1 ≤ height t := by
  cases t with
  | nullptr => exact absurd rfl h
  | mk l r b d => simp [height]

theorem ne_of_height_pos (t : avl_node T) (h : 1 ≤ height t) : t ≠ nullptr := by
  rintro rfl
  simp [height] at h

theorem is_null_eq_false (t : avl_node T) (h : t ≠ nullptr) : t.is_null = false := by
  cases t with
  | nullptr => exact absurd rfl h
  | mk l r b d => rfl

theorem erase_depth_spec [DecidableEq T] (depth : Nat) (ps : List (parent_link T))
    (l r : avl_node T) (b : Int) (del : T)
    (hroot : legal (root_of ps (mk l r b del)))
    (hnd : (inorder (root_of ps (mk l r b del))).Nodup)
    (hh : height (mk l r b del) ≤ depth) :
    ∃ t, erase_depth depth (root_of ps (mk l r b del)) del = some t ∧ legal t ∧
      inorder t = before ps ++ inorder l ++ inorder r ++ after ps := by
  induction depth generalizing ps l r b del with
  | zero => simp [height] at hh
  | succ depth ih =>
    have hf := find_node_root_of ps [] l r b del hnd
    simp only [List.append_nil] at hf
    obtain ⟨hcur, hps⟩ := legal_of_root_of _ _ hroot
    have hleaf := is_leaf_legal l r b del hcur
    simp only [erase_depth, hf, hleaf, Option.bind_eq_bind, Option.some_bind, balance_of]
    obtain ⟨hl, hr, hb, hb1, hb2⟩ := hcur
    by_cases hisleaf : (l.is_null && r.is_null) = true
    · -- a leaf
      rw [if_pos hisleaf]
      have hl0 : l = nullptr := by cases l <;> simp_all [is_null]
      have hr0 : r = nullptr := by cases r <;> simp_all [is_null]
      subst hl0 hr0
      have hb0 : b = 0 := by simpa [height] using hb
      subst hb0
      obtain ⟨t, ht, hlt, hit⟩ := unlink_spec ps del (by simpa [height] using hps)
      exact ⟨t, ht, hlt, by simpa [inorder] using hit⟩
    · rw [if_neg hisleaf]
      have hnonleaf : 1 ≤ height l ∨ 1 ≤ height r := by
        cases l with
        | nullptr =>
          cases r with
          | nullptr => simp [is_null] at hisleaf
          | mk _ _ _ _ => right; simp [height]
        | mk _ _ _ _ => left; simp [height]
      -- the two in-order neighbours inside the subtree, where they exist
      have hnext : r ≠ nullptr → ∃ ps2 r2 b2 d2,
          next_node ⟨ps, mk l r b del⟩ = some (some ⟨ps2, mk nullptr r2 b2 d2⟩) ∧
          root_of ps2 (mk nullptr r2 b2 d2) = root_of ps (mk l r b del) ∧
          before ps2 = before ps ++ (inorder l ++ [del]) ∧
          d2 :: inorder r2 ++ after ps2 = inorder r ++ after ps ∧
          height (mk nullptr r2 b2 d2) ≤ height r := by
        intro hr
        obtain ⟨ps2, r2, b2, d2, h1, h2, h3, h4, h5⟩ := leftmost_spec r hr (of_right l b del :: ps)
        exact ⟨ps2, r2, b2, d2, by rw [next_node_right _ _ _ _ _ hr, h1], h2, h3, h4, h5⟩
      have hprev : l ≠ nullptr → ∃ ps1 l1 b1 d1,
          prev_node ⟨ps, mk l r b del⟩ = some (some ⟨ps1, mk l1 nullptr b1 d1⟩) ∧
          root_of ps1 (mk l1 nullptr b1 d1) = root_of ps (mk l r b del) ∧
          before ps1 ++ (inorder l1 ++ [d1]) = before ps ++ inorder l ∧
          after ps1 = del :: inorder r ++ after ps ∧
          height (mk l1 nullptr b1 d1) ≤ height l := by
        intro hl
        obtain ⟨ps1, l1, b1, d1, h1, h2, h3, h4, h5⟩ := rightmost_spec l hl (of_left r b del :: ps)
        exact ⟨ps1, l1, b1, d1, by rw [prev_node_left _ _ _ _ _ hl, h1], h2, h3, by simpa [after] using h4, h5⟩
      by_cases hbpos : b > 0
      · -- the right subtree is the higher one: try the successor first
        rw [if_pos hbpos]
        have hrne : r ≠ nullptr := ne_of_height_pos r (by omega)
        obtain ⟨ps2, r2, b2, d2, hn1, hn2, hn3, hn4, hn5⟩ := hnext hrne
        have hroot2 := hroot
        rw [← hn2] at hroot2
        obtain ⟨hcur2, hps2⟩ := legal_of_root_of _ _ hroot2
        have hleaf2 : is_leaf (mk nullptr r2 b2 d2) = some r2.is_null := by
          rw [is_leaf_legal _ _ _ _ hcur2]; rfl
        simp only [find_replace, mul_one, one_mul, neighbour_one, neighbour_neg_one, hn1, hleaf2,
          Option.bind_eq_bind, Option.some_bind]
        cases r2 with
        | nullptr =>
          have hb20 : b2 = 0 := by simpa [height] using hcur2.2.2.1
          subst hb20
          obtain ⟨root1, hu, hl1, hi1⟩ := unlink_spec ps2 d2 (by simpa [height] using hps2)
          simp only [is_null, if_true, Option.some_bind, hu, data_of]
          exact replace_after_next root1 ps ps2 l r nullptr b del d2 hnd hl1
            (by simpa [inorder] using hi1) hn3 hn4
        | mk r2l r2r r2b r2d =>
          have hlne : l ≠ nullptr := by
            apply ne_of_height_pos
            simp only [height] at hn5
            omega
          obtain ⟨ps1, l1, b1, d1, hp1, hp2, hp3, hp4, hp5⟩ := hprev hlne
          have hroot1 := hroot
          rw [← hp2] at hroot1
          obtain ⟨hcur1, hps1⟩ := legal_of_root_of _ _ hroot1
          have hleaf1 : is_leaf (mk l1 nullptr b1 d1) = some l1.is_null := by
            rw [is_leaf_legal _ _ _ _ hcur1]; simp [is_null]
          simp only [is_null, Bool.false_eq_true, if_false, hp1, Option.some_bind, hleaf1]
          cases l1 with
          | nullptr =>
            have hb10 : b1 = 0 := by simpa [height] using hcur1.2.2.1
            subst hb10
            obtain ⟨root1, hu, hl1, hi1⟩ := unlink_spec ps1 d1 (by simpa [height] using hps1)
            simp only [is_null, if_true, Option.some_bind, hu, data_of]
            exact replace_after_prev root1 ps ps1 l r nullptr b del d1 hnd hl1
              (by simpa [inorder] using hi1) hp3 hp4
          | mk l1l l1r l1b l1d =>
            simp only [is_null, Bool.false_eq_true, if_false, Option.some_bind, data_of]
            have hnd2 := hnd
            rw [← hn2] at hnd2
            obtain ⟨root1, he, hl1, hi1⟩ := ih ps2 nullptr (mk r2l r2r r2b r2d) b2 d2 hroot2 hnd2 (by
              simp only [height] at hn5 hh ⊢; omega)
            rw [hn2] at he
            simp only [he, Option.some_bind]
            exact replace_after_next root1 ps ps2 l r _ b del d2 hnd hl1
              (by simpa [inorder] using hi1) hn3 hn4
      · -- otherwise try the predecessor first
        rw [if_neg hbpos]
        have hlne : l ≠ nullptr := ne_of_height_pos l (by omega)
        obtain ⟨ps1, l1, b1, d1, hp1, hp2, hp3, hp4, hp5⟩ := hprev hlne
        have hroot1 := hroot
        rw [← hp2] at hroot1
        obtain ⟨hcur1, hps1⟩ := legal_of_root_of _ _ hroot1
        have hleaf1 : is_leaf (mk l1 nullptr b1 d1) = some l1.is_null := by
          rw [is_leaf_legal _ _ _ _ hcur1]; simp [is_null]
        simp only [find_replace, mul_one, mul_neg, neg_neg, neighbour_one, neighbour_neg_one, hp1, hleaf1,
          Option.bind_eq_bind, Option.some_bind]
        cases l1 with
        | nullptr =>
          have hb10 : b1 = 0 := by simpa [height] using hcur1.2.2.1
          subst hb10
          obtain ⟨root1, hu, hl1, hi1⟩ := unlink_spec ps1 d1 (by simpa [height] using hps1)
          simp only [is_null, if_true, Option.some_bind, hu, data_of]
          exact replace_after_prev root1 ps ps1 l r nullptr b del d1 hnd hl1
            (by simpa [inorder] using hi1) hp3 hp4
        | mk l1l l1r l1b l1d =>
          have hrne : r ≠ nullptr := by
            apply ne_of_height_pos
            simp only [height] at hp5
            omega
          obtain ⟨ps2, r2, b2, d2, hn1, hn2, hn3, hn4, hn5⟩ := hnext hrne
          have hroot2 := hroot
          rw [← hn2] at hroot2
          obtain ⟨hcur2, hps2⟩ := legal_of_root_of _ _ hroot2
          have hleaf2 : is_leaf (mk nullptr r2 b2 d2) = some r2.is_null := by
            rw [is_leaf_legal _ _ _ _ hcur2]; rfl
          simp only [is_null, Bool.false_eq_true, if_false, hn1, Option.some_bind, hleaf2]
          cases r2 with
          | nullptr =>
            have hb20 : b2 = 0 := by simpa [height] using hcur2.2.2.1
            subst hb20
            obtain ⟨root1, hu, hl1, hi1⟩ := unlink_spec ps2 d2 (by simpa [height] using hps2)
            simp only [is_null, if_true, Option.some_bind, hu, data_of]
            exact replace_after_next root1 ps ps2 l r nullptr b del d2 hnd hl1
              (by simpa [inorder] using hi1) hn3 hn4
          | mk r2l r2r r2b r2d =>
            simp only [is_null, Bool.false_eq_true, if_false, Option.some_bind, data_of]
            have hnd1 := hnd
            rw [← hp2] at hnd1
            obtain ⟨root1, he, hl1, hi1⟩ := ih ps1 (mk l1l l1r l1b l1d) nullptr b1 d1 hroot1 hnd1 (by
              simp only [height] at hp5 hh ⊢; omega)
            rw [hp2] at he
            simp only [he, Option.some_bind]
            exact replace_after_prev root1 ps ps1 l r _ b del d1 hnd hl1
              (by simpa [inorder] using hi1) hp3 hp4

end avl_tree

namespace avl_tree

open avl_node parent_link

variable {T : Type}

theorem non_decreasing_iff_ordered (lt : T → T → Bool) (hsw : strict_weak lt) (xs : List T) :
    non_decreasing lt xs ↔ ordered lt xs := by
  haveI : IsTrans T (fun a b => lt b a = false) := ⟨fun a b c hab hbc => hsw.2 c b a hbc hab⟩
  exact List.chain'_iff_pairwise

theorem height_le_root_of (ps : List (parent_link T)) (cur : avl_node T) :
    height cur ≤ height (root_of ps cur) := by
  induction ps generalizing cur with
  | nil => exact le_refl _
  | cons p ps ih =>
    refine le_trans ?_ (ih _)
    cases p <;> simp only [attach, height] <;> omega

/-- What `erase` does to a legal tree without repeated nodes. -/
theorem erase_spec [DecidableEq T] (root : avl_node T) (del : T) (hroot : legal root)
    (hnd : (inorder root).Nodup) (hmem : del ∈ inorder root) :
    ∃ t X Y, erase root del = some t ∧ legal t ∧ inorder root = X ++ del :: Y ∧
      inorder t = X ++ Y := by
  obtain ⟨ps, l, r, b, rfl⟩ := exists_position root del hmem
  obtain ⟨t, ht, hlt, hit⟩ := erase_depth_spec _ ps l r b del hroot hnd (height_le_root_of _ _)
  refine ⟨t, before ps ++ inorder l, inorder r ++ after ps, ht, hlt, ?_, ?_⟩
  · rw [inorder_root_of]; simp [inorder]
  · rw [hit]; simp

/-- On a legal tree whose traversal is ordered all the `assert`s of `check_node` hold. -/
theorem check_node_of_legal (lt : T → T → Bool) (t : avl_node T) (hne : t ≠ nullptr)
    (hleg : legal t) (hord : ordered lt (inorder t)) : check_node lt t = some (height t) := by
  induction t with
  | nullptr => exact absurd rfl hne
  | mk l r b d ihl ihr =>
    obtain ⟨hl, hr, hb, hb1, hb2⟩ := hleg
    simp only [inorder, ordered_append, ordered_cons] at hord
    obtain ⟨hol, ⟨hdr, hor⟩, hlr⟩ := hord
    have hdl : ∀ a ∈ inorder l, lt d a = false := fun a ha => hlr a ha d (by simp)
    rw [check_node]
    rw [if_neg (by simp [hb1, hb2])]
    cases l with
    | nullptr =>
      cases r with
      | nullptr =>
        simp only [is_null, Bool.and_self, if_true]
        simp [height] at hb ⊢
        exact hb
      | mk rl rr rb rd =>
        have h2 := ihr (by simp) hr hor
        simp only [is_null, Bool.and_false, Bool.false_eq_true, if_false, hdr rd (by simp [inorder]),
          h2, Option.bind_eq_bind, Option.some_bind]
        rw [if_pos (by simp only [height] at hb ⊢; omega)]
        simp [height]
    | mk ll lr lb ld =>
      have h1 := ihl (by simp) hl hol
      cases r with
      | nullptr =>
        simp only [is_null, Bool.and_true, Bool.false_eq_true, if_false, hdl ld (by simp [inorder]),
          h1, Option.bind_eq_bind, Option.some_bind]
        rw [if_pos (by simp only [height] at hb ⊢; omega)]
        simp [height]
      | mk rl rr rb rd =>
        have h2 := ihr (by simp) hr hor
        simp only [is_null, Bool.and_false, Bool.false_eq_true, if_false, hdl ld (by simp [inorder]),
          hdr rd (by simp [inorder]), h1, h2, Option.bind_eq_bind, Option.some_bind]
        rw [if_pos (by simp only [height] at hb ⊢; omega)]
        simp [height]

end avl_tree

namespace avl_tree

open avl_node parent_link

variable {T : Type}

theorem prev_ascend_spec (ps : List (parent_link T)) (cur : avl_node T) :
    (before ps = [] ∧ prev_ascend ps cur = none) ∨
    (∃ p X x, prev_ascend ps cur = some p ∧ data_of p.node = some x ∧ before ps = X ++ [x]) := by
  induction ps generalizing cur with
  | nil => left; exact ⟨rfl, rfl⟩
  | cons q ps ih =>
    cases q with
    | of_left r b d =>
      simp only [prev_ascend, before]
      exact ih _
    | of_right l b d =>
      right
      exact ⟨⟨ps, mk l cur b d⟩, before ps ++ inorder l, d, rfl, rfl, by simp [before]⟩

theorem next_ascend_spec (ps : List (parent_link T)) (cur : avl_node T) :
    (after ps = [] ∧ next_ascend ps cur = none) ∨
    (∃ p Y y, next_ascend ps cur = some p ∧ data_of p.node = some y ∧ after ps = y :: Y) := by
  induction ps generalizing cur with
  | nil => left; exact ⟨rfl, rfl⟩
  | cons q ps ih =>
    cases q with
    | of_right l b d =>
      simp only [next_ascend, after]
      exact ih _
    | of_left r b d =>
      right
      exact ⟨⟨ps, mk cur r b d⟩, inorder r ++ after ps, d, rfl, rfl, by simp [after]⟩

/-- `prev_node` returns the node that comes just before `cur` in the in-order traversal, and null
when `cur` is the first node. -/
theorem prev_node_spec (ps : List (parent_link T)) (l r : avl_node T) (b : Int) (d : T) :
    (before ps ++ inorder l = [] ∧ prev_node ⟨ps, mk l r b d⟩ = some none) ∨
    (∃ p X x, prev_node ⟨ps, mk l r b d⟩ = some (some p) ∧ data_of p.node = some x ∧
      before ps ++ inorder l = X ++ [x]) := by
  cases l with
  | nullptr =>
    rcases prev_ascend_spec ps (mk nullptr r b d) with ⟨h1, h2⟩ | ⟨p, X, x, h1, h2, h3⟩
    · left; exact ⟨by simp [inorder, h1], by simp [prev_node, h2]⟩
    · right; exact ⟨p, X, x, by simp [prev_node, h1], h2, by simp [inorder, h3]⟩
  | mk ll lr lb ld =>
    right
    obtain ⟨ps1, l1, b1, d1, h1, -, h3, -, -⟩ :=
      rightmost_spec (mk ll lr lb ld) (by simp) (of_left r b d :: ps)
    refine ⟨_, before ps1 ++ inorder l1, d1, prev_node_left ps _ r b d (by simp), ?_, ?_⟩
    · rw [h1]; rfl
    · rw [← List.append_assoc] at h3
      rw [h3]; rfl

/-- `next_node` returns the node that comes just after `cur` in the in-order traversal, and null
when `cur` is the last node. -/
theorem next_node_spec (ps : List (parent_link T)) (l r : avl_node T) (b : Int) (d : T) :
    (inorder r ++ after ps = [] ∧ next_node ⟨ps, mk l r b d⟩ = some none) ∨
    (∃ p Y y, next_node ⟨ps, mk l r b d⟩ = some (some p) ∧ data_of p.node = some y ∧
      inorder r ++ after ps = y :: Y) := by
  cases r with
  | nullptr =>
    rcases next_ascend_spec ps (mk l nullptr b d) with ⟨h1, h2⟩ | ⟨p, Y, y, h1, h2, h3⟩
    · left
      refine ⟨by simp [inorder, h1], ?_⟩
      cases l <;> simp [next_node, h2]
    · right
      refine ⟨p, Y, y, ?_, h2, by simp [inorder, h3]⟩
      cases l <;> simp [next_node, h1]
  | mk rl rr rb rd =>
    right
    obtain ⟨ps2, r2, b2, d2, h1, -, -, h4, -⟩ :=
      leftmost_spec (mk rl rr rb rd) (by simp) (of_right l b d :: ps)
    refine ⟨_, inorder r2 ++ after ps2, d2, next_node_right ps l _ b d (by simp), ?_, ?_⟩
    · rw [h1]; rfl
    · simp only [after] at h4
      rw [← h4]; simp

/-- The place of a node of a tree without repeated nodes, its predecessor and its successor, read
off the in-order traversal. -/
theorem neighbours_of_split [DecidableEq T] (t : avl_node T) (x : T) (A1 A2 : List T)
    (hnd : (inorder t).Nodup) (hio : inorder t = A1 ++ x :: A2) :
    ∃ cur, find_node x [] t = some cur ∧
      ((A1 = [] ∧ prev_node cur = some none) ∨
        (∃ p X y, prev_node cur = some (some p) ∧ data_of p.node = some y ∧ A1 = X ++ [y])) ∧
      ((A2 = [] ∧ next_node cur = some none) ∨
        (∃ p Y y, next_node cur = some (some p) ∧ data_of p.node = some y ∧ A2 = y :: Y)) := by
  obtain ⟨ps, l, r, b, rfl⟩ := exists_position t x (by rw [hio]; simp)
  have hf := find_node_root_of ps [] l r b x hnd
  simp only [List.append_nil] at hf
  rw [inorder_root_of] at hio hnd
  simp only [inorder, List.append_assoc, List.cons_append] at hio hnd
  rw [← List.append_assoc] at hio hnd
  obtain ⟨h1, h2⟩ := append_cons_inj_of_nodup _ _ _ _ _ hnd hio
  refine ⟨_, hf, ?_, ?_⟩
  · rw [← h1]; exact prev_node_spec ps l r b x
  · rw [← h2]; exact next_node_spec ps l r b x

end avl_tree

namespace avl_tree

open avl_node parent_link

variable {T : Type}

/-- C1: `insert` of a detached node into a legal AVL tree (every stored balance in `{-1, 0, 1}`
and equal to right height minus left height) returns, and the tree it leaves is again a legal AVL
tree.  When moreover the comparator is a strict weak ordering and the in-order traversal was
non-decreasing, every `assert` of `check_integrity` / `check_node` holds after the insert. -/
theorem insert_legal (less_than : T → T → Bool) (root : avl_node T) (new_node : T)
    (hroot : legal root) :
    ∃ t, insert less_than root new_node = some t ∧ legal t ∧
      (strict_weak less_than → non_decreasing less_than (inorder root) →
        check_integrity less_than t = true) := by
  obtain ⟨t, A, B, ht, hlt, hio, hit, hord⟩ := insert_spec less_than root new_node hroot
  refine ⟨t, ht, hlt, ?_⟩
  intro hsw hnd
  rw [non_decreasing_iff_ordered _ hsw] at hnd
  obtain ⟨hA, hB⟩ := hord hsw hnd
  have hot : ordered less_than (inorder t) := by
    rw [hit]
    rw [hio, ordered_append] at hnd
    rw [ordered_append, ordered_cons]
    refine ⟨hnd.1, ⟨hB, hnd.2.1⟩, ?_⟩
    intro a ha b hb
    rcases List.mem_cons.1 hb with rfl | hb
    · exact hA a ha
    · exact hnd.2.2 a ha b hb
  have hne : t ≠ nullptr := by
    rintro rfl
    simp [inorder] at hit
  simp only [check_integrity, is_null_eq_false t hne, Bool.false_eq_true, if_false,
    check_node_of_legal less_than t hne hlt hot, Option.isSome_some]

theorem insert_legal_witness :
    legal (mk (mk nullptr nullptr 0 1) nullptr (-1) 3 : avl_node Nat) ∧
    ∃ t, insert (fun a b => decide (a < b)) (mk (mk nullptr nullptr 0 1) nullptr (-1) 3) 0 = some t ∧
      legal t ∧
      (strict_weak (fun a b : Nat => decide (a < b)) →
        non_decreasing (fun a b : Nat => decide (a < b))
          (inorder (mk (mk nullptr nullptr 0 1) nullptr (-1) 3 : avl_node Nat)) →
        check_integrity (fun a b : Nat => decide (a < b)) t = true) :=
  ⟨by simp [legal, height], insert_legal _ _ _ (by simp [legal, height])⟩

/-- C2: `erase` of a node of a legal AVL tree (a leaf, a node with a leaf in-order neighbour, or a
node whose in-order neighbours are both inner nodes) returns, and the tree it leaves is again a
legal AVL tree.  The nodes of the tree are distinct objects. -/
theorem erase_legal [DecidableEq T] (root : avl_node T) (del_node : T) (hroot : legal root)
    (hnd : (inorder root).Nodup) (hmem : del_node ∈ inorder root) :
    ∃ t, erase root del_node = some t ∧ legal t := by
  obtain ⟨t, X, Y, ht, hlt, -, -⟩ := erase_spec root del_node hroot hnd hmem
  exact ⟨t, ht, hlt⟩

theorem erase_legal_witness :
    legal (mk (mk nullptr nullptr 0 1) (mk (mk nullptr nullptr 0 4) nullptr (-1) 5) 1 3 : avl_node Nat) ∧
    (inorder (mk (mk nullptr nullptr 0 1) (mk (mk nullptr nullptr 0 4) nullptr (-1) 5) 1 3 : avl_node Nat)).Nodup ∧
    1 ∈ inorder (mk (mk nullptr nullptr 0 1) (mk (mk nullptr nullptr 0 4) nullptr (-1) 5) 1 3 : avl_node Nat) ∧
    ∃ t, erase (mk (mk nullptr nullptr 0 1) (mk (mk nullptr nullptr 0 4) nullptr (-1) 5) 1 3 : avl_node Nat) 1
      = some t ∧ legal t :=
  ⟨by simp [legal, height], by simp [inorder], by simp [inorder],
    erase_legal _ _ (by simp [legal, height]) (by simp [inorder]) (by simp [inorder])⟩

/-- C3: `insert` of a detached node `n` into a legal tree whose in-order traversal is
non-decreasing under the comparator (a strict weak ordering) leaves a tree whose in-order
traversal is non-decreasing and is a permutation of the previous nodes plus `n`: nothing is
lost, nothing is duplicated, also when `n` is equivalent to nodes already present. -/
theorem insert_inorder (less_than : T → T → Bool) (root : avl_node T) (new_node : T)
    (hroot : legal root) (hsw : strict_weak less_than)
    (hnd : non_decreasing less_than (inorder root)) :
    ∃ t, insert less_than root new_node = some t ∧ non_decreasing less_than (inorder t) ∧
      (inorder t).Perm (new_node :: inorder root) := by
  obtain ⟨t, A, B, ht, -, hio, hit, hord⟩ := insert_spec less_than root new_node hroot
  refine ⟨t, ht, ?_, ?_⟩
  · rw [non_decreasing_iff_ordered _ hsw] at hnd ⊢
    obtain ⟨hA, hB⟩ := hord hsw hnd
    rw [hit]
    rw [hio, ordered_append] at hnd
    rw [ordered_append, ordered_cons]
    refine ⟨hnd.1, ⟨hB, hnd.2.1⟩, ?_⟩
    intro a ha b hb
    rcases List.mem_cons.1 hb with rfl | hb
    · exact hA a ha
    · exact hnd.2.2 a ha b hb
  · rw [hit, hio]
    exact List.perm_middle

theorem insert_inorder_witness :
    legal (mk (mk nullptr nullptr 0 (5, 0)) nullptr (-1) (5, 1) : avl_node (Nat × Nat)) ∧
    strict_weak (fun a b : Nat × Nat => decide (a.1 < b.1)) ∧
    non_decreasing (fun a b : Nat × Nat => decide (a.1 < b.1))
      (inorder (mk (mk nullptr nullptr 0 (5, 0)) nullptr (-1) (5, 1) : avl_node (Nat × Nat))) ∧
    ∃ t, insert (fun a b : Nat × Nat => decide (a.1 < b.1))
        (mk (mk nullptr nullptr 0 (5, 0)) nullptr (-1) (5, 1)) (5, 2) = some t ∧
      non_decreasing (fun a b : Nat × Nat => decide (a.1 < b.1)) (inorder t) ∧
      (inorder t).Perm ((5, 2) :: inorder (mk (mk nullptr nullptr 0 (5, 0)) nullptr (-1) (5, 1))) :=
  have hsw : strict_weak (fun a b : Nat × Nat => decide (a.1 < b.1)) :=
    ⟨fun a b h => by simp at h ⊢; omega, fun a b c h1 h2 => by simp at h1 h2 ⊢; omega⟩
  ⟨by simp [legal, height], hsw, by simp [non_decreasing, inorder],
    insert_inorder _ _ _ (by simp [legal, height]) hsw (by simp [non_decreasing, inorder])⟩

/-- C4: `erase` of a node `d` of a legal AVL tree (whose nodes are distinct objects) returns, and
the in-order traversal of the tree it leaves is the previous traversal with exactly `d` taken
out: all other nodes are still there, in the same order, and `d` is not. -/
theorem erase_inorder [DecidableEq T] (root : avl_node T) (del_node : T) (hroot : legal root)
    (hnd : (inorder root).Nodup) (hmem : del_node ∈ inorder root) :
    ∃ t X Y, erase root del_node = some t ∧ inorder root = X ++ del_node :: Y ∧
      inorder t = X ++ Y ∧ del_node ∉ inorder t := by
  obtain ⟨t, X, Y, ht, -, hio, hit⟩ := erase_spec root del_node hroot hnd hmem
  refine ⟨t, X, Y, ht, hio, hit, ?_⟩
  rw [hio] at hnd
  rw [hit]
  have h1 := List.nodup_append.1 hnd
  have h2 := List.nodup_cons.1 h1.2.1
  intro hm
  rcases List.mem_append.1 hm with hm | hm
  · exact h1.2.2 hm (List.mem_cons_self _ _)
  · exact h2.1 hm

theorem erase_inorder_witness :
    legal (mk (mk nullptr nullptr 0 1) (mk (mk nullptr nullptr 0 4) nullptr (-1) 5) 1 3 : avl_node Nat) ∧
    (inorder (mk (mk nullptr nullptr 0 1) (mk (mk nullptr nullptr 0 4) nullptr (-1) 5) 1 3 : avl_node Nat)).Nodup ∧
    3 ∈ inorder (mk (mk nullptr nullptr 0 1) (mk (mk nullptr nullptr 0 4) nullptr (-1) 5) 1 3 : avl_node Nat) ∧
    ∃ t X Y, erase (mk (mk nullptr nullptr 0 1) (mk (mk nullptr nullptr 0 4) nullptr (-1) 5) 1 3 : avl_node Nat) 3
      = some t ∧
      inorder (mk (mk nullptr nullptr 0 1) (mk (mk nullptr nullptr 0 4) nullptr (-1) 5) 1 3 : avl_node Nat)
        = X ++ 3 :: Y ∧
      inorder t = X ++ Y ∧ 3 ∉ inorder t :=
  ⟨by simp [legal, height], by simp [inorder], by simp [inorder],
    erase_inorder _ _ (by simp [legal, height]) (by simp [inorder]) (by simp [inorder])⟩

end avl_tree

namespace avl_heap

open avl_node avl_tree

theorem strict_weak_size_cmp (w : ptrdiff_width) : strict_weak (size_cmp w) := by
  constructor
  · intro a b h
    simp only [size_cmp, decide_eq_true_eq, decide_eq_false_iff_not] at h ⊢
    omega
  · intro a b c h1 h2
    simp only [size_cmp, decide_eq_false_iff_not] at h1 h2 ⊢
    omega

theorem addr_cmp_eq (w : ptrdiff_width) (a b : block) : addr_cmp w a b = decide (a.base < b.base) := by
  simp [addr_cmp]

theorem strict_weak_addr_cmp (w : ptrdiff_width) : strict_weak (addr_cmp w) := by
  constructor
  · intro a b h
    simp only [addr_cmp_eq, decide_eq_true_eq, decide_eq_false_iff_not] at h ⊢
    omega
  · intro a b c h1 h2
    simp only [addr_cmp_eq, decide_eq_false_iff_not] at h1 h2 ⊢
    omega

/-- The search of `alloc` on an ordered tree ends with the first block of the in-order
traversal that is large enough, or with the initial value of `found_block` when there is none. -/
theorem search_first_fit (w : ptrdiff_width) (size : Nat) (t : avl_node block) (s0 : Option block)
    (hord : ordered (size_cmp w) (inorder t)) :
    (∃ A b B, inorder t = A ++ b :: B ∧ (∀ a ∈ A, a.size w < size) ∧ size ≤ b.size w ∧
      (search (fun (found_block : Option block) (cur_block : block) =>
          if cur_block.size w ≥ size then ((-1 : Int), some cur_block) else ((1 : Int), found_block))
        t s0).2 = some b) ∨
    ((∀ a ∈ inorder t, a.size w < size) ∧
      (search (fun (found_block : Option block) (cur_block : block) =>
          if cur_block.size w ≥ size then ((-1 : Int), some cur_block) else ((1 : Int), found_block))
        t s0).2 = s0) := by
  induction t generalizing s0 with
  | nullptr => right; exact ⟨by simp [inorder], rfl⟩
  | mk l r bal d ihl ihr =>
    simp only [inorder, ordered_append, ordered_cons] at hord
    obtain ⟨hol, ⟨hdr, hor⟩, hlr⟩ := hord
    by_cases hd : d.size w ≥ size
    · left
      simp only [search, if_pos hd]
      have h1 : ¬ ((-1 : Int) = 0) := by decide
      have h2 : ((-1 : Int) < 0) := by decide
      simp only [if_neg h1, if_pos h2]
      rcases ihl (some d) hol with ⟨A, b, B, hio, hA, hb, hres⟩ | ⟨hall, hres⟩
      · exact ⟨A, b, B ++ d :: inorder r, by simp [inorder, hio], hA, hb, hres⟩
      · exact ⟨inorder l, d, inorder r, rfl, hall, hd, hres⟩
    · simp only [search, if_neg hd]
      have h1 : ¬ ((1 : Int) = 0) := by decide
      have h2 : ¬ ((1 : Int) < 0) := by decide
      simp only [if_neg h1, if_neg h2]
      have hl : ∀ a ∈ inorder l, a.size w < size := by
        intro a ha
        have := hlr a ha d (by simp)
        simp only [size_cmp, decide_eq_false_iff_not] at this
        omega
      rcases ihr s0 hor with ⟨A, b, B, hio, hA, hb, hres⟩ | ⟨hall, hres⟩
      · left
        refine ⟨inorder l ++ d :: A, b, B, by simp [inorder, hio], ?_, hb, hres⟩
        intro a ha
        simp only [List.mem_append, List.mem_cons] at ha
        rcases ha with ha | rfl | ha
        · exact hl a ha
        · omega
        · exact hA a ha
      · right
        refine ⟨?_, hres⟩
        intro a ha
        simp only [inorder, List.mem_append, List.mem_cons] at ha
        rcases ha with ha | rfl | ha
        · exact hl a ha
        · omega
        · exact hall a ha

/-- The search of `alloc` in terms of the size tree of the heap. -/
theorem alloc_search_spec (w : ptrdiff_width) (h : avl_heap) (size : Nat)
    (hord : ordered (size_cmp w) (inorder h.size_tree)) :
    (∃ A b B, inorder h.size_tree = A ++ b :: B ∧ (∀ a ∈ A, a.size w < size) ∧ size ≤ b.size w ∧
      alloc_search w h size = some b) ∨
    ((∀ a ∈ inorder h.size_tree, a.size w < size) ∧ alloc_search w h size = none) :=
  search_first_fit w size h.size_tree none hord

/-- C5: on a size tree whose in-order traversal is non-decreasing in region size (ties allowed)
the search of `alloc` for the rounded request `r` selects a block of the tree whose size is at
least `r` and is minimal among the blocks of size at least `r`; it selects no block if and only
if no block has size at least `r`. -/
theorem alloc_search_best_fit (w : ptrdiff_width) (h : avl_heap) (r : Nat)
    (hord : non_decreasing (size_cmp w) (inorder h.size_tree)) :
    (∀ b, alloc_search w h r = some b →
      b ∈ inorder h.size_tree ∧ r ≤ b.size w ∧
      ∀ x ∈ inorder h.size_tree, r ≤ x.size w → b.size w ≤ x.size w) ∧
    (alloc_search w h r = none ↔ ∀ x ∈ inorder h.size_tree, x.size w < r) := by
  rw [non_decreasing_iff_ordered _ (strict_weak_size_cmp w)] at hord
  rcases alloc_search_spec w h r hord with ⟨A, b, B, hio, hA, hb, hres⟩ | ⟨hall, hres⟩
  · constructor
    · intro b' hb'
      rw [hres] at hb'
      cases hb'
      refine ⟨by rw [hio]; simp, hb, ?_⟩
      intro x hx hxr
      rw [hio] at hx hord
      simp only [List.mem_append, List.mem_cons] at hx
      rcases hx with hx | rfl | hx
      · have := hA x hx; omega
      · exact le_refl _
      · rw [ordered_append, ordered_cons] at hord
        have := hord.2.1.1 x hx
        simp only [size_cmp, decide_eq_false_iff_not] at this
        omega
    · rw [hres]
      constructor
      · intro hc; cases hc
      · intro hall
        have := hall b (by rw [hio]; simp)
        omega
  · constructor
    · intro b hb'
      rw [hres] at hb'
      cases hb'
    · exact ⟨fun _ => hall, fun _ => hres⟩

theorem alloc_search_best_fit_witness :
    non_decreasing (size_cmp ptrdiff_width.w64) (inorder three_blocks.size_tree) ∧
    ((∀ b, alloc_search ptrdiff_width.w64 three_blocks 80 = some b →
      b ∈ inorder three_blocks.size_tree ∧ 80 ≤ b.size ptrdiff_width.w64 ∧
      ∀ x ∈ inorder three_blocks.size_tree, 80 ≤ x.size ptrdiff_width.w64 →
        b.size ptrdiff_width.w64 ≤ x.size ptrdiff_width.w64) ∧
    (alloc_search ptrdiff_width.w64 three_blocks 80 = none ↔
      ∀ x ∈ inorder three_blocks.size_tree, x.size ptrdiff_width.w64 < 80)) :=
  ⟨by simp [non_decreasing, inorder, three_blocks, size_cmp, block.size, ptrdiff_width.half_size_shift],
   alloc_search_best_fit _ _ _
    (by simp [non_decreasing, inorder, three_blocks, size_cmp, block.size, ptrdiff_width.half_size_shift])⟩

end avl_heap

namespace block

theorem size_eq (w : ptrdiff_width) (b : block) (hb : b.wf w) :
    b.size w = b.addr_node * 2 ^ w.half_size_shift + b.size_node := by
  unfold size
  rw [Nat.shiftLeft_eq, Nat.mul_comm, ← Nat.mul_add_lt_is_or hb.1]

theorem create_wf (w : ptrdiff_width) (p s : Nat) : (create w p s).wf w := by
  constructor
  · simp only [create, ptrdiff_width.half_size_mask, Nat.and_pow_two_sub_one_eq_mod]
    exact Nat.mod_lt _ (by positivity)
  · simp only [create]
    exact Nat.mod_lt _ (by positivity)

theorem size_create (w : ptrdiff_width) (p s : Nat) (hs : s < w.size_range) :
    (create w p s).size w = s := by
  rw [size_eq w _ (create_wf w p s)]
  simp only [create, ptrdiff_width.half_size_mask, Nat.and_pow_two_sub_one_eq_mod,
    Nat.shiftRight_eq_div_pow]
  have h2 : s / 2 ^ w.half_size_shift < 2 ^ w.half_size_shift := by
    rw [Nat.div_lt_iff_lt_mul (by positivity)]
    rw [ptrdiff_width.size_range, two_mul, pow_add] at hs
    exact hs
  rw [Nat.mod_eq_of_lt h2]
  exact Nat.div_add_mod' s _

theorem size_lt (w : ptrdiff_width) (b : block) (hb : b.wf w) : b.size w < w.size_range := by
  rw [size_eq w b hb, ptrdiff_width.size_range, two_mul, pow_add]
  obtain ⟨h1, h2⟩ := hb
  have : b.addr_node + 1 ≤ 2 ^ w.half_size_shift := h2
  calc b.addr_node * 2 ^ w.half_size_shift + b.size_node
      < b.addr_node * 2 ^ w.half_size_shift + 2 ^ w.half_size_shift := by omega
    _ = (b.addr_node + 1) * 2 ^ w.half_size_shift := by ring
    _ ≤ 2 ^ w.half_size_shift * 2 ^ w.half_size_shift := Nat.mul_le_mul_right _ this

theorem create_base (w : ptrdiff_width) (p s : Nat) : (create w p s).base = p := rfl

theorem create_size_self (w : ptrdiff_width) (b : block) (hb : b.wf w) :
    create w b.base (b.size w) = b := by
  have h1 := size_eq w b hb
  obtain ⟨hlo, hhi⟩ := hb
  cases b with
  | mk base lo hi =>
    simp only at hlo hhi h1
    simp only [create, ptrdiff_width.half_size_mask, Nat.and_pow_two_sub_one_eq_mod,
      Nat.shiftRight_eq_div_pow, h1, mk.injEq, true_and]
    constructor
    · rw [Nat.mul_comm, Nat.mul_add_mod, Nat.mod_eq_of_lt hlo]
    · rw [Nat.mul_comm, Nat.mul_add_div (by positivity), Nat.div_eq_of_lt hlo, Nat.add_zero,
        Nat.mod_eq_of_lt hhi]

end block

namespace ptrdiff_width

theorem min_size_pos (w : ptrdiff_width) : 0 < w.min_size := by
  cases w <;> simp [min_size, pointer_bytes]

theorem min_size_lt (w : ptrdiff_width) : w.min_size < w.size_range := by
  cases w <;> simp [min_size, pointer_bytes, size_range, half_size_shift]

theorem size_range_pos (w : ptrdiff_width) : 0 < w.size_range := by
  unfold size_range; positivity

end ptrdiff_width

namespace avl_heap

open avl_node avl_tree

theorem nodup_of_pairwise_base (bs : List block) (h : bs.Pairwise (fun a b => a.base < b.base)) :
    bs.Nodup := by
  refine List.Pairwise.imp ?_ h
  intro a b hab heq
  rw [heq] at hab
  exact lt_irrefl _ hab

theorem ordered_addr_of_pairwise (w : ptrdiff_width) (bs : List block)
    (h : bs.Pairwise (fun a b => a.base < b.base)) : ordered (addr_cmp w) bs := by
  refine List.Pairwise.imp ?_ h
  intro a b hab
  simp only [addr_cmp_eq, decide_eq_false_iff_not]
  omega

/-- Erasing a block from both trees. -/
theorem both_erase (w : ptrdiff_width) (h : avl_heap) (blk : block) (X Y : List block)
    (hwf : heap_wf w h) (hio : inorder h.addr_tree = X ++ blk :: Y) :
    ∃ st adt, avl_tree.erase h.size_tree blk = some st ∧ avl_tree.erase h.addr_tree blk = some adt ∧
      heap_wf w ⟨st, adt, h.used_size, h.total_size⟩ ∧ inorder adt = X ++ Y := by
  obtain ⟨hls, hla, hos, hpa, hperm, hbw⟩ := hwf
  have hnda := nodup_of_pairwise_base _ hpa
  have hnds : (inorder h.size_tree).Nodup := hperm.nodup_iff.2 hnda
  have hma : blk ∈ inorder h.addr_tree := by rw [hio]; simp
  have hms : blk ∈ inorder h.size_tree := hperm.mem_iff.2 hma
  obtain ⟨adt, X', Y', hea, hla', hioa, hioa'⟩ := erase_spec h.addr_tree blk hla hnda hma
  obtain ⟨st, Xs, Ys, hes, hls', hios, hios'⟩ := erase_spec h.size_tree blk hls hnds hms
  have hXY : X' = X ∧ Y' = Y := by
    rw [hioa] at hnda
    exact append_cons_inj_of_nodup _ _ _ _ _ hnda (hioa.symm.trans hio)
  obtain ⟨rfl, rfl⟩ := hXY
  refine ⟨st, adt, hes, hea, ⟨hls', hla', ?_, ?_, ?_, ?_⟩, hioa'⟩
  · show ordered (size_cmp w) (inorder st)
    rw [hios'] 
    rw [hios, ordered_append, ordered_cons] at hos
    rw [ordered_append]
    exact ⟨hos.1, hos.2.1.2, fun a ha b hb => hos.2.2 a ha b (List.mem_cons_of_mem _ hb)⟩
  · show (inorder adt).Pairwise _
    rw [hioa']
    rw [hioa] at hpa
    exact hpa.sublist (List.Sublist.append_left (List.sublist_cons_self _ _) _)
  · show (inorder st).Perm (inorder adt)
    rw [hios', hioa']
    rw [hios, hioa] at hperm
    exact ((List.perm_middle.symm.trans hperm).trans List.perm_middle).cons_inv
  · intro b hb
    apply hbw
    rw [hioa]
    rw [hioa'] at hb
    simp only [List.mem_append, List.mem_cons] at hb ⊢
    tauto

/-- Inserting a block at a new address into both trees. -/
theorem both_insert (w : ptrdiff_width) (h : avl_heap) (blk : block)
    (hwf : heap_wf w h) (hblk : blk.wf w) (hnew : ∀ a ∈ inorder h.addr_tree, a.base ≠ blk.base) :
    ∃ st adt A1 A2, avl_tree.insert (size_cmp w) h.size_tree blk = some st ∧
      avl_tree.insert (addr_cmp w) h.addr_tree blk = some adt ∧
      heap_wf w ⟨st, adt, h.used_size, h.total_size⟩ ∧
      inorder h.addr_tree = A1 ++ A2 ∧ inorder adt = A1 ++ blk :: A2 ∧
      (∀ a ∈ A1, a.base < blk.base) ∧ (∀ a ∈ A2, blk.base < a.base) := by
  obtain ⟨hls, hla, hos, hpa, hperm, hbw⟩ := hwf
  obtain ⟨st, S1, S2, hes, hls', hios, hios', hords⟩ := insert_spec (size_cmp w) h.size_tree blk hls
  obtain ⟨adt, A1, A2, hea, hla', hioa, hioa', horda⟩ := insert_spec (addr_cmp w) h.addr_tree blk hla
  obtain ⟨hS1, hS2⟩ := hords (strict_weak_size_cmp w) hos
  obtain ⟨hA1, hA2⟩ := horda (strict_weak_addr_cmp w) (ordered_addr_of_pairwise w _ hpa)
  have hA1' : ∀ a ∈ A1, a.base < blk.base := by
    intro a ha
    have h1 := hA1 a ha
    have h2 := hnew a (by rw [hioa]; simp [ha])
    simp only [addr_cmp_eq, decide_eq_false_iff_not] at h1
    omega
  have hA2' : ∀ a ∈ A2, blk.base < a.base := by
    intro a ha
    have h1 := hA2 a ha
    have h2 := hnew a (by rw [hioa]; simp [ha])
    simp only [addr_cmp_eq, decide_eq_false_iff_not] at h1
    omega
  refine ⟨st, adt, A1, A2, hes, hea, ⟨hls', hla', ?_, ?_, ?_, ?_⟩, hioa, hioa', hA1', hA2'⟩
  · show ordered (size_cmp w) (inorder st)
    rw [hios']
    rw [hios, ordered_append] at hos
    rw [ordered_append, ordered_cons]
    refine ⟨hos.1, ⟨hS2, hos.2.1⟩, ?_⟩
    intro a ha b hb
    rcases List.mem_cons.1 hb with rfl | hb
    · exact hS1 a ha
    · exact hos.2.2 a ha b hb
  · show (inorder adt).Pairwise _
    rw [hioa']
    rw [hioa, List.pairwise_append] at hpa
    rw [List.pairwise_append, List.pairwise_cons]
    refine ⟨hpa.1, ⟨hA2', hpa.2.1⟩, ?_⟩
    intro a ha b hb
    rcases List.mem_cons.1 hb with rfl | hb
    · exact hA1' a ha
    · exact hpa.2.2 a ha b hb
  · show (inorder st).Perm (inorder adt)
    rw [hios', hioa']
    rw [hios, hioa] at hperm
    exact (List.perm_middle.trans (hperm.cons blk)).trans List.perm_middle.symm
  · intro b hb
    rw [hioa'] at hb
    simp only [List.mem_append, List.mem_cons] at hb
    rcases hb with hb | rfl | hb
    · exact hbw b (by rw [hioa]; simp [hb])
    · exact hblk
    · exact hbw b (by rw [hioa]; simp [hb])

/-- A list that is split around an address in two ways is split in the same way. -/
theorem split_unique (A1 A2 B1 B2 : List block) (k : Nat) (h : A1 ++ A2 = B1 ++ B2)
    (hA1 : ∀ a ∈ A1, a.base < k) (hA2 : ∀ a ∈ A2, k < a.base)
    (hB1 : ∀ a ∈ B1, a.base < k) (hB2 : ∀ a ∈ B2, k < a.base) : A1 = B1 ∧ A2 = B2 := by
  induction A1 generalizing B1 with
  | nil =>
    cases B1 with
    | nil => exact ⟨rfl, by simpa using h⟩
    | cons b B1 =>
      exfalso
      have h1 := hB1 b (by simp)
      have h2 := hA2 b (by simp only [List.nil_append] at h; rw [h]; simp)
      omega
  | cons a A1 ih =>
    cases B1 with
    | nil =>
      exfalso
      have h1 := hA1 a (by simp)
      have h2 := hB2 a (by simp only [List.nil_append] at h; rw [← h]; simp)
      omega
    | cons b B1 =>
      simp only [List.cons_append, List.cons.injEq] at h
      obtain ⟨rfl, h⟩ := h
      obtain ⟨h1, h2⟩ := ih B1 h (fun x hx => hA1 x (List.mem_cons_of_mem _ hx))
        (fun x hx => hB1 x (List.mem_cons_of_mem _ hx))
      exact ⟨by rw [h1], h2⟩

end avl_heap

namespace avl_heap

open avl_node avl_tree

theorem merge_block_apart (w : ptrdiff_width) (h : avl_heap) (a b : block)
    (hlt : a.base + a.size w < b.base) : merge_block w h a b = some (false, a, h) := by
  unfold merge_block
  rw [if_neg (by omega), if_pos hlt]

/-- `merge_block` on two blocks that follow each other in the address tree and touch. -/
theorem merge_block_adjacent (w : ptrdiff_width) (h : avl_heap) (a b : block) (X Y : List block)
    (hwf : heap_wf w h) (hio : inorder h.addr_tree = X ++ a :: b :: Y)
    (hadj : a.base + a.size w = b.base) (hsum : a.size w + b.size w < w.size_range) :
    ∃ h', merge_block w h a b = some (true, block.create w a.base (a.size w + b.size w), h') ∧
      heap_wf w h' ∧
      inorder h'.addr_tree = X ++ block.create w a.base (a.size w + b.size w) :: Y ∧
      h'.used_size = h.used_size ∧ h'.total_size = h.total_size := by
  have hpa := hwf.2.2.2.1
  rw [hio] at hpa
  obtain ⟨st1, adt1, hes1, hea1, hwf1, hio1⟩ := both_erase w h a X (b :: Y) hwf hio
  obtain ⟨st2, adt2, hes2, hea2, hwf2, hio2⟩ :=
    both_erase w ⟨st1, adt1, h.used_size, h.total_size⟩ b X Y hwf1 hio1
  have hpa' := List.pairwise_append.1 hpa
  have hpc := List.pairwise_cons.1 hpa'.2.1
  have hpc2 := List.pairwise_cons.1 hpc.2
  have hX : ∀ x ∈ X, x.base < a.base := fun x hx => hpa'.2.2 x hx a (by simp)
  have hY : ∀ y ∈ Y, a.base < y.base := fun y hy => hpc.1 y (by simp [hy])
  obtain ⟨st3, adt3, A1, A2, hes3, hea3, hwf3, hio3, hio3', hA1, hA2⟩ :=
    both_insert w ⟨st2, adt2, h.used_size, h.total_size⟩
      (block.create w a.base (a.size w + b.size w)) hwf2 (block.create_wf _ _ _) (by
        intro x hx
        simp only [hio2, List.mem_append] at hx
        simp only [block.create_base]
        rcases hx with hx | hx
        · exact ne_of_lt (hX x hx)
        · exact ne_of_gt (hY x hx))
  simp only [block.create_base] at hA1 hA2
  simp only at hio3 hio3' hes3 hea3 hes2 hea2
  obtain ⟨rfl, rfl⟩ := split_unique A1 A2 X Y a.base (hio3.symm.trans hio2) hA1 hA2 hX hY
  refine ⟨⟨st3, adt3, h.used_size, h.total_size⟩, ?_, hwf3, hio3', rfl, rfl⟩
  unfold merge_block
  rw [if_neg (by omega), if_neg (by omega)]
  simp only [hes1, hea1, hes2, hea2, Option.bind_eq_bind, Option.some_bind, Nat.mod_eq_of_lt hsum,
    hes3, hea3]

end avl_heap

namespace avl_heap

open avl_node avl_tree

/-- The second half of the coalescing insert: the block `c` of the address tree is merged with
its successor `nm` when the two touch. -/
theorem insert_next_step (w : ptrdiff_width) (hm : avl_heap) (c : block) (X Y : List block)
    (hwf : heap_wf w hm) (hio : inorder hm.addr_tree = X ++ c :: Y)
    (hc0 : c.base ≠ 0) (hfar : ∀ y ∈ Y, c.base + c.size w ≤ y.base)
    (hend : ∀ y ∈ Y, y.base + y.size w ≤ w.size_range) :
    ∃ h' nm Y', ((find_node c [] hm.addr_tree).bind fun a =>
        (next_node a).bind fun a =>
          match a with
          | none => some hm
          | some next_node =>
            (data_of next_node.node).bind fun a =>
              (merge_block w hm c a).bind fun d => some d.2.2) = some h' ∧
      heap_wf w h' ∧ Y = Option.toList nm ++ Y' ∧
      inorder h'.addr_tree =
        X ++ block.create w c.base (c.size w + Option.elim nm 0 (block.size w)) :: Y' ∧
      (∀ z ∈ nm, z.base = c.base + c.size w) ∧
      (nm = none → ∀ y ∈ Y, c.base + c.size w < y.base) ∧
      h'.used_size = hm.used_size ∧ h'.total_size = hm.total_size := by
  have hnd := nodup_of_pairwise_base _ hwf.2.2.2.1
  have hcw : c.wf w := hwf.2.2.2.2.2 c (by rw [hio]; simp)
  have hpa := hwf.2.2.2.1
  obtain ⟨cur, hfind, -, hnext⟩ := neighbours_of_split hm.addr_tree c X Y hnd hio
  simp only [hfind, Option.some_bind]
  rcases hnext with ⟨rfl, hn⟩ | ⟨pn, Y', z, hn, hz, rfl⟩
  · refine ⟨hm, none, [], by simp [hn], hwf, rfl, ?_, by simp, by simp, rfl, rfl⟩
    simp only [Option.elim, Nat.add_zero, block.create_size_self w c hcw]
    exact hio
  · simp only [hn, hz, Option.some_bind]
    have hle := hfar z (by simp)
    rcases Nat.lt_or_ge (c.base + c.size w) z.base with hlt | hge
    · refine ⟨hm, none, z :: Y', by simp [merge_block_apart w hm c z hlt], hwf, rfl, ?_, by simp,
        ?_, rfl, rfl⟩
      · simp only [Option.elim, Nat.add_zero, block.create_size_self w c hcw]
        exact hio
      · intro _ y hy
        rcases List.mem_cons.1 hy with rfl | hy
        · exact hlt
        · rw [hio] at hpa
          have h1 := (List.pairwise_cons.1 (List.pairwise_cons.1 (List.pairwise_append.1 hpa).2.1).2).1 y hy
          omega
    · have hadj : c.base + c.size w = z.base := by omega
      have hsum : c.size w + z.size w < w.size_range := by
        have := hend z (by simp)
        omega
      obtain ⟨h', hmb, hwf', hio', hu, ht⟩ := merge_block_adjacent w hm c z X Y' hwf hio hadj hsum
      refine ⟨h', some z, Y', by simp [hmb], hwf', rfl, ?_, ?_, by simp, hu, ht⟩
      · simpa [Option.elim] using hio'
      · intro z' hz'
        simp only [Option.mem_def, Option.some.injEq] at hz'
        subst hz'
        exact hadj.symm

end avl_heap

namespace avl_heap

open avl_node avl_tree

/-- The coalescing insert of a block that overlaps no block of the heap: the block is merged
with the address predecessor `pm` and the address successor `nm` where they touch it, and the
blocks of the heap still neither overlap nor touch. -/
theorem coalesce_insert_spec (w : ptrdiff_width) (h : avl_heap) (p s : Nat)
    (hwf : heap_wf w h) (htight : tight w (inorder h.addr_tree))
    (hrange : in_range w (inorder h.addr_tree))
    (hp : p ≠ 0) (hs : w.min_size ≤ s) (hps : p + s ≤ w.size_range)
    (hdisj : ∀ a ∈ inorder h.addr_tree, disjoint (a.base, a.size w) (p, s)) :
    ∃ h' X Y pm nm, avl_heap.insert w h (block.create w p s) = some h' ∧
      heap_wf w h' ∧ tight w (inorder h'.addr_tree) ∧ in_range w (inorder h'.addr_tree) ∧
      inorder h.addr_tree = X ++ (Option.toList pm ++ (Option.toList nm ++ Y)) ∧
      inorder h'.addr_tree =
        X ++ block.create w (Option.elim pm p block.base)
          (Option.elim pm 0 (block.size w) + s + Option.elim nm 0 (block.size w)) :: Y ∧
      (∀ y ∈ pm, y.base + y.size w = p) ∧ (∀ z ∈ nm, z.base = p + s) ∧
      (block.create w (Option.elim pm p block.base)
          (Option.elim pm 0 (block.size w) + s + Option.elim nm 0 (block.size w))).size w =
        Option.elim pm 0 (block.size w) + s + Option.elim nm 0 (block.size w) ∧
      h'.used_size = h.used_size ∧ h'.total_size = h.total_size := by
  have hslt : s < w.size_range := by omega
  have hsz : (block.create w p s).size w = s := block.size_create w p s hslt
  have hmin := w.min_size_pos
  have hfar : ∀ a ∈ inorder h.addr_tree, a.base + a.size w ≤ p ∨ p + s ≤ a.base := by
    intro a ha
    have h1 := hdisj a ha
    have h2 := (hrange a ha).2.1
    simp only [disjoint] at h1
    omega
  obtain ⟨st, adt, A1, A2, hes, hea, hwf1, hio, hio1, hA1, hA2⟩ :=
    both_insert w h (block.create w p s) hwf (block.create_wf _ _ _) (by
      intro a ha
      have h1 := hfar a ha
      have h2 := (hrange a ha).2.1
      simp only [block.create_base]
      omega)
  simp only [block.create_base] at hA1 hA2
  have hA1e : ∀ a ∈ A1, a.base + a.size w ≤ p := by
    intro a ha
    have h1 := hfar a (by rw [hio]; simp [ha])
    have h2 := hA1 a ha
    have h3 := (hrange a (by rw [hio]; simp [ha])).2.1
    omega
  have hA2e : ∀ a ∈ A2, p + s ≤ a.base := by
    intro a ha
    have h1 := hfar a (by rw [hio]; simp [ha])
    have h2 := hA2 a ha
    omega
  have hnd1 := nodup_of_pairwise_base _ hwf1.2.2.2.1
  obtain ⟨cur, hfind, hprev, -⟩ := neighbours_of_split adt _ A1 A2 hnd1 hio1
  rw [hio] at htight hrange
  -- the second half of the insert and the state it leaves
  have key : ∀ (hm : avl_heap) (X1 : List block) (pm : Option block),
      heap_wf w hm →
      inorder hm.addr_tree = X1 ++ block.create w (Option.elim pm p block.base)
        (Option.elim pm 0 (block.size w) + s) :: A2 →
      A1 = X1 ++ Option.toList pm → (∀ y ∈ pm, y.base + y.size w = p) →
      (pm = none → ∀ x ∈ A1, x.base + x.size w < p) →
      hm.used_size = h.used_size → hm.total_size = h.total_size →
      ∃ h' Y nm, ((find_node (block.create w (Option.elim pm p block.base)
          (Option.elim pm 0 (block.size w) + s)) [] hm.addr_tree).bind fun a =>
        (next_node a).bind fun a =>
          match a with
          | none => some hm
          | some next_node =>
            (data_of next_node.node).bind fun a =>
              (merge_block w hm (block.create w (Option.elim pm p block.base)
                (Option.elim pm 0 (block.size w) + s)) a).bind fun d => some d.2.2) = some h' ∧
        heap_wf w h' ∧ tight w (inorder h'.addr_tree) ∧ in_range w (inorder h'.addr_tree) ∧
        A1 ++ A2 = X1 ++ (Option.toList pm ++ (Option.toList nm ++ Y)) ∧
        inorder h'.addr_tree =
          X1 ++ block.create w (Option.elim pm p block.base)
            (Option.elim pm 0 (block.size w) + s + Option.elim nm 0 (block.size w)) :: Y ∧
        (∀ y ∈ pm, y.base + y.size w = p) ∧ (∀ z ∈ nm, z.base = p + s) ∧
        (block.create w (Option.elim pm p block.base)
            (Option.elim pm 0 (block.size w) + s + Option.elim nm 0 (block.size w))).size w =
          Option.elim pm 0 (block.size w) + s + Option.elim nm 0 (block.size w) ∧
        h'.used_size = h.used_size ∧ h'.total_size = h.total_size := by
    intro hm X1 pm hwfm hiom hA1eq hpm hpmn hu ht
    -- base and size of the block after the first half
    have hcb : Option.elim pm p block.base ≠ 0 ∧
        Option.elim pm p block.base + (Option.elim pm 0 (block.size w) + s) = p + s := by
      cases pm with
      | none => exact ⟨hp, by simp⟩
      | some y =>
        have hy := hpm y rfl
        have hy2 := hrange y (by rw [hA1eq]; simp)
        simp only [Option.elim]
        exact ⟨hy2.1, by omega⟩
    have hcs : (block.create w (Option.elim pm p block.base)
        (Option.elim pm 0 (block.size w) + s)).size w = Option.elim pm 0 (block.size w) + s :=
      block.size_create _ _ _ (by omega)
    obtain ⟨h', nm, Y, hstep, hwf', hY, hio', hnm, hnmn, hu', ht'⟩ :=
      insert_next_step w hm _ X1 A2 hwfm hiom (by simpa [block.create_base] using hcb.1)
        (by
          intro y hy
          rw [hcs, block.create_base, hcb.2]
          exact hA2e y hy)
        (fun y hy => (hrange y (by simp [hy])).2.2)
    rw [hcs, block.create_base] at hio' hnm hnmn
    have hnm' : ∀ z ∈ nm, z.base = p + s := by
      intro z hz
      rw [hnm z hz, hcb.2]
    -- the final block
    have hne : Option.elim nm 0 (block.size w) + (p + s) ≤ w.size_range ∧
        (nm = none → ∀ y ∈ Y, p + s < y.base) ∧
        (∀ z ∈ nm, ∀ y ∈ Y, z.base + z.size w < y.base) := by
      cases nm with
      | none =>
        refine ⟨by simp; omega, ?_, by simp⟩
        intro _ y hy
        have := hnmn rfl y (by rw [hY]; simp [hy])
        omega
      | some z =>
        have hz := hnm' z rfl
        have hz2 := hrange z (by rw [hY]; simp)
        refine ⟨by simp only [Option.elim]; omega, by simp, ?_⟩
        intro z' hz' y hy
        simp only [Option.mem_def, Option.some.injEq] at hz'
        subst hz'
        rw [hY] at htight
        simp only [Option.toList, List.cons_append, List.nil_append] at htight
        exact (List.pairwise_cons.1 (List.pairwise_append.1 htight).2.1).1 y hy
    have hfs : (block.create w (Option.elim pm p block.base)
        (Option.elim pm 0 (block.size w) + s + Option.elim nm 0 (block.size w))).size w =
        Option.elim pm 0 (block.size w) + s + Option.elim nm 0 (block.size w) :=
      block.size_create _ _ _ (by omega)
    have hXb : ∀ x ∈ X1, x.base + x.size w < Option.elim pm p block.base := by
      intro x hx
      cases pm with
      | none =>
        simp only [Option.elim]
        exact hpmn rfl x (by rw [hA1eq]; simp [hx])
      | some y =>
        simp only [Option.elim]
        rw [hA1eq] at htight
        simp only [Option.toList, List.append_assoc, List.cons_append, List.nil_append] at htight
        exact (List.pairwise_append.1 htight).2.2 x hx y (by simp)
    have hYb : ∀ y ∈ Y, p + s + Option.elim nm 0 (block.size w) < y.base := by
      intro y hy
      cases nm with
      | none => simpa using hne.2.1 rfl y hy
      | some z =>
        have := hne.2.2 z rfl y hy
        have hz := hnm' z rfl
        simp only [Option.elim]
        omega
    refine ⟨h', Y, nm, hstep, hwf', ?_, ?_, ?_, hio', hpm, hnm', hfs, hu'.trans hu, ht'.trans ht⟩
    · -- tight
      rw [hio']
      unfold tight
      rw [hA1eq, hY] at htight
      unfold tight at htight
      rw [List.pairwise_append, List.pairwise_cons]
      have ht1 := List.pairwise_append.1 htight
      have ht2 := List.pairwise_append.1 ht1.1
      have ht3 := List.pairwise_append.1 ht1.2.1
      refine ⟨ht2.1, ⟨?_, ht3.2.1⟩, ?_⟩
      · intro y hy
        rw [hfs, block.create_base]
        have := hYb y hy
        omega
      · intro x hx y hy
        rcases List.mem_cons.1 hy with rfl | hy
        · rw [block.create_base]; exact hXb x hx
        · exact ht1.2.2 x (by simp [hx]) y (by simp [hy])
    · -- in range
      rw [hio']
      intro b hb
      simp only [List.mem_append, List.mem_cons] at hb
      rcases hb with hb | rfl | hb
      · exact hrange b (by rw [hA1eq]; simp [hb])
      · rw [hfs, block.create_base]
        exact ⟨hcb.1, by omega, by omega⟩
      · exact hrange b (by rw [hY]; simp [hb])
    · rw [hA1eq, hY]; simp
  simp only [avl_heap.insert, hes, hea, Option.bind_eq_bind, Option.some_bind, hfind]
  rcases hprev with ⟨rfl, hpv⟩ | ⟨pn, X, y, hpv, hy, rfl⟩
  · -- no predecessor
    obtain ⟨h', Y, nm, hstep, hrest⟩ := key ⟨st, adt, h.used_size, h.total_size⟩ [] none hwf1
      (by simpa [Option.elim] using hio1) rfl (by simp) (by simp) rfl rfl
    simp only [Option.elim, Nat.zero_add, hfind, Option.some_bind] at hstep
    refine ⟨h', [], Y, none, nm, ?_, ?_⟩
    · simp only [hpv, Option.some_bind]
      exact hstep
    · simpa [hio] using hrest
  · simp only [hpv, hy, Option.some_bind]
    have hle := hA1e y (by simp)
    rcases Nat.lt_or_ge (y.base + y.size w) p with hlt | hge
    · -- the predecessor ends before the block
      obtain ⟨h', Y, nm, hstep, hrest⟩ := key ⟨st, adt, h.used_size, h.total_size⟩ (X ++ [y]) none hwf1
        (by simpa [Option.elim] using hio1) (by simp) (by simp) (by
          intro _ x hx
          rcases List.mem_append.1 hx with hx | hx
          · have h1 := (List.pairwise_append.1 (List.pairwise_append.1 htight).1).2.2 x hx y (by simp)
            have h2 := hA1 y (by simp)
            omega
          · simp only [List.mem_singleton] at hx
            subst hx
            exact hlt) rfl rfl
      simp only [Option.elim, Nat.zero_add, hfind, Option.some_bind] at hstep
      refine ⟨h', X ++ [y], Y, none, nm, ?_, ?_⟩
      · rw [merge_block_apart w _ y _ (by rw [block.create_base]; exact hlt)]
        simp only [Option.some_bind, Bool.false_eq_true, if_false, hfind]
        exact hstep
      · simpa [hio] using hrest
    · -- the predecessor touches the block
      have hadj : y.base + y.size w = (block.create w p s).base := by
        rw [block.create_base]; omega
      have hy2 := hrange y (by simp)
      obtain ⟨h2, hmb, hwf2, hio2, hu2, ht2⟩ := merge_block_adjacent w
        ⟨st, adt, h.used_size, h.total_size⟩ y (block.create w p s) X A2 hwf1
        (by simpa using hio1) hadj (by rw [hsz]; omega)
      rw [hsz] at hmb hio2
      obtain ⟨h', Y, nm, hstep, hrest⟩ := key h2 X (some y) hwf2
        (by simpa [Option.elim] using hio2) (by simp) (by
          intro y' hy'
          simp only [Option.mem_def, Option.some.injEq] at hy'
          subst hy'
          rw [block.create_base] at hadj
          exact hadj) (by simp) hu2 ht2
      simp only [Option.elim] at hstep
      refine ⟨h', X, Y, some y, nm, ?_, ?_⟩
      · rw [hmb]
        simp only [Option.some_bind, if_true]
        exact hstep
      · simpa [hio] using hrest

end avl_heap

namespace avl_heap

open avl_node avl_tree

theorem alloc_loop_found (w : ptrdiff_width) (size n : Nat) (h : avl_heap) (a : Alloc)
    (runs : List (Nat × Nat)) (blk : block) (hs : alloc_search w h size = some blk) :
    alloc_loop w size (n + 1) h a runs = some (some blk, h, a, runs) := by
  simp [alloc_loop, hs]

theorem free_regions_mk (w : ptrdiff_width) (st adt : avl_node block) (u t : Nat) :
    free_regions w ⟨st, adt, u, t⟩ = (inorder adt).map fun b => (b.base, b.size w) := rfl

theorem sub_size_t (w : ptrdiff_width) (n r : Nat) (hn : n < w.size_range) (hr : r ≤ n) :
    (n + w.size_range - r) % w.size_range = n - r := by
  have h1 : n + w.size_range - r = (n - r) + w.size_range := by omega
  rw [h1, Nat.add_mod_right, Nat.mod_eq_of_lt (by omega)]

/-- The end of `alloc` on a heap whose trees are well formed: the found block leaves both
trees, and the rest of the block beyond `size` comes back when it has at least `min_size`
bytes. -/
theorem alloc_take_perm (w : ptrdiff_width) (h : avl_heap) (blk : block) (size : Nat)
    (hwf : heap_wf w h) (hmem : blk ∈ inorder h.addr_tree) (hsz : size ≤ blk.size w) :
    ∃ h', alloc_take w h blk size =
        some (blk.base, if blk.size w - size ≥ w.min_size then size else blk.size w, h') ∧
      h'.used_size = (h.used_size +
        (if blk.size w - size ≥ w.min_size then size else blk.size w)) % w.size_range ∧
      h'.total_size = h.total_size ∧
      (free_regions w h').Perm
        ((if blk.size w - size ≥ w.min_size then [(blk.base + size, blk.size w - size)] else []) ++
          (free_regions w h).erase (blk.base, blk.size w)) := by
  obtain ⟨X, Y, hio⟩ := List.append_of_mem hmem
  have hbw : blk.wf w := hwf.2.2.2.2.2 blk hmem
  have hlt := block.size_lt w blk hbw
  have hpa := hwf.2.2.2.1
  obtain ⟨st, adt, hes, hea, hwf1, hio1⟩ := both_erase w h blk X Y hwf hio
  have herase : (free_regions w h).erase (blk.base, blk.size w) =
      (X ++ Y).map fun b => (b.base, b.size w) := by
    unfold free_regions
    rw [hio, List.map_append, List.map_cons, List.map_append]
    rw [List.erase_append_right, List.erase_cons_head]
    intro hx
    obtain ⟨x, hx, hxe⟩ := List.mem_map.1 hx
    rw [hio] at hpa
    have := (List.pairwise_append.1 hpa).2.2 x hx blk (by simp)
    simp only [Prod.mk.injEq] at hxe
    omega
  simp only [alloc_take, hes, hea, Option.bind_eq_bind, Option.some_bind, sub_size_t w _ _ hlt hsz]
  by_cases hsplit : blk.size w - size ≥ w.min_size
  · simp only [if_pos hsplit]
    obtain ⟨st2, S1, S2, hes2, -, -, -, -⟩ := avl_tree.insert_spec (size_cmp w) st
      (block.create w (blk.base + size) (blk.size w - size)) hwf1.1
    obtain ⟨adt2, A1, A2, hea2, -, hio2, hio2', -⟩ := avl_tree.insert_spec (addr_cmp w) adt
      (block.create w (blk.base + size) (blk.size w - size)) hwf1.2.1
    simp only [hes2, hea2, Option.some_bind]
    refine ⟨_, rfl, rfl, rfl, ?_⟩
    rw [herase, free_regions_mk, hio2', ← hio1, hio2]
    simp only [List.map_append, List.map_cons, block.create_base,
      block.size_create w _ _ (show blk.size w - size < w.size_range by omega)]
    exact List.perm_middle
  · simp only [if_neg hsplit]
    refine ⟨_, rfl, rfl, rfl, ?_⟩
    rw [herase, free_regions_mk, hio1]
    simp

/-- The end of `alloc` on a heap whose trees are well formed leaves the two trees legal, the
size tree ordered, and the same blocks in both trees. -/
theorem alloc_take_size_tree (w : ptrdiff_width) (h : avl_heap) (blk : block) (size : Nat)
    (hwf : heap_wf w h) (hmem : blk ∈ inorder h.addr_tree) (hsz : size ≤ blk.size w)
    (p out : Nat) (h' : avl_heap) (hcall : alloc_take w h blk size = some (p, out, h')) :
    legal h'.size_tree ∧ legal h'.addr_tree ∧ ordered (size_cmp w) (inorder h'.size_tree) ∧
      (inorder h'.size_tree).Perm (inorder h'.addr_tree) := by
  obtain ⟨X, Y, hio⟩ := List.append_of_mem hmem
  have hbw : blk.wf w := hwf.2.2.2.2.2 blk hmem
  have hlt := block.size_lt w blk hbw
  obtain ⟨st, adt, hes, hea, hwf1, -⟩ := both_erase w h blk X Y hwf hio
  obtain ⟨hl1, hl2, ho1, -, hp1, -⟩ := hwf1
  simp only at hl1 hl2 ho1 hp1
  simp only [alloc_take, hes, hea, Option.bind_eq_bind, Option.some_bind,
    sub_size_t w _ _ hlt hsz] at hcall
  by_cases hsplit : blk.size w - size ≥ w.min_size
  · simp only [if_pos hsplit] at hcall
    obtain ⟨st2, S1, S2, hes2, hls2, hsio, hsio2, hsord⟩ := avl_tree.insert_spec (size_cmp w) st
      (block.create w (blk.base + size) (blk.size w - size)) hl1
    obtain ⟨adt2, A1, A2, hea2, hla2, haio, haio2, -⟩ := avl_tree.insert_spec (addr_cmp w) adt
      (block.create w (blk.base + size) (blk.size w - size)) hl2
    simp only [hes2, hea2, Option.some_bind, Option.some.injEq, Prod.mk.injEq] at hcall
    obtain ⟨-, -, rfl⟩ := hcall
    obtain ⟨hA, hB⟩ := hsord (strict_weak_size_cmp w) ho1
    refine ⟨hls2, hla2, ?_, ?_⟩
    · show ordered (size_cmp w) (inorder st2)
      rw [hsio2]
      rw [hsio, ordered_append] at ho1
      rw [ordered_append, ordered_cons]
      refine ⟨ho1.1, ⟨hB, ho1.2.1⟩, ?_⟩
      intro a ha b hb
      rcases List.mem_cons.1 hb with rfl | hb
      · exact hA a ha
      · exact ho1.2.2 a ha b hb
    · show (inorder st2).Perm (inorder adt2)
      rw [hsio2, haio2]
      refine List.perm_middle.trans (List.Perm.trans ?_ List.perm_middle.symm)
      rw [← hsio, ← haio]
      exact hp1.cons _
  · simp only [if_neg hsplit, Option.some.injEq, Prod.mk.injEq] at hcall
    obtain ⟨-, -, rfl⟩ := hcall
    exact ⟨hl1, hl2, ho1, hp1⟩

theorem perm_erase_lawful {α : Type} [BEq α] [LawfulBEq α] (a : α) (xs ys : List α)
    (h : xs.Perm ys) : (xs.erase a).Perm (ys.erase a) := by
  induction h with
  | nil => exact List.Perm.refl _
  | cons x _ ih =>
    rw [List.erase_cons, List.erase_cons]
    split_ifs
    · assumption
    · exact ih.cons x
  | swap x y l =>
    simp only [List.erase_cons]
    by_cases hx : (x == a) = true <;> by_cases hy : (y == a) = true
    · have h1 : x = a := by simpa using hx
      have h2 : y = a := by simpa using hy
      subst h1
      subst h2
      simp
    · simp [hx, hy]
    · simp [hx, hy]
    · simp only [hx, hy, if_false, Bool.false_eq_true]
      exact List.Perm.swap _ _ _
  | trans _ _ ih1 ih2 => exact ih1.trans ih2

/-- The regions that the size tree indexes are those that the address tree indexes when the two
trees hold the same blocks. -/
theorem size_regions_perm (w : ptrdiff_width) (h : avl_heap)
    (hperm : (inorder h.size_tree).Perm (inorder h.addr_tree)) :
    (size_regions w h).Perm (free_regions w h) :=
  hperm.map _

/-- C6: on a heap whose two trees are well formed (legal, over the same blocks, at distinct
addresses), when the search of `alloc` for the rounded request `r = align_size(size)` finds the
block of base `b` and size `n`: `alloc` returns `b` without calling the allocator, takes that
region out of the free set and adds the reported size to `used` (in `size_t`); if
`n - r >= min_size` the free set gains exactly the region of base `b + r` and size `n - r` and
the reported size is `r`, otherwise it gains nothing and the reported size is `n`.  The free set
is the same in both indices: the regions of the size tree and those of the address tree are both
the regions described, the two trees hold the same blocks and are legal, and the size tree is
ordered by size. -/
theorem alloc_found (w : ptrdiff_width) (h : avl_heap) (allocator : Alloc) (size : Nat)
    (blk : block) (hwf : heap_wf w h) (hfound : alloc_search w h (align_size w size) = some blk) :
    ∃ h', alloc w h allocator size =
        some (blk.base,
          if blk.size w - align_size w size ≥ w.min_size then align_size w size else blk.size w,
          h', allocator) ∧
      h'.used = (h.used +
        (if blk.size w - align_size w size ≥ w.min_size then align_size w size
          else blk.size w)) % w.size_range ∧
      h'.total = h.total ∧
      (free_regions w h').Perm
        ((if blk.size w - align_size w size ≥ w.min_size
            then [(blk.base + align_size w size, blk.size w - align_size w size)] else []) ++
          (free_regions w h).erase (blk.base, blk.size w)) ∧
      (size_regions w h').Perm
        ((if blk.size w - align_size w size ≥ w.min_size
            then [(blk.base + align_size w size, blk.size w - align_size w size)] else []) ++
          (size_regions w h).erase (blk.base, blk.size w)) ∧
      (inorder h'.size_tree).Perm (inorder h'.addr_tree) ∧
      legal h'.size_tree ∧ legal h'.addr_tree ∧
      ordered (size_cmp w) (inorder h'.size_tree) := by
  have hms : blk ∈ inorder h.size_tree ∧ align_size w size ≤ blk.size w := by
    rcases alloc_search_spec w h (align_size w size) hwf.2.2.1 with
      ⟨A, b, B, hio, -, hb, hres⟩ | ⟨-, hres⟩
    · rw [hres] at hfound
      cases hfound
      exact ⟨by rw [hio]; simp, hb⟩
    · rw [hres] at hfound
      cases hfound
  obtain ⟨hmem, hsz⟩ := hms
  have hmem' : blk ∈ inorder h.addr_tree := hwf.2.2.2.2.1.mem_iff.1 hmem
  obtain ⟨h', htake, hu, ht, hperm⟩ := alloc_take_perm w h blk (align_size w size) hwf hmem' hsz
  obtain ⟨hl1, hl2, hord, hp⟩ := alloc_take_size_tree w h blk (align_size w size) hwf hmem' hsz
    _ _ h' htake
  refine ⟨h', ?_, hu, ht, hperm, ?_, hp, hl1, hl2, hord⟩
  · simp only [alloc, alloc_runs, alloc_loop_found w _ _ h allocator [] blk hfound,
      Option.bind_eq_bind, Option.some_bind, htake, Option.map_some']
  · refine (size_regions_perm w h' hp).trans (hperm.trans ?_)
    exact List.Perm.append_left _
      (perm_erase_lawful (blk.base, blk.size w) _ _ (size_regions_perm w h hwf.2.2.2.2.1).symm)

theorem three_blocks_wf : heap_wf ptrdiff_width.w64 three_blocks := by
  refine ⟨by simp [three_blocks, legal, height], by simp [three_blocks, legal, height], ?_, ?_, ?_, ?_⟩
  · simp [three_blocks, ordered, inorder, size_cmp, block.size, ptrdiff_width.half_size_shift]
  · simp [three_blocks, inorder]
  · simp only [three_blocks, inorder, List.nil_append, List.cons_append]
    exact (List.Perm.swap _ _ _).cons _
  · intro b hb
    simp only [three_blocks, inorder, List.nil_append, List.cons_append, List.mem_cons,
      List.mem_singleton, List.not_mem_nil, or_false] at hb
    rcases hb with rfl | rfl | rfl <;> simp [block.wf, ptrdiff_width.half_size_shift]

theorem alloc_found_witness :
    heap_wf ptrdiff_width.w64 three_blocks ∧
    alloc_search ptrdiff_width.w64 three_blocks (align_size ptrdiff_width.w64 80) = some ⟨16384, 128, 0⟩ ∧
    ∃ h', alloc ptrdiff_width.w64 three_blocks ⟨[]⟩ 80 =
        some ((⟨16384, 128, 0⟩ : block).base,
          if (⟨16384, 128, 0⟩ : block).size ptrdiff_width.w64 - align_size ptrdiff_width.w64 80
              ≥ ptrdiff_width.w64.min_size
            then align_size ptrdiff_width.w64 80 else (⟨16384, 128, 0⟩ : block).size ptrdiff_width.w64,
          h', ⟨[]⟩) ∧
      h'.used = (three_blocks.used +
        (if (⟨16384, 128, 0⟩ : block).size ptrdiff_width.w64 - align_size ptrdiff_width.w64 80
              ≥ ptrdiff_width.w64.min_size
          then align_size ptrdiff_width.w64 80
          else (⟨16384, 128, 0⟩ : block).size ptrdiff_width.w64)) % ptrdiff_width.w64.size_range ∧
      h'.total = three_blocks.total ∧
      (free_regions ptrdiff_width.w64 h').Perm
        ((if (⟨16384, 128, 0⟩ : block).size ptrdiff_width.w64 - align_size ptrdiff_width.w64 80
              ≥ ptrdiff_width.w64.min_size
            then [((⟨16384, 128, 0⟩ : block).base + align_size ptrdiff_width.w64 80,
              (⟨16384, 128, 0⟩ : block).size ptrdiff_width.w64 - align_size ptrdiff_width.w64 80)]
            else []) ++
          (free_regions ptrdiff_width.w64 three_blocks).erase
            ((⟨16384, 128, 0⟩ : block).base, (⟨16384, 128, 0⟩ : block).size ptrdiff_width.w64)) ∧
      (size_regions ptrdiff_width.w64 h').Perm
        ((if (⟨16384, 128, 0⟩ : block).size ptrdiff_width.w64 - align_size ptrdiff_width.w64 80
              ≥ ptrdiff_width.w64.min_size
            then [((⟨16384, 128, 0⟩ : block).base + align_size ptrdiff_width.w64 80,
              (⟨16384, 128, 0⟩ : block).size ptrdiff_width.w64 - align_size ptrdiff_width.w64 80)]
            else []) ++
          (size_regions ptrdiff_width.w64 three_blocks).erase
            ((⟨16384, 128, 0⟩ : block).base, (⟨16384, 128, 0⟩ : block).size ptrdiff_width.w64)) ∧
      (inorder h'.size_tree).Perm (inorder h'.addr_tree) ∧
      legal h'.size_tree ∧ legal h'.addr_tree ∧
      ordered (size_cmp ptrdiff_width.w64) (inorder h'.size_tree) :=
  ⟨three_blocks_wf, by decide, alloc_found _ _ _ _ _ three_blocks_wf (by decide)⟩

end avl_heap

namespace avl_heap

open avl_node avl_tree

/-- The coalescing insert into the empty heap. -/
theorem insert_empty (w : ptrdiff_width) (blk : block) :
    avl_heap.insert w empty blk =
      some ⟨avl_node.mk nullptr nullptr 0 blk, avl_node.mk nullptr nullptr 0 blk, 0, 0⟩ := by
  simp [avl_heap.insert, empty, avl_tree.insert, insert_loop, find_node, prev_node, next_node,
    prev_ascend, next_ascend]

theorem align_size_17 (w : ptrdiff_width) : align_size w 17 = w.min_size := by
  cases w <;> simp [align_size, ptrdiff_width.min_size, ptrdiff_width.pointer_bytes]

/-- C7, as the code has it: on an empty heap after `expand` has produced exactly one free
region, of 1 MiB at base `B`, `alloc(17)` returns `B` and reports the request raised to
`min_size = sizeof(block)`, eight pointer widths (32 on a 32-bit target, 64 on a 64-bit target);
it leaves exactly one free region, of size `1 MiB - min_size` at base `B + min_size`, in the
address tree and in the size tree alike; `used` is `min_size` and `total` is unchanged. -/
theorem alloc_17_after_expand (w : ptrdiff_width) (B : Nat) (allocator : Alloc) (size granted : Nat)
    (h1 : avl_heap) (a1 : Alloc)
    (hexp : expand w empty allocator size = some (granted, h1, a1))
    (hone : free_regions w h1 = [(B, 2 ^ 20)]) :
    ∃ h2, alloc w h1 a1 17 = some (B, w.min_size, h2, a1) ∧
      free_regions w h2 = [(B + w.min_size, 2 ^ 20 - w.min_size)] ∧
      size_regions w h2 = [(B + w.min_size, 2 ^ 20 - w.min_size)] ∧
      h2.used = w.min_size ∧ h2.total = h1.total := by
  -- the heap that `expand` leaves
  obtain ⟨blk, t, hh1⟩ : ∃ blk t, h1 = ⟨avl_node.mk nullptr nullptr 0 blk, avl_node.mk nullptr nullptr 0 blk, 0, t⟩ ∧
      blk.wf w := by
    simp only [expand, expand_run] at hexp
    split_ifs at hexp with hc
    · simp only [insert_empty, Option.bind_eq_bind, Option.some_bind, Option.map_some',
        Option.some.injEq, Prod.mk.injEq] at hexp
      exact ⟨_, _, hexp.2.1.symm, block.create_wf _ _ _⟩
    · simp only [Option.map_some', Option.some.injEq, Prod.mk.injEq] at hexp
      rw [← hexp.2.1] at hone
      simp [free_regions, empty, inorder] at hone
  obtain ⟨rfl, hbw⟩ := hh1
  simp only [free_regions_mk, inorder, List.nil_append, List.map_cons, List.map_nil,
    List.cons.injEq, Prod.mk.injEq, and_true] at hone
  obtain ⟨hb, hsz⟩ := hone
  have hmin : w.min_size ≤ 2 ^ 20 - w.min_size := by
    cases w <;> simp [ptrdiff_width.min_size, ptrdiff_width.pointer_bytes]
  have hwf : heap_wf w ⟨avl_node.mk nullptr nullptr 0 blk, avl_node.mk nullptr nullptr 0 blk, 0, t⟩ := by
    refine ⟨by simp [legal, height], by simp [legal, height], by simp [ordered, inorder],
      by simp [inorder], List.Perm.refl _, ?_⟩
    intro b hb'
    simp only [inorder, List.nil_append, List.mem_singleton] at hb'
    rw [hb']; exact hbw
  have hfound : alloc_search w ⟨avl_node.mk nullptr nullptr 0 blk, avl_node.mk nullptr nullptr 0 blk, 0, t⟩
      w.min_size = some blk := by
    have : blk.size w ≥ w.min_size := by omega
    simp [alloc_search, search, this]
  obtain ⟨h2, htake, hu, ht, hperm⟩ := alloc_take_perm w _ blk w.min_size hwf
    (by simp [inorder]) (by omega)
  obtain ⟨-, -, -, hst⟩ := alloc_take_size_tree w _ blk w.min_size hwf
    (by simp [inorder]) (by omega) _ _ h2 htake
  rw [hsz, hb] at htake hperm
  rw [hsz] at hu
  simp only [ge_iff_le, hmin, if_true] at htake hperm hu
  have hfree : free_regions w h2 = [(B + w.min_size, 2 ^ 20 - w.min_size)] := by
    simp only [free_regions_mk, inorder, List.nil_append, List.map_cons, List.map_nil, hb, hsz,
      List.erase_cons_head, List.append_nil] at hperm
    exact List.perm_singleton.1 hperm
  refine ⟨h2, ?_, hfree, ?_, ?_, ht⟩
  · simp only [alloc, alloc_runs, align_size_17, alloc_loop_found w _ _ _ a1 [] blk hfound,
      Option.bind_eq_bind, Option.some_bind, htake, Option.map_some']
  · have := size_regions_perm w h2 hst
    rw [hfree] at this
    exact List.perm_singleton.1 this
  · show h2.used_size = _
    rw [hu]
    simp only [Nat.zero_add]
    exact Nat.mod_eq_of_lt w.min_size_lt

theorem alloc_17_after_expand_witness :
    expand ptrdiff_width.w32 empty (one_answer 4096) (2 ^ 20) =
      some (2 ^ 20, one_region ptrdiff_width.w32 4096, ⟨[]⟩) ∧
    free_regions ptrdiff_width.w32 (one_region ptrdiff_width.w32 4096) = [(4096, 2 ^ 20)] ∧
    ∃ h2, alloc ptrdiff_width.w32 (one_region ptrdiff_width.w32 4096) ⟨[]⟩ 17 =
        some (4096, ptrdiff_width.w32.min_size, h2, ⟨[]⟩) ∧
      free_regions ptrdiff_width.w32 h2 =
        [(4096 + ptrdiff_width.w32.min_size, 2 ^ 20 - ptrdiff_width.w32.min_size)] ∧
      size_regions ptrdiff_width.w32 h2 =
        [(4096 + ptrdiff_width.w32.min_size, 2 ^ 20 - ptrdiff_width.w32.min_size)] ∧
      h2.used = ptrdiff_width.w32.min_size ∧
      h2.total = (one_region ptrdiff_width.w32 4096).total :=
  ⟨rfl, by decide, alloc_17_after_expand _ _ (one_answer 4096) (2 ^ 20) (2 ^ 20) _ _ rfl (by decide)⟩

/-- C7 as stated fails on a 64-bit target: after `expand` has produced the one free region of
1 MiB at base 4096, `alloc(17)` reports 64, not 32, and leaves the free region of size
`1 MiB - 64` at base `4096 + 64`, in both trees. -/
theorem alloc_17_reports_64 :
    expand ptrdiff_width.w64 empty (one_answer 4096) (2 ^ 20) =
      some (2 ^ 20, one_region ptrdiff_width.w64 4096, ⟨[]⟩) ∧
    free_regions ptrdiff_width.w64 (one_region ptrdiff_width.w64 4096) = [(4096, 2 ^ 20)] ∧
    (∃ h2, alloc ptrdiff_width.w64 (one_region ptrdiff_width.w64 4096) ⟨[]⟩ 17 =
        some (4096, 64, h2, ⟨[]⟩) ∧
      free_regions ptrdiff_width.w64 h2 = [(4096 + 64, 2 ^ 20 - 64)] ∧
      size_regions ptrdiff_width.w64 h2 = [(4096 + 64, 2 ^ 20 - 64)]) ∧
    ¬ ∃ h2 a2, alloc ptrdiff_width.w64 (one_region ptrdiff_width.w64 4096) ⟨[]⟩ 17 =
        some (4096, 32, h2, a2) := by
  have hcall : alloc ptrdiff_width.w64 (one_region ptrdiff_width.w64 4096) ⟨[]⟩ 17 =
      some (4096, 64,
        ⟨avl_node.mk nullptr nullptr 0 (block.create ptrdiff_width.w64 4160 1048512),
          avl_node.mk nullptr nullptr 0 (block.create ptrdiff_width.w64 4160 1048512), 64, 2 ^ 20⟩,
        ⟨[]⟩) := rfl
  refine ⟨rfl, by decide, ⟨_, hcall, by decide, by decide⟩, ?_⟩
  rintro ⟨h2, a2, h⟩
  rw [hcall] at h
  simp at h

end avl_heap

namespace avl_heap

open avl_node avl_tree

theorem covers_nil (x : Nat) : covers [] x ↔ False := by
  simp [covers]

theorem covers_cons (r : Nat × Nat) (rs : List (Nat × Nat)) (x : Nat) :
    covers (r :: rs) x ↔ (r.1 ≤ x ∧ x < r.1 + r.2) ∨ covers rs x := by
  simp [covers]

theorem covers_append (rs ss : List (Nat × Nat)) (x : Nat) :
    covers (rs ++ ss) x ↔ covers rs x ∨ covers ss x := by
  simp only [covers, List.mem_append]
  constructor
  · rintro ⟨r, hr | hr, h⟩
    · exact Or.inl ⟨r, hr, h⟩
    · exact Or.inr ⟨r, hr, h⟩
  · rintro (⟨r, hr, h⟩ | ⟨r, hr, h⟩)
    · exact ⟨r, Or.inl hr, h⟩
    · exact ⟨r, Or.inr hr, h⟩

theorem total_bytes_nil : total_bytes [] = 0 := rfl

theorem total_bytes_cons (r : Nat × Nat) (rs : List (Nat × Nat)) :
    total_bytes (r :: rs) = r.2 + total_bytes rs := by
  simp [total_bytes]

theorem total_bytes_append (rs ss : List (Nat × Nat)) :
    total_bytes (rs ++ ss) = total_bytes rs + total_bytes ss := by
  simp [total_bytes]

theorem disjoint_comm (a b : Nat × Nat) : disjoint a b ↔ disjoint b a := by
  simp only [disjoint]
  omega

/-- A range whose bytes all lie in ranges of `rs` shares no byte with a range that shares none
with the ranges of `rs`. -/
theorem disjoint_of_covered (rs : List (Nat × Nat)) (a q : Nat × Nat)
    (hcov : ∀ x, a.1 ≤ x → x < a.1 + a.2 → covers rs x)
    (hq : ∀ r ∈ rs, disjoint q r) : disjoint a q := by
  by_contra hnd
  simp only [disjoint, not_or, not_le] at hnd
  obtain ⟨h1, h2, h3, h4⟩ := hnd
  obtain ⟨r, hr, hr1, hr2⟩ := hcov (max a.1 q.1) (by omega) (by omega)
  have := hq r hr
  simp only [disjoint] at this
  omega

/-- The ranges of a list of pairwise disjoint ranges that lie between address 1 and address `R`
have less than `R` bytes in all. -/
theorem total_bytes_lt (R : Nat) (rs : List (Nat × Nat)) (hd : rs.Pairwise disjoint)
    (hr : ∀ r ∈ rs, r.1 ≠ 0 ∧ r.1 + r.2 ≤ R) (hR : 0 < R) : total_bytes rs < R := by
  have key : ∃ S : Finset Nat, S.card = total_bytes rs ∧ ∀ x ∈ S, covers rs x ∧ 1 ≤ x ∧ x < R := by
    induction rs with
    | nil => exact ⟨∅, by simp [total_bytes], by simp⟩
    | cons r rs ih =>
      obtain ⟨hd1, hd2⟩ := List.pairwise_cons.1 hd
      obtain ⟨S, hS, hSx⟩ := ih hd2 (fun q hq => hr q (List.mem_cons_of_mem _ hq))
      have hr0 := hr r (by simp)
      refine ⟨Finset.Ico r.1 (r.1 + r.2) ∪ S, ?_, ?_⟩
      · rw [Finset.card_union_of_disjoint, hS, total_bytes_cons, Nat.card_Ico]
        · omega
        · rw [Finset.disjoint_left]
          intro x hx hxS
          obtain ⟨q, hq, hq1, hq2⟩ := (hSx x hxS).1
          have := hd1 q hq
          simp only [Finset.mem_Ico] at hx
          simp only [disjoint] at this
          omega
      · intro x hx
        rcases Finset.mem_union.1 hx with hx | hx
        · simp only [Finset.mem_Ico] at hx
          exact ⟨(covers_cons _ _ _).2 (Or.inl hx), by omega, by omega⟩
        · obtain ⟨h1, h2, h3⟩ := hSx x hx
          exact ⟨(covers_cons _ _ _).2 (Or.inr h1), h2, h3⟩
  obtain ⟨S, hS, hSx⟩ := key
  have hsub : S ⊆ Finset.Ico 1 R := by
    intro x hx
    obtain ⟨-, h2, h3⟩ := hSx x hx
    simp [h2, h3]
  have := Finset.card_le_card hsub
  rw [Nat.card_Ico] at this
  omega

theorem pairwise_erase_rel {α : Type} [BEq α] [LawfulBEq α] (R : α → α → Prop)
    (hsymm : ∀ a b, R a b → R b a) (l : List α) (hl : l.Pairwise R) (a b : α)
    (ha : a ∈ l) (hb : b ∈ l.erase a) : R a b := by
  induction l with
  | nil => simp at ha
  | cons c l ih =>
    obtain ⟨h1, h2⟩ := List.pairwise_cons.1 hl
    by_cases hca : c = a
    · subst hca
      rw [List.erase_cons_head] at hb
      exact h1 b hb
    · rw [List.erase_cons_tail (by simpa using hca)] at hb
      have ha' : a ∈ l := by
        rcases List.mem_cons.1 ha with rfl | ha
        · exact absurd rfl hca
        · exact ha
      rcases List.mem_cons.1 hb with rfl | hb
      · exact hsymm _ _ (h1 a ha')
      · exact ih h2 ha' hb

theorem covers_erase (rs : List (Nat × Nat)) (q : Nat × Nat) (hq : q ∈ rs) (x : Nat) :
    covers rs x ↔ (q.1 ≤ x ∧ x < q.1 + q.2) ∨ covers (rs.erase q) x := by
  induction rs with
  | nil => simp at hq
  | cons c rs ih =>
    by_cases hcq : c = q
    · subst hcq
      rw [List.erase_cons_head, covers_cons]
    · rw [List.erase_cons_tail (by simpa using hcq), covers_cons, covers_cons]
      have hq' : q ∈ rs := by
        rcases List.mem_cons.1 hq with rfl | hq
        · exact absurd rfl hcq
        · exact hq
      rw [ih hq']
      tauto

theorem total_bytes_erase (rs : List (Nat × Nat)) (q : Nat × Nat) (hq : q ∈ rs) :
    total_bytes rs = q.2 + total_bytes (rs.erase q) := by
  induction rs with
  | nil => simp at hq
  | cons c rs ih =>
    by_cases hcq : c = q
    · subst hcq
      rw [List.erase_cons_head, total_bytes_cons]
    · rw [List.erase_cons_tail (by simpa using hcq), total_bytes_cons, total_bytes_cons]
      have hq' : q ∈ rs := by
        rcases List.mem_cons.1 hq with rfl | hq
        · exact absurd rfl hcq
        · exact hq
      rw [ih hq']
      omega

end avl_heap

namespace avl_heap

open avl_node avl_tree

/-- The ranges of a list in which the range `(p, s)` has been put and merged with the range `pm`
that ends at `p` and the range `nm` that starts at `p + s`. -/
theorem regions_merge (X Y : List (Nat × Nat)) (pm nm : Option (Nat × Nat)) (p s : Nat)
    (c : Nat × Nat) (hc1 : c.1 = Option.elim pm p Prod.fst)
    (hc2 : c.2 = Option.elim pm 0 Prod.snd + s + Option.elim nm 0 Prod.snd)
    (hpm : ∀ y ∈ pm, y.1 + y.2 = p) (hnm : ∀ z ∈ nm, z.1 = p + s) :
    (∀ x, covers (X ++ c :: Y) x ↔
      covers (X ++ (Option.toList pm ++ (Option.toList nm ++ Y))) x ∨ (p ≤ x ∧ x < p + s)) ∧
    total_bytes (X ++ c :: Y) =
      total_bytes (X ++ (Option.toList pm ++ (Option.toList nm ++ Y))) + s ∧
    ∀ o, (∀ r ∈ X ++ (Option.toList pm ++ (Option.toList nm ++ Y)), disjoint r o) →
      disjoint (p, s) o → ∀ r ∈ X ++ c :: Y, disjoint r o := by
  obtain ⟨c1, c2⟩ := c
  simp only at hc1 hc2
  cases pm with
  | none =>
    cases nm with
    | none =>
      simp only [Option.elim, Nat.zero_add, Nat.add_zero] at hc1 hc2
      subst hc1 hc2
      refine ⟨?_, ?_, ?_⟩
      · intro x
        simp only [Option.toList, List.nil_append, covers_append, covers_cons]
        tauto
      · simp only [Option.toList, List.nil_append, total_bytes_append, total_bytes_cons]
        omega
      · intro o ho hps r hr
        simp only [Option.toList, List.nil_append, List.mem_append, List.mem_cons] at ho hr
        rcases hr with hr | rfl | hr
        · exact ho r (Or.inl hr)
        · exact hps
        · exact ho r (Or.inr hr)
    | some z =>
      have hz := hnm z rfl
      simp only [Option.elim, Nat.zero_add] at hc1 hc2
      subst hc1 hc2
      refine ⟨?_, ?_, ?_⟩
      · intro x
        simp only [Option.toList, List.nil_append, List.cons_append, covers_append, covers_cons]
        by_cases hX : covers X x <;> by_cases hY : covers Y x <;>
          simp only [hX, hY, true_or, or_true, false_or, or_false, iff_self] <;> omega
      · simp only [Option.toList, List.nil_append, List.cons_append, total_bytes_append,
          total_bytes_cons]
        omega
      · intro o ho hps r hr
        simp only [Option.toList, List.nil_append, List.cons_append, List.mem_append,
          List.mem_cons] at ho hr
        rcases hr with hr | rfl | hr
        · exact ho r (Or.inl hr)
        · have h1 := ho z (Or.inr (Or.inl rfl))
          simp only [disjoint] at h1 hps ⊢
          omega
        · exact ho r (Or.inr (Or.inr hr))
  | some y =>
    have hy := hpm y rfl
    cases nm with
    | none =>
      simp only [Option.elim, Nat.add_zero] at hc1 hc2
      subst hc1 hc2
      refine ⟨?_, ?_, ?_⟩
      · intro x
        simp only [Option.toList, List.nil_append, List.cons_append, covers_append, covers_cons]
        by_cases hX : covers X x <;> by_cases hY : covers Y x <;>
          simp only [hX, hY, true_or, or_true, false_or, or_false, iff_self] <;> omega
      · simp only [Option.toList, List.nil_append, List.cons_append, total_bytes_append,
          total_bytes_cons]
        omega
      · intro o ho hps r hr
        simp only [Option.toList, List.nil_append, List.cons_append, List.mem_append,
          List.mem_cons] at ho hr
        rcases hr with hr | rfl | hr
        · exact ho r (Or.inl hr)
        · have h1 := ho y (Or.inr (Or.inl rfl))
          simp only [disjoint] at h1 hps ⊢
          omega
        · exact ho r (Or.inr (Or.inr hr))
    | some z =>
      have hz := hnm z rfl
      simp only [Option.elim] at hc1 hc2
      subst hc1 hc2
      refine ⟨?_, ?_, ?_⟩
      · intro x
        simp only [Option.toList, List.nil_append, List.cons_append, covers_append, covers_cons]
        by_cases hX : covers X x <;> by_cases hY : covers Y x <;>
          simp only [hX, hY, true_or, or_true, false_or, or_false, iff_self] <;> omega
      · simp only [Option.toList, List.nil_append, List.cons_append, total_bytes_append,
          total_bytes_cons]
        omega
      · intro o ho hps r hr
        simp only [Option.toList, List.nil_append, List.cons_append, List.mem_append,
          List.mem_cons] at ho hr
        rcases hr with hr | rfl | hr
        · exact ho r (Or.inl hr)
        · have h1 := ho y (Or.inr (Or.inl rfl))
          have h2 := ho z (Or.inr (Or.inr (Or.inl rfl)))
          simp only [disjoint] at h1 h2 hps ⊢
          omega
        · exact ho r (Or.inr (Or.inr (Or.inr hr)))

theorem map_toList {α β : Type} (f : α → β) (o : Option α) :
    (Option.toList o).map f = Option.toList (o.map f) := by
  cases o <;> rfl

/-- The coalescing insert of a region that shares no byte with the free regions nor with the
outstanding allocations `O`. -/
theorem insert_region (w : ptrdiff_width) (h : avl_heap) (O : List (Nat × Nat)) (p s : Nat)
    (hwf : heap_wf w h) (htight : tight w (inorder h.addr_tree))
    (hrange : in_range w (inorder h.addr_tree))
    (hfo : ∀ r ∈ free_regions w h, ∀ o ∈ O, disjoint r o)
    (hp : p ≠ 0) (hs : w.min_size ≤ s) (hps : p + s ≤ w.size_range)
    (hdisj : ∀ r ∈ free_regions w h, disjoint r (p, s))
    (hpo : ∀ o ∈ O, disjoint (p, s) o) :
    ∃ h', avl_heap.insert w h (block.create w p s) = some h' ∧
      heap_wf w h' ∧ tight w (inorder h'.addr_tree) ∧ in_range w (inorder h'.addr_tree) ∧
      (∀ r ∈ free_regions w h', ∀ o ∈ O, disjoint r o) ∧
      (∀ x, covers (free_regions w h') x ↔ covers (free_regions w h) x ∨ (p ≤ x ∧ x < p + s)) ∧
      total_bytes (free_regions w h') = total_bytes (free_regions w h) + s ∧
      h'.used_size = h.used_size ∧ h'.total_size = h.total_size := by
  obtain ⟨h', X, Y, pm, nm, hins, hwf', htight', hrange', hA, hA', hpm, hnm, hcs, hu, ht⟩ :=
    coalesce_insert_spec w h p s hwf htight hrange hp hs hps (by
      intro a ha
      exact hdisj _ (List.mem_map.2 ⟨a, ha, rfl⟩))
  have hmerge := regions_merge (X.map fun b => (b.base, b.size w)) (Y.map fun b => (b.base, b.size w))
    (pm.map fun b => (b.base, b.size w)) (nm.map fun b => (b.base, b.size w)) p s
    ((block.create w (Option.elim pm p block.base)
        (Option.elim pm 0 (block.size w) + s + Option.elim nm 0 (block.size w))).base,
      (block.create w (Option.elim pm p block.base)
        (Option.elim pm 0 (block.size w) + s + Option.elim nm 0 (block.size w))).size w)
    (by cases pm <;> rfl)
    (by rw [hcs]; cases pm <;> cases nm <;> rfl)
    (by
      intro y hy
      simp only [Option.mem_def, Option.map_eq_some'] at hy
      obtain ⟨b, hb, rfl⟩ := hy
      exact hpm b hb)
    (by
      intro z hz
      simp only [Option.mem_def, Option.map_eq_some'] at hz
      obtain ⟨b, hb, rfl⟩ := hz
      exact hnm b hb)
  have hF : free_regions w h = (X.map fun b => (b.base, b.size w)) ++
      (Option.toList (pm.map fun b => (b.base, b.size w)) ++
        (Option.toList (nm.map fun b => (b.base, b.size w)) ++
          Y.map fun b => (b.base, b.size w))) := by
    unfold free_regions
    rw [hA, List.map_append, List.map_append, List.map_append, map_toList, map_toList]
  have hF' : free_regions w h' = (X.map fun b => (b.base, b.size w)) ++
      ((block.create w (Option.elim pm p block.base)
          (Option.elim pm 0 (block.size w) + s + Option.elim nm 0 (block.size w))).base,
        (block.create w (Option.elim pm p block.base)
          (Option.elim pm 0 (block.size w) + s + Option.elim nm 0 (block.size w))).size w) ::
        Y.map fun b => (b.base, b.size w) := by
    unfold free_regions
    rw [hA', List.map_append, List.map_cons]
  rw [← hF, ← hF'] at hmerge
  obtain ⟨hcov, htot, hdj⟩ := hmerge
  refine ⟨h', hins, hwf', htight', hrange', ?_, hcov, htot, hu, ht⟩
  intro r hr o ho
  exact hdj o (fun r' hr' => hfo r' hr' o ho) (hpo o ho) r hr

end avl_heap

namespace avl_heap

open avl_node avl_tree

theorem covers_free_region (w : ptrdiff_width) (h : avl_heap) (r : Nat × Nat)
    (hr : r ∈ free_regions w h) (x : Nat) (h1 : r.1 ≤ x) (h2 : x < r.1 + r.2) :
    covers (free_regions w h) x := ⟨r, hr, h1, h2⟩

/-- The heap takes a fresh run from the allocator. -/
theorem grant_step (w : ptrdiff_width) (s : heap_state) (p n : Nat) (rest : List (Nat → Nat × Nat))
    (hinv : inv w s) (hp : p ≠ 0) (hn : w.min_size ≤ n) (hpn : p + n ≤ w.size_range)
    (hnew : ∀ r ∈ s.runs, disjoint (p, n) r)
    (hfresh' : fresh_answers w (s.runs ++ [(p, n)]) rest) :
    ∃ h', avl_heap.insert w s.heap (block.create w p n) = some h' ∧
      inv w ⟨{ h' with total_size := (h'.total_size + n) % w.size_range }, ⟨rest⟩, s.outstanding,
        s.runs ++ [(p, n)]⟩ := by
  obtain ⟨hwf, htight, hrange, hOr, hOd, hFO, hRd, hRr, hcov, hused, hacc, htot, -⟩ := hinv
  have hdF : ∀ r ∈ free_regions w s.heap, disjoint r (p, n) := by
    intro r hr
    refine disjoint_of_covered s.runs r (p, n) ?_ hnew
    intro x h1 h2
    exact (hcov x).1 (Or.inl (covers_free_region w _ r hr x h1 h2))
  have hdO : ∀ o ∈ s.outstanding, disjoint (p, n) o := by
    intro o ho
    rw [disjoint_comm]
    refine disjoint_of_covered s.runs o (p, n) ?_ hnew
    intro x h1 h2
    exact (hcov x).1 (Or.inr ⟨o, ho, h1, h2⟩)
  obtain ⟨h', hins, hwf', htight', hrange', hFO', hcov', htot', hu', ht'⟩ :=
    insert_region w s.heap s.outstanding p n hwf htight hrange hFO hp hn hpn hdF hdO
  have hRd' : (s.runs ++ [(p, n)]).Pairwise disjoint := by
    rw [List.pairwise_append]
    refine ⟨hRd, List.pairwise_singleton _ _, ?_⟩
    intro r hr q hq
    simp only [List.mem_singleton] at hq
    subst hq
    exact (disjoint_comm _ _).1 (hnew r hr)
  have hRr' : ∀ r ∈ s.runs ++ [(p, n)], r.1 ≠ 0 ∧ r.1 + r.2 ≤ w.size_range := by
    intro r hr
    rcases List.mem_append.1 hr with hr | hr
    · exact hRr r hr
    · simp only [List.mem_singleton] at hr
      subst hr
      exact ⟨hp, hpn⟩
  have hlt := total_bytes_lt w.size_range _ hRd' hRr' w.size_range_pos
  rw [total_bytes_append, total_bytes_cons, total_bytes_nil] at hlt
  simp only [Nat.add_zero] at hlt
  refine ⟨h', hins, hwf', htight', hrange', hOr, hOd, hFO', hRd', hRr', ?_, ?_, ?_, ?_, hfresh'⟩
  · intro x
    show covers (free_regions w h') x ∨ covers s.outstanding x ↔ covers (s.runs ++ [(p, n)]) x
    rw [hcov' x, covers_append, covers_cons, covers_nil, ← hcov x]
    tauto
  · show h'.used_size = _
    rw [hu']; exact hused
  · show h'.used_size + total_bytes (free_regions w h') = (h'.total_size + n) % w.size_range
    rw [hu', htot', ht', Nat.mod_eq_of_lt (by omega)]
    omega
  · show (h'.total_size + n) % w.size_range = total_bytes (s.runs ++ [(p, n)])
    rw [ht', Nat.mod_eq_of_lt (by omega), total_bytes_append, total_bytes_cons, total_bytes_nil]
    omega

/-- `expand` keeps the invariant. -/
theorem expand_step (w : ptrdiff_width) (s : heap_state) (size : Nat) (run : Option (Nat × Nat))
    (h : avl_heap) (a : Alloc) (hinv : inv w s)
    (hcall : expand_run w s.heap s.allocator size = some (run, h, a)) :
    inv w ⟨h, a, s.outstanding, s.runs ++ Option.toList run⟩ := by
  obtain ⟨heap, allocator, O, runs⟩ := s
  obtain ⟨answers⟩ := allocator
  have hfresh := hinv.2.2.2.2.2.2.2.2.2.2.2.2
  simp only at hcall hfresh
  cases answers with
  | nil =>
    simp only [expand_run, Alloc.alloc, ne_eq, not_true_eq_false, false_and, if_false,
      Option.some.injEq, Prod.mk.injEq] at hcall
    obtain ⟨rfl, rfl, rfl⟩ := hcall
    simpa using hinv
  | cons f rest =>
    simp only [expand_run, Alloc.alloc] at hcall
    have hf := hfresh size
    by_cases hacc : (f size).1 ≠ 0 ∧ (f size).2 ≥ w.min_size
    · rw [if_pos hacc] at hcall hf
      obtain ⟨hf1, hf2, hf3⟩ := hf
      obtain ⟨h', hins, hinv'⟩ := grant_step w ⟨heap, ⟨f :: rest⟩, O, runs⟩ (f size).1 (f size).2
        rest hinv hacc.1 hacc.2 hf1 hf2 hf3
      simp only at hins
      simp only [hins, Option.bind_eq_bind, Option.some_bind, Option.some.injEq,
        Prod.mk.injEq] at hcall
      obtain ⟨rfl, rfl, rfl⟩ := hcall
      exact hinv'
    · rw [if_neg hacc] at hcall hf
      simp only [Option.some.injEq, Prod.mk.injEq] at hcall
      obtain ⟨rfl, rfl, rfl⟩ := hcall
      obtain ⟨hwf, htight, hrange, hOr, hOd, hFO, hRd, hRr, hcov, hused, hacc', htot, -⟩ := hinv
      exact ⟨hwf, htight, hrange, hOr, hOd, hFO, by simpa using hRd, by simpa using hRr,
        by simpa using hcov, hused, hacc', by simpa using htot, by simpa using hf⟩

/-- `free` of an outstanding allocation keeps the invariant. -/
theorem free_step (w : ptrdiff_width) (s : heap_state) (ptr size : Nat) (h : avl_heap)
    (hinv : inv w s) (hmem : (ptr, size) ∈ s.outstanding)
    (hcall : free w s.heap ptr size = some h) :
    inv w ⟨h, s.allocator, s.outstanding.erase (ptr, size), s.runs⟩ := by
  obtain ⟨hwf, htight, hrange, hOr, hOd, hFO, hRd, hRr, hcov, hused, hacc, htot, hfresh⟩ := hinv
  unfold free at hcall
  split_ifs at hcall with hpanic
  simp only [not_or, not_lt] at hpanic
  obtain ⟨hp, hs, -⟩ := hpanic
  have hsym : ∀ a b : Nat × Nat, disjoint a b → disjoint b a := fun a b => (disjoint_comm a b).1
  obtain ⟨h', hins, hwf', htight', hrange', hFO', hcov', htot', hu', ht'⟩ :=
    insert_region w s.heap (s.outstanding.erase (ptr, size)) ptr size hwf htight hrange
      (fun r hr o ho => hFO r hr o (List.mem_of_mem_erase ho)) hp hs (hOr _ hmem)
      (fun r hr => hFO r hr _ hmem)
      (fun o ho => pairwise_erase_rel disjoint hsym _ hOd _ _ hmem ho)
  simp only [hins, Option.bind_eq_bind, Option.some_bind, Option.some.injEq] at hcall
  subst hcall
  have hle := total_bytes_erase _ _ hmem
  have hlt := total_bytes_lt w.size_range _ hRd hRr w.size_range_pos
  simp only at hle
  have hsub : (h'.used_size + w.size_range - size) % w.size_range = h'.used_size - size := by
    rw [hu']
    exact sub_size_t w _ _ (by omega) (by omega)
  refine ⟨hwf', htight', hrange', fun o ho => hOr o (List.mem_of_mem_erase ho),
    hOd.sublist (List.erase_sublist _ _), hFO', hRd, hRr, ?_, ?_, ?_, ?_, hfresh⟩
  · intro x
    show covers (free_regions w h') x ∨ covers (s.outstanding.erase (ptr, size)) x ↔ covers s.runs x
    rw [hcov' x, ← hcov x, covers_erase _ _ hmem x]
    tauto
  · show (h'.used_size + w.size_range - size) % w.size_range =
      total_bytes (s.outstanding.erase (ptr, size))
    rw [hsub, hu']
    omega
  · show (h'.used_size + w.size_range - size) % w.size_range + total_bytes (free_regions w h') =
      h'.total_size
    rw [hsub, hu', htot', ht']
    omega
  · show h'.total_size = _
    rw [ht']; exact htot

end avl_heap

namespace avl_heap

open avl_node avl_tree

/-- The end of `alloc` on a heap whose free blocks neither overlap nor touch: the found block is
replaced, in its place in address order, by the rest `rem` of the block beyond the reported
size, when there is one. -/
theorem alloc_take_spec (w : ptrdiff_width) (h : avl_heap) (blk : block) (r : Nat)
    (X Y : List block) (hwf : heap_wf w h) (htight : tight w (inorder h.addr_tree))
    (hrange : in_range w (inorder h.addr_tree)) (hio : inorder h.addr_tree = X ++ blk :: Y)
    (hr : r ≤ blk.size w) :
    ∃ h' out rem, alloc_take w h blk r = some (blk.base, out, h') ∧ heap_wf w h' ∧
      inorder h'.addr_tree = X ++ rem ++ Y ∧ out ≤ blk.size w ∧
      ((rem = [] ∧ out = blk.size w) ∨
        (∃ c, rem = [c] ∧ c.base = blk.base + out ∧ c.size w = blk.size w - out ∧
          w.min_size ≤ blk.size w - out ∧ out = r)) ∧
      h'.used_size = (h.used_size + out) % w.size_range ∧ h'.total_size = h.total_size ∧
      tight w (inorder h'.addr_tree) ∧ in_range w (inorder h'.addr_tree) := by
  have key : ∃ h' out rem, alloc_take w h blk r = some (blk.base, out, h') ∧ heap_wf w h' ∧
      inorder h'.addr_tree = X ++ rem ++ Y ∧ out ≤ blk.size w ∧
      ((rem = [] ∧ out = blk.size w) ∨
        (∃ c, rem = [c] ∧ c.base = blk.base + out ∧ c.size w = blk.size w - out ∧
          w.min_size ≤ blk.size w - out ∧ out = r)) ∧
      h'.used_size = (h.used_size + out) % w.size_range ∧ h'.total_size = h.total_size := by
    have hbw : blk.wf w := hwf.2.2.2.2.2 blk (by rw [hio]; simp)
    have hlt := block.size_lt w blk hbw
    obtain ⟨st, adt, hes, hea, hwf1, hio1⟩ := both_erase w h blk X Y hwf hio
    rw [hio] at htight
    unfold tight at htight
    have ht1 := List.pairwise_append.1 htight
    have ht2 := List.pairwise_cons.1 ht1.2.1
    simp only [alloc_take, hes, hea, Option.bind_eq_bind, Option.some_bind, sub_size_t w _ _ hlt hr]
    by_cases hsplit : blk.size w - r ≥ w.min_size
    · simp only [if_pos hsplit]
      have hmin := w.min_size_pos
      have hX : ∀ x ∈ X, x.base < blk.base + r := by
        intro x hx
        have := ht1.2.2 x hx blk (by simp)
        omega
      have hY : ∀ y ∈ Y, blk.base + r < y.base := by
        intro y hy
        have := ht2.1 y hy
        omega
      obtain ⟨st2, adt2, A1, A2, hes2, hea2, hwf2, hio2, hio2', hA1, hA2⟩ :=
        both_insert w ⟨st, adt, h.used_size, h.total_size⟩
          (block.create w (blk.base + r) (blk.size w - r)) hwf1 (block.create_wf _ _ _) (by
            intro x hx
            simp only [hio1, List.mem_append] at hx
            simp only [block.create_base]
            rcases hx with hx | hx
            · exact ne_of_lt (hX x hx)
            · exact ne_of_gt (hY x hx))
      simp only [block.create_base] at hA1 hA2
      simp only at hio2 hio2' hes2 hea2
      obtain ⟨rfl, rfl⟩ := split_unique A1 A2 X Y (blk.base + r) (hio2.symm.trans hio1) hA1 hA2 hX hY
      simp only [hes2, hea2, Option.some_bind]
      refine ⟨_, r, [block.create w (blk.base + r) (blk.size w - r)], rfl, hwf2, ?_, hr,
        Or.inr ⟨_, rfl, rfl, block.size_create w _ _ (by omega), hsplit, rfl⟩, rfl, rfl⟩
      simp [hio2']
    · simp only [if_neg hsplit]
      exact ⟨_, blk.size w, [], rfl, hwf1, by simp [hio1], le_refl _, Or.inl ⟨rfl, rfl⟩, rfl, rfl⟩
  obtain ⟨h', out, rem, htake, hwf', hio', hout, hrem, hu', ht'⟩ := key
  have hmin := w.min_size_pos
  obtain ⟨hb0, hbmin, hbend⟩ := hrange blk (by rw [hio]; simp)
  rw [hio] at htight hrange
  unfold tight at htight
  have ht1 := List.pairwise_append.1 htight
  have ht2 := List.pairwise_cons.1 ht1.2.1
  refine ⟨h', out, rem, htake, hwf', hio', hout, hrem, hu', ht', ?_, ?_⟩
  · -- tight
    rw [hio']
    unfold tight
    rcases hrem with ⟨rfl, -⟩ | ⟨c, rfl, hc1, hc2, hc3, -⟩
    · simp only [List.append_nil]
      rw [List.pairwise_append]
      exact ⟨ht1.1, ht2.2, fun x hx y hy => ht1.2.2 x hx y (List.mem_cons_of_mem _ hy)⟩
    · simp only [List.append_assoc, List.singleton_append]
      rw [List.pairwise_append, List.pairwise_cons]
      refine ⟨ht1.1, ⟨?_, ht2.2⟩, ?_⟩
      · intro y hy
        have := ht2.1 y hy
        omega
      · intro x hx y hy
        rcases List.mem_cons.1 hy with rfl | hy
        · have := ht1.2.2 x hx blk (by simp)
          omega
        · exact ht1.2.2 x hx y (List.mem_cons_of_mem _ hy)
  · -- in range
    rw [hio']
    intro b hb
    simp only [List.mem_append] at hb
    rcases hb with (hb | hb) | hb
    · exact hrange b (by simp [hb])
    · rcases hrem with ⟨rfl, -⟩ | ⟨c, rfl, hc1, hc2, hc3, -⟩
      · simp at hb
      · simp only [List.mem_singleton] at hb
        subst hb
        exact ⟨by omega, by omega, by omega⟩
    · exact hrange b (by simp [hb])

/-- The end of `alloc` keeps the invariant: the returned allocation joins the outstanding
ones. -/
theorem alloc_take_step (w : ptrdiff_width) (s : heap_state) (blk : block) (r : Nat)
    (hinv : inv w s) (hfound : alloc_search w s.heap r = some blk) :
    ∃ out h', alloc_take w s.heap blk r = some (blk.base, out, h') ∧ blk.base ≠ 0 ∧
      inv w ⟨h', s.allocator, (blk.base, out) :: s.outstanding, s.runs⟩ := by
  obtain ⟨hwf, htight, hrange, hOr, hOd, hFO, hRd, hRr, hcov, hused, hacc, htot, hfresh⟩ := hinv
  have hms : blk ∈ inorder s.heap.size_tree ∧ r ≤ blk.size w := by
    rcases alloc_search_spec w s.heap r hwf.2.2.1 with ⟨A, b, B, hio, -, hb, hres⟩ | ⟨-, hres⟩
    · rw [hres] at hfound
      cases hfound
      exact ⟨by rw [hio]; simp, hb⟩
    · rw [hres] at hfound
      cases hfound
  obtain ⟨hmem, hr⟩ := hms
  have hmem' : blk ∈ inorder s.heap.addr_tree := hwf.2.2.2.2.1.mem_iff.1 hmem
  obtain ⟨X, Y, hio⟩ := List.append_of_mem hmem'
  obtain ⟨h', out, rem, htake, hwf', hio', hout, hrem, hu', ht', htight', hrange'⟩ :=
    alloc_take_spec w s.heap blk r X Y hwf htight hrange hio hr
  obtain ⟨hb0, hbmin, hbend⟩ := hrange blk hmem'
  have hmin := w.min_size_pos
  have htight0 := htight
  rw [hio] at htight hrange
  unfold tight at htight
  have ht1 := List.pairwise_append.1 htight
  have ht2 := List.pairwise_cons.1 ht1.2.1
  have hF : free_regions w s.heap = (X.map fun b => (b.base, b.size w)) ++
      (blk.base, blk.size w) :: Y.map fun b => (b.base, b.size w) := by
    unfold free_regions
    rw [hio, List.map_append, List.map_cons]
  have hF' : free_regions w h' = (X.map fun b => (b.base, b.size w)) ++
      (rem.map fun b => (b.base, b.size w)) ++ Y.map fun b => (b.base, b.size w) := by
    unfold free_regions
    rw [hio', List.map_append, List.map_append]
  have hblkO : ∀ o ∈ s.outstanding, disjoint (blk.base, blk.size w) o :=
    fun o ho => hFO _ (by rw [hF]; simp) o ho
  have hlt := total_bytes_lt w.size_range _ hRd hRr w.size_range_pos
  have hFtot : total_bytes (free_regions w s.heap) =
      total_bytes (X.map fun b => (b.base, b.size w)) + blk.size w +
        total_bytes (Y.map fun b => (b.base, b.size w)) := by
    rw [hF, total_bytes_append, total_bytes_cons]; omega
  have hmod : (s.heap.used_size + out) % w.size_range = s.heap.used_size + out :=
    Nat.mod_eq_of_lt (by omega)
  refine ⟨out, h', htake, hb0, hwf', htight', hrange', ?_, ?_, ?_, hRd, hRr, ?_, ?_, ?_, ?_, hfresh⟩
  · -- outstanding allocations in the address space
    intro o ho
    rcases List.mem_cons.1 ho with rfl | ho
    · show blk.base + out ≤ w.size_range
      omega
    · exact hOr o ho
  · -- outstanding allocations pairwise disjoint
    show ((blk.base, out) :: s.outstanding).Pairwise disjoint
    rw [List.pairwise_cons]
    refine ⟨?_, hOd⟩
    intro o ho
    have := hblkO o ho
    simp only [disjoint] at this ⊢
    omega
  · -- free regions and outstanding allocations disjoint
    intro q hq o ho
    rw [hF'] at hq
    simp only [List.mem_append, List.mem_map] at hq
    have hXq : ∀ x ∈ X, x.base + x.size w < blk.base := fun x hx => ht1.2.2 x hx blk (by simp)
    have hYq : ∀ y ∈ Y, blk.base + blk.size w < y.base := fun y hy => ht2.1 y hy
    rcases List.mem_cons.1 ho with rfl | ho
    · rcases hq with (⟨x, hx, rfl⟩ | ⟨c, hc, rfl⟩) | ⟨y, hy, rfl⟩
      · have := hXq x hx
        simp only [disjoint]
        omega
      · rcases hrem with ⟨rfl, -⟩ | ⟨c', rfl, hc1, hc2, hc3, -⟩
        · simp at hc
        · simp only [List.mem_singleton] at hc
          subst hc
          simp only [disjoint]
          omega
      · have := hYq y hy
        simp only [disjoint]
        omega
    · rcases hq with (⟨x, hx, rfl⟩ | ⟨c, hc, rfl⟩) | ⟨y, hy, rfl⟩
      · exact hFO _ (by rw [hF]; simp only [List.mem_append, List.mem_map]; exact Or.inl ⟨x, hx, rfl⟩) o ho
      · rcases hrem with ⟨rfl, -⟩ | ⟨c', rfl, hc1, hc2, hc3, -⟩
        · simp at hc
        · simp only [List.mem_singleton] at hc
          subst hc
          have := hblkO o ho
          simp only [disjoint] at this ⊢
          omega
      · exact hFO _ (by
          rw [hF]
          simp only [List.mem_append, List.mem_map, List.mem_cons]
          exact Or.inr (Or.inr ⟨y, hy, rfl⟩)) o ho
  · -- the bytes covered
    intro x
    show covers (free_regions w h') x ∨ covers ((blk.base, out) :: s.outstanding) x ↔ covers s.runs x
    rw [← hcov x, hF, hF']
    simp only [covers_append, covers_cons]
    rcases hrem with ⟨rfl, hout'⟩ | ⟨c, rfl, hc1, hc2, hc3, -⟩
    · simp only [List.map_nil, covers_nil, or_false]
      subst hout'
      tauto
    · simp only [List.map_cons, List.map_nil, covers_cons, covers_nil, or_false, hc1, hc2]
      by_cases hX : covers (X.map fun b => (b.base, b.size w)) x <;>
        by_cases hY : covers (Y.map fun b => (b.base, b.size w)) x <;>
        by_cases hO : covers s.outstanding x <;>
        simp only [hX, hY, hO, true_or, or_true, false_or, or_false, iff_self] <;> omega
  · -- used
    show h'.used_size = total_bytes ((blk.base, out) :: s.outstanding)
    rw [hu', hmod, total_bytes_cons, hused]
    omega
  · -- accounting
    show h'.used_size + total_bytes (free_regions w h') = h'.total_size
    rw [hu', hmod, ht', ← hacc, hFtot, hF', total_bytes_append, total_bytes_append]
    rcases hrem with ⟨rfl, hout'⟩ | ⟨c, rfl, hc1, hc2, hc3, -⟩
    · simp only [List.map_nil, total_bytes_nil]
      omega
    · simp only [List.map_cons, List.map_nil, total_bytes_cons, total_bytes_nil, hc2]
      omega
  · show h'.total_size = total_bytes s.runs
    rw [ht']; exact htot

end avl_heap

namespace avl_heap

open avl_node avl_tree

/-- The loop of `alloc` keeps the invariant, and what it finds is what the search finds in the
heap it leaves. -/
theorem alloc_loop_inv (w : ptrdiff_width) (size n : Nat) (h : avl_heap) (a : Alloc)
    (O R0 acc : List (Nat × Nat)) (found : Option block) (h' : avl_heap) (a' : Alloc)
    (acc' : List (Nat × Nat)) (hinv : inv w ⟨h, a, O, R0⟩)
    (hcall : alloc_loop w size n h a acc = some (found, h', a', acc')) :
    ∃ new, acc' = acc ++ new ∧ inv w ⟨h', a', O, R0 ++ new⟩ ∧
      ∀ blk, found = some blk → alloc_search w h' size = some blk := by
  induction n generalizing h a R0 acc with
  | zero => simp [alloc_loop] at hcall
  | succ n ih =>
    unfold alloc_loop at hcall
    cases hs : alloc_search w h size with
    | some blk =>
      simp only [hs, Option.some.injEq, Prod.mk.injEq] at hcall
      obtain ⟨rfl, rfl, rfl, rfl⟩ := hcall
      exact ⟨[], by simp, by simpa using hinv, fun b hb => by cases hb; exact hs⟩
    | none =>
      simp only [hs] at hcall
      cases he : expand_run w h a ((size <<< 4) % w.size_range) with
      | none => simp [he] at hcall
      | some res =>
        obtain ⟨run, h1, a1⟩ := res
        have hstep := expand_step w ⟨h, a, O, R0⟩ _ run h1 a1 hinv he
        cases run with
        | none =>
          simp only [he, Option.some.injEq, Prod.mk.injEq] at hcall
          obtain ⟨rfl, rfl, rfl, rfl⟩ := hcall
          exact ⟨[], by simp, by simpa using hstep, fun b hb => by cases hb⟩
        | some run =>
          simp only [he] at hcall
          obtain ⟨new, hacc, hinv', hf⟩ := ih h1 a1 (R0 ++ [run]) (acc ++ [run])
            (by simpa using hstep) hcall
          exact ⟨run :: new, by simp [hacc], by simpa using hinv', hf⟩

/-- `alloc` keeps the invariant. -/
theorem alloc_step (w : ptrdiff_width) (s : heap_state) (size ptr size_out : Nat) (h : avl_heap)
    (a : Alloc) (runs : List (Nat × Nat)) (hinv : inv w s)
    (hcall : alloc_runs w s.heap s.allocator size = some (ptr, size_out, h, a, runs)) :
    inv w ⟨h, a, if ptr = 0 then s.outstanding else (ptr, size_out) :: s.outstanding,
      s.runs ++ runs⟩ := by
  unfold alloc_runs at hcall
  simp only [Option.bind_eq_bind, Option.bind_eq_some] at hcall
  obtain ⟨⟨found, h1, a1, runs1⟩, hloop, hrest⟩ := hcall
  obtain ⟨new, hnew, hinv1, hf⟩ := alloc_loop_inv w _ _ s.heap s.allocator s.outstanding s.runs []
    found h1 a1 runs1 hinv hloop
  simp only [List.nil_append] at hnew
  subst hnew
  cases found with
  | none =>
    simp only [Option.some.injEq, Prod.mk.injEq] at hrest
    obtain ⟨rfl, rfl, rfl, rfl, rfl⟩ := hrest
    simpa using hinv1
  | some blk =>
    simp only [Option.bind_eq_some] at hrest
    obtain ⟨⟨p, so, h2⟩, htake, hrest⟩ := hrest
    simp only [Option.some.injEq, Prod.mk.injEq] at hrest
    obtain ⟨rfl, rfl, rfl, rfl, rfl⟩ := hrest
    obtain ⟨out, h', htake', hb0, hinv2⟩ := alloc_take_step w ⟨h1, a1, s.outstanding, s.runs ++ runs1⟩
      blk _ hinv1 (hf blk rfl)
    simp only at htake'
    rw [htake'] at htake
    simp only [Option.some.injEq, Prod.mk.injEq] at htake
    obtain ⟨rfl, rfl, rfl⟩ := htake
    rw [if_neg hb0]
    exact hinv2

theorem inv_init (w : ptrdiff_width) (allocator : Alloc)
    (hfresh : fresh_answers w [] allocator.answers) : inv w ⟨empty, allocator, [], []⟩ := by
  refine ⟨⟨trivial, trivial, ?_, ?_, ?_, ?_⟩, ?_, ?_, ?_, ?_, ?_, ?_, ?_, ?_, rfl, rfl, rfl, hfresh⟩
  all_goals simp [empty, inorder, ordered, tight, in_range, free_regions, covers]

/-- Every reachable heap state satisfies the invariant. -/
theorem reachable_inv (w : ptrdiff_width) (s : heap_state) (hs : reachable w s) : inv w s := by
  induction hs with
  | init allocator hfresh => exact inv_init w allocator hfresh
  | expand s size run h a _ hcall ih => exact expand_step w s size run h a ih hcall
  | alloc s size ptr size_out h a runs _ hcall ih =>
    exact alloc_step w s size ptr size_out h a runs ih hcall
  | free s ptr size h _ hmem hcall ih => exact free_step w s ptr size h ih hmem hcall

theorem one_answer_fresh : fresh_answers ptrdiff_width.w64 [] (one_answer 4096).answers := by
  intro size
  show (if (4096 : Nat) ≠ 0 ∧ (2 ^ 20 : Nat) ≥ ptrdiff_width.w64.min_size then
        (4096 : Nat) + 2 ^ 20 ≤ ptrdiff_width.w64.size_range ∧
          (∀ r ∈ ([] : List (Nat × Nat)), disjoint (4096, 2 ^ 20) r) ∧ True
      else True)
  rw [if_pos ⟨by decide, by decide⟩]
  exact ⟨by decide, fun r hr => absurd hr (List.not_mem_nil r), trivial⟩

theorem after_alloc_17_reachable : reachable ptrdiff_width.w64 after_alloc_17 :=
  reachable.alloc ⟨empty, one_answer 4096, [], []⟩ 17 4096 64 _ _ [(4096, 2 ^ 20)]
    (reachable.init (one_answer 4096) one_answer_fresh) rfl

theorem two_free_regions_reachable : reachable ptrdiff_width.w64 two_free_regions :=
  reachable.free
    ⟨⟨avl_node.mk nullptr nullptr 0 (block.create ptrdiff_width.w64 4224 1048448),
        avl_node.mk nullptr nullptr 0 (block.create ptrdiff_width.w64 4224 1048448), 128, 2 ^ 20⟩,
      ⟨[]⟩, [(4160, 64), (4096, 64)], [(4096, 2 ^ 20)]⟩
    4096 64 two_free_regions.heap
    (reachable.alloc after_alloc_17 64 4160 64 _ _ [] after_alloc_17_reachable rfl)
    (by decide) rfl

/-- C9: in every heap state reachable from the empty heap by `expand`, `alloc` and `free` calls
(each `free` passing a pointer and size reported by an earlier, not yet freed `alloc`; the
backing allocator returning fresh non-overlapping runs) the free regions, listed in address
order, are strictly apart: every region ends strictly before each later region starts, in
particular `a.base + a.size < b.base` for every pair `a`, `b` of neighbours.  No two free
regions overlap and no two touching free regions are left unmerged, the rest that `alloc` puts
back without a coalescing pass included. -/
theorem free_regions_apart (w : ptrdiff_width) (s : heap_state) (hs : reachable w s) :
    (free_regions w s.heap).Pairwise (fun a b => a.1 + a.2 < b.1) ∧
    (free_regions w s.heap).Chain' (fun a b => a.1 + a.2 < b.1) := by
  have htight := (reachable_inv w s hs).2.1
  have hp : (free_regions w s.heap).Pairwise (fun a b => a.1 + a.2 < b.1) := by
    unfold free_regions
    rw [List.pairwise_map]
    exact htight
  exact ⟨hp, List.Pairwise.chain' hp⟩

theorem free_regions_apart_witness :
    reachable ptrdiff_width.w64 two_free_regions ∧
    free_regions ptrdiff_width.w64 two_free_regions.heap = [(4096, 64), (4224, 1048448)] ∧
    (free_regions ptrdiff_width.w64 two_free_regions.heap).Pairwise (fun a b => a.1 + a.2 < b.1) ∧
    (free_regions ptrdiff_width.w64 two_free_regions.heap).Chain' (fun a b => a.1 + a.2 < b.1) :=
  ⟨two_free_regions_reachable, by decide,
    free_regions_apart ptrdiff_width.w64 two_free_regions two_free_regions_reachable⟩

/-- C10: in every heap state reachable from the empty heap by `expand`, `alloc` and `free` calls
(each `free` passing a pointer and size reported by an earlier, not yet freed `alloc`; the
backing allocator returning fresh non-overlapping runs) `used()` plus the sum of the sizes of
all free regions is `total()`, and `total()` is the sum of the sizes of the runs taken from
the allocator, which are the non-zero values returned by `expand`. -/
theorem accounting (w : ptrdiff_width) (s : heap_state) (hs : reachable w s) :
    s.heap.used + total_bytes (free_regions w s.heap) = s.heap.total ∧
    s.heap.total = total_bytes s.runs := by
  obtain ⟨-, -, -, -, -, -, -, -, -, -, hacc, htot, -⟩ := reachable_inv w s hs
  exact ⟨hacc, htot⟩

theorem accounting_witness :
    reachable ptrdiff_width.w64 after_alloc_17 ∧
    after_alloc_17.heap.used + total_bytes (free_regions ptrdiff_width.w64 after_alloc_17.heap) =
      after_alloc_17.heap.total ∧
    after_alloc_17.heap.total = total_bytes after_alloc_17.runs :=
  ⟨after_alloc_17_reachable, accounting _ _ after_alloc_17_reachable⟩

end avl_heap

namespace avl_heap

open avl_node avl_tree

/-- C8 at a request that `align_size` wraps around: on the 64-bit heap with the single free
region of 1 MiB at 4096, a state that `expand` produces, `alloc(2^64 - 1)` rounds the request
to 0, finds the region without calling the allocator and returns 4096 with the reported size 0,
leaving the region free; `free(4096, 0)` then panics, so the round trip does not restore the
state. -/
theorem alloc_free_wraps :
    expand ptrdiff_width.w64 empty (one_answer 4096) (2 ^ 20) =
      some (2 ^ 20, one_region ptrdiff_width.w64 4096, ⟨[]⟩) ∧
    align_size ptrdiff_width.w64 (2 ^ 64 - 1) = 0 ∧
    alloc ptrdiff_width.w64 (one_region ptrdiff_width.w64 4096) ⟨[]⟩ (2 ^ 64 - 1) =
      some (4096, 0, one_region ptrdiff_width.w64 4096, ⟨[]⟩) ∧
    free ptrdiff_width.w64 (one_region ptrdiff_width.w64 4096) 4096 0 = none :=
  ⟨rfl, by decide, rfl, rfl⟩

end avl_heap

namespace avl_heap

open avl_node avl_tree

theorem add_sub_size_t (R a o : Nat) (ha : a < R) (ho : o < R) :
    ((a + o) % R + R - o) % R = a := by
  by_cases h : a + o < R
  · rw [Nat.mod_eq_of_lt h]
    have h1 : a + o + R - o = a + R := by omega
    rw [h1, Nat.add_mod_right, Nat.mod_eq_of_lt ha]
  · have h1 : (a + o) % R = a + o - R := by
      rw [Nat.mod_eq_sub_mod (by omega), Nat.mod_eq_of_lt (by omega)]
    rw [h1]
    have h2 : a + o - R + R - o = a := by omega
    rw [h2, Nat.mod_eq_of_lt ha]

theorem and_align_mask (p : Nat) : p &&& align_mask = p % 16 := by
  have h : align_mask = 2 ^ 4 - 1 := by decide
  rw [h, Nat.and_pow_two_sub_one_eq_mod]

/-- The round trip of C8 for a request whose rounded size did not wrap around: on a heap whose
free regions are well formed, aligned, and strictly apart, when `alloc` finds a block without
calling the allocator, `free` of the returned pointer with the reported size restores the free
regions and `used`. -/
theorem alloc_free_round_trip (w : ptrdiff_width) (h : avl_heap) (allocator : Alloc) (size : Nat)
    (blk : block) (hwf : heap_wf w h) (htight : tight w (inorder h.addr_tree))
    (hrange : in_range w (inorder h.addr_tree))
    (haligned : ∀ b ∈ inorder h.addr_tree, b.base % 16 = 0)
    (hused : h.used_size < w.size_range)
    (hround : w.min_size ≤ align_size w size)
    (hfound : alloc_search w h (align_size w size) = some blk) :
    ∃ ptr out h1 h2, alloc w h allocator size = some (ptr, out, h1, allocator) ∧
      free w h1 ptr out = some h2 ∧ free_regions w h2 = free_regions w h ∧
      h2.used = h.used := by
  have hms : blk ∈ inorder h.size_tree ∧ align_size w size ≤ blk.size w := by
    rcases alloc_search_spec w h (align_size w size) hwf.2.2.1 with
      ⟨A, b, B, hio, -, hb, hres⟩ | ⟨-, hres⟩
    · rw [hres] at hfound
      cases hfound
      exact ⟨by rw [hio]; simp, hb⟩
    · rw [hres] at hfound
      cases hfound
  obtain ⟨hmem, hr⟩ := hms
  have hmem' : blk ∈ inorder h.addr_tree := hwf.2.2.2.2.1.mem_iff.1 hmem
  obtain ⟨X, Y, hio⟩ := List.append_of_mem hmem'
  obtain ⟨h1, out, rem, htake, hwf1, hio1, hout, hrem, hu1, ht1, htight1, hrange1⟩ :=
    alloc_take_spec w h blk _ X Y hwf htight hrange hio hr
  obtain ⟨hb0, hbmin, hbend⟩ := hrange blk hmem'
  have hbw : blk.wf w := hwf.2.2.2.2.2 blk hmem'
  have hblt := block.size_lt w blk hbw
  have hmin := w.min_size_pos
  have htA := htight
  rw [hio] at htA
  unfold tight at htA
  have hp1 := List.pairwise_append.1 htA
  have hp2 := List.pairwise_cons.1 hp1.2.1
  have hXe : ∀ x ∈ X, x.base + x.size w < blk.base := fun x hx => hp1.2.2 x hx blk (by simp)
  have hYb : ∀ y ∈ Y, blk.base + blk.size w < y.base := fun y hy => hp2.1 y hy
  have hXr : ∀ x ∈ X, w.min_size ≤ x.size w := fun x hx => (hrange x (by rw [hio]; simp [hx])).2.1
  have hout_min : w.min_size ≤ out := by
    rcases hrem with ⟨-, ho⟩ | ⟨c, -, -, -, -, ho⟩ <;> omega
  -- the call of `free`
  obtain ⟨h2, X', Y', pm, nm, hins, hwf2, htight2, hrange2, hA1, hA2, hpm, hnm, hcs, hu2, ht2⟩ :=
    coalesce_insert_spec w h1 blk.base out hwf1 htight1 hrange1 hb0 hout_min (by omega) (by
      intro a ha
      rw [hio1] at ha
      simp only [List.mem_append] at ha
      simp only [disjoint]
      rcases ha with (ha | ha) | ha
      · have := hXe a ha
        omega
      · rcases hrem with ⟨rfl, -⟩ | ⟨c, rfl, hc1, hc2, hc3, -⟩
        · simp at ha
        · simp only [List.mem_singleton] at ha
          subst ha
          omega
      · have := hYb a ha
        omega)
  have hfree : free w h1 blk.base out =
      some { h2 with used_size := (h2.used_size + w.size_range - out) % w.size_range } := by
    unfold free
    rw [if_neg (by
      simp only [not_or, not_lt, ne_eq, not_not]
      exact ⟨hb0, hout_min, by rw [and_align_mask]; exact haligned blk hmem'⟩)]
    simp only [hins, Option.bind_eq_bind, Option.some_bind]
  -- no predecessor touches the returned block
  have hpm0 : pm = none := by
    cases pm with
    | none => rfl
    | some y =>
      exfalso
      have hy := hpm y rfl
      have hyA : y ∈ inorder h1.addr_tree := by rw [hA1]; simp
      rw [hio1] at hyA
      simp only [List.mem_append] at hyA
      rcases hyA with (hy' | hy') | hy'
      · have := hXe y hy'
        omega
      · rcases hrem with ⟨rfl, -⟩ | ⟨c, rfl, hc1, hc2, hc3, -⟩
        · simp at hy'
        · simp only [List.mem_singleton] at hy'
          subst hy'
          omega
      · have := hYb y hy'
        omega
  subst hpm0
  clear hpm
  simp only [Option.toList, List.nil_append, Option.elim_none, Nat.zero_add] at hA1 hA2 hcs
  have hnd1 := nodup_of_pairwise_base _ hwf1.2.2.2.1
  have hlist : inorder h2.addr_tree = inorder h.addr_tree := by
    rcases hrem with ⟨rfl, hout'⟩ | ⟨c, rfl, hc1, hc2, hc3, hc4⟩
    · -- the whole block was taken
      subst hout'
      have hnm0 : nm = none := by
        cases nm with
        | none => rfl
        | some z =>
          exfalso
          have hz := hnm z rfl
          have hzA : z ∈ inorder h1.addr_tree := by rw [hA1]; simp
          rw [hio1] at hzA
          simp only [List.append_nil, List.mem_append] at hzA
          rcases hzA with hz' | hz'
          · have := hXe z hz'
            have := hXr z hz'
            omega
          · have := hYb z hz'
            omega
      subst hnm0
      simp only [Option.toList, List.nil_append, Option.elim_none, Nat.add_zero] at hA1 hA2 hcs
      rw [block.create_size_self w blk hbw] at hA2 hcs
      rw [hio1, List.append_nil] at hA1
      have htB := htight2
      rw [hA2] at htB
      unfold tight at htB
      have hq1 := List.pairwise_append.1 htB
      have hq2 := List.pairwise_cons.1 hq1.2.1
      obtain ⟨rfl, rfl⟩ := split_unique X Y X' Y' blk.base hA1
        (fun x hx => by have := hXe x hx; omega) (fun y hy => by have := hYb y hy; omega)
        (fun x hx => by have := hq1.2.2 x hx blk (by simp); omega)
        (fun y hy => by have := hq2.1 y hy; omega)
      rw [hA2, hio]
    · -- the block was split
      have hnm1 : nm = some c := by
        cases nm with
        | none =>
          exfalso
          simp only [Option.toList, List.nil_append, Option.elim_none, Nat.add_zero] at hA1 hA2 hcs
          have hcA : c ∈ inorder h2.addr_tree := by
            rw [hA2]
            have : c ∈ X' ++ Y' := by rw [← hA1, hio1]; simp
            simp only [List.mem_append, List.mem_cons] at this ⊢
            tauto
          have htB := htight2
          rw [hA2] at htB hcA
          unfold tight at htB
          have hq1 := List.pairwise_append.1 htB
          have hq2 := List.pairwise_cons.1 hq1.2.1
          simp only [List.mem_append, List.mem_cons] at hcA
          rcases hcA with hcA | hcA | hcA
          · have := hq1.2.2 c hcA _ (List.mem_cons_self _ _)
            rw [block.create_base] at this
            omega
          · rw [hcA, block.create_base] at hc1
            omega
          · have := hq2.1 c hcA
            rw [hcs, block.create_base] at this
            omega
        | some z =>
          have hz := hnm z rfl
          have hzA : z ∈ inorder h1.addr_tree := by rw [hA1]; simp
          rw [hio1] at hzA
          simp only [List.mem_append, List.mem_singleton] at hzA
          rcases hzA with (hz' | hz') | hz'
          · exfalso
            have := hXe z hz'
            have := hXr z hz'
            omega
          · rw [hz']
          · exfalso
            have := hYb z hz'
            omega
      subst hnm1
      simp only [Option.toList, List.singleton_append, Option.elim_some] at hA1 hA2 hcs
      rw [hio1] at hA1 hnd1
      simp only [List.append_assoc, List.singleton_append] at hA1 hnd1
      obtain ⟨rfl, rfl⟩ := append_cons_inj_of_nodup _ _ _ _ _ hnd1 hA1
      rw [hA2, hio, hc2]
      have hsum : out + (blk.size w - out) = blk.size w := by omega
      rw [hsum, block.create_size_self w blk hbw]
  refine ⟨blk.base, out, h1, _, ?_, hfree, ?_, ?_⟩
  · simp only [alloc, alloc_runs, alloc_loop_found w _ _ h allocator [] blk hfound,
      Option.bind_eq_bind, Option.some_bind, htake, Option.map_some']
  · show (inorder h2.addr_tree).map _ = (inorder h.addr_tree).map _
    rw [hlist]
  · show (h2.used_size + w.size_range - out) % w.size_range = h.used_size
    rw [hu2, hu1]
    exact add_sub_size_t _ _ _ hused (by omega)

end avl_heap

namespace avl_heap

open avl_node avl_tree

/-- In a state that satisfies the invariant `expand` returns; it takes an answer from the
allocator whenever it takes a run. -/
theorem expand_returns (w : ptrdiff_width) (s : heap_state) (size : Nat) (hinv : inv w s) :
    ∃ run h a, expand_run w s.heap s.allocator size = some (run, h, a) ∧
      (run ≠ none → a.answers.length + 1 = s.allocator.answers.length) := by
  obtain ⟨heap, allocator, O, runs⟩ := s
  obtain ⟨answers⟩ := allocator
  have hfresh := hinv.2.2.2.2.2.2.2.2.2.2.2.2
  simp only at hfresh
  cases answers with
  | nil =>
    refine ⟨none, heap, ⟨[]⟩, ?_, by simp⟩
    simp [expand_run, Alloc.alloc]
  | cons f rest =>
    have hf := hfresh size
    by_cases hacc : (f size).1 ≠ 0 ∧ (f size).2 ≥ w.min_size
    · rw [if_pos hacc] at hf
      obtain ⟨hf1, hf2, hf3⟩ := hf
      obtain ⟨h', hins, -⟩ := grant_step w ⟨heap, ⟨f :: rest⟩, O, runs⟩ (f size).1 (f size).2
        rest hinv hacc.1 hacc.2 hf1 hf2 hf3
      simp only at hins
      refine ⟨some ((f size).1, (f size).2),
        { h' with total_size := (h'.total_size + (f size).2) % w.size_range }, ⟨rest⟩, ?_, by simp⟩
      simp only [expand_run, Alloc.alloc, if_pos hacc, hins, Option.bind_eq_bind, Option.some_bind]
    · refine ⟨none, heap, ⟨rest⟩, ?_, by simp⟩
      simp only [expand_run, Alloc.alloc, if_neg hacc]

/-- In a state that satisfies the invariant the loop of `alloc` returns before the bound on its
turns is reached. -/
theorem alloc_loop_returns (w : ptrdiff_width) (size n : Nat) (h : avl_heap) (a : Alloc)
    (O R0 acc : List (Nat × Nat)) (hinv : inv w ⟨h, a, O, R0⟩) (hn : a.answers.length < n) :
    ∃ res, alloc_loop w size n h a acc = some res := by
  induction n generalizing h a R0 acc with
  | zero => omega
  | succ n ih =>
    unfold alloc_loop
    cases hs : alloc_search w h size with
    | some blk => exact ⟨_, rfl⟩
    | none =>
      obtain ⟨run, h1, a1, he, hlen⟩ := expand_returns w ⟨h, a, O, R0⟩ ((size <<< 4) % w.size_range) hinv
      simp only at he hlen
      simp only [he]
      cases run with
      | none => exact ⟨_, rfl⟩
      | some run =>
        have hstep := expand_step w ⟨h, a, O, R0⟩ _ (some run) h1 a1 hinv he
        have hl := hlen (by simp)
        exact ih h1 a1 (R0 ++ [run]) (acc ++ [run]) (by simpa using hstep) (by omega)

/-- In a state that satisfies the invariant `alloc` returns: it does not panic, and the bound on
the turns of its loop is never reached. -/
theorem alloc_returns (w : ptrdiff_width) (s : heap_state) (size : Nat) (hinv : inv w s) :
    ∃ res, alloc_runs w s.heap s.allocator size = some res := by
  obtain ⟨⟨found, h1, a1, runs1⟩, hloop⟩ := alloc_loop_returns w (align_size w size)
    (s.allocator.answers.length + 2) s.heap s.allocator s.outstanding s.runs [] hinv (by omega)
  obtain ⟨new, hnew, hinv1, hf⟩ := alloc_loop_inv w _ _ s.heap s.allocator s.outstanding s.runs []
    found h1 a1 runs1 hinv hloop
  unfold alloc_runs
  simp only [hloop, Option.bind_eq_bind, Option.some_bind]
  cases found with
  | none => exact ⟨_, rfl⟩
  | some blk =>
    obtain ⟨out, h', htake, -, -⟩ := alloc_take_step w ⟨h1, a1, s.outstanding, s.runs ++ new⟩
      blk _ hinv1 (hf blk rfl)
    simp only at htake
    simp only [htake, Option.some_bind]
    exact ⟨_, rfl⟩

/-- In a state that satisfies the invariant `free` of an outstanding allocation returns unless
its own test of the arguments fails. -/
theorem free_returns (w : ptrdiff_width) (s : heap_state) (ptr size : Nat) (hinv : inv w s)
    (hmem : (ptr, size) ∈ s.outstanding) (hp : ptr ≠ 0) (hs : w.min_size ≤ size)
    (ha : ptr % 16 = 0) : ∃ h, free w s.heap ptr size = some h := by
  obtain ⟨hwf, htight, hrange, hOr, hOd, hFO, -, -, -, -, -, -, -⟩ := hinv
  have hsym : ∀ a b : Nat × Nat, disjoint a b → disjoint b a := fun a b => (disjoint_comm a b).1
  obtain ⟨h', hins, -⟩ :=
    insert_region w s.heap (s.outstanding.erase (ptr, size)) ptr size hwf htight hrange
      (fun r hr o ho => hFO r hr o (List.mem_of_mem_erase ho)) hp hs (hOr _ hmem)
      (fun r hr => hFO r hr _ hmem)
      (fun o ho => pairwise_erase_rel disjoint hsym _ hOd _ _ hmem ho)
  unfold free
  rw [if_neg (by
    simp only [not_or, not_lt, ne_eq, not_not]
    exact ⟨hp, hs, by rw [and_align_mask]; exact ha⟩)]
  simp only [hins, Option.bind_eq_bind, Option.some_bind]
  exact ⟨_, rfl⟩

end avl_heap

namespace avl_heap

open avl_node avl_tree

theorem testBit_not_align_mask (w : ptrdiff_width) (i : Nat) :
    (w.size_range - 1 - align_mask).testBit i =
      (decide (i < 2 * w.half_size_shift) && !decide (i < 4)) := by
  have h1 : w.size_range - 1 - align_mask = 2 ^ (2 * w.half_size_shift) - (15 + 1) := by
    simp only [ptrdiff_width.size_range]
    have : align_mask = 15 := by decide
    omega
  have h2 : 15 < 2 ^ (2 * w.half_size_shift) := by
    cases w <;> decide
  have h3 : (15 : Nat) = 2 ^ 4 - 1 := by decide
  rw [h1, Nat.testBit_two_pow_sub_succ h2, h3, Nat.testBit_two_pow_sub_one]

/-- The mask `~align_mask` clears the four low bits of a `size_t`. -/
theorem and_not_align_mask (w : ptrdiff_width) (x : Nat) (hx : x < w.size_range) :
    x &&& (w.size_range - 1 - align_mask) = x - x % 16 := by
  have h16 : x - x % 16 = (x >>> 4) <<< 4 := by
    rw [Nat.shiftLeft_eq, Nat.shiftRight_eq_div_pow]
    have := Nat.div_add_mod x 16
    norm_num
    omega
  rw [h16]
  apply Nat.eq_of_testBit_eq
  intro i
  rw [Nat.testBit_and, testBit_not_align_mask, Nat.testBit_shiftLeft, Nat.testBit_shiftRight]
  by_cases hi : i < 4
  · have : ¬ (i ≥ 4) := by omega
    simp [hi, this]
  · have hge : i ≥ 4 := by omega
    have h4 : 4 + (i - 4) = i := by omega
    by_cases hi2 : i < 2 * w.half_size_shift
    · simp [hi, hi2, hge, h4]
    · have : x.testBit i = false := by
        apply Nat.testBit_lt_two_pow
        calc x < 2 ^ (2 * w.half_size_shift) := hx
          _ ≤ 2 ^ i := Nat.pow_le_pow_right (by decide) (by omega)
      simp [hi, hi2, hge, h4, this]

/-- What `align_size` computes, in terms of the remainder modulo 16. -/
theorem align_size_eq (w : ptrdiff_width) (size : Nat) :
    align_size w size =
      if size ≤ w.min_size then w.min_size
      else (size + 15) % w.size_range - (size + 15) % w.size_range % 16 := by
  unfold align_size
  split_ifs with h
  · rfl
  · have : align_mask = 15 := by decide
    rw [and_not_align_mask w _ (Nat.mod_lt _ (ptrdiff_width.size_range_pos w)), this]

/-- The rounded size is a multiple of `alignment`, whatever the request. -/
theorem align_size_aligned (w : ptrdiff_width) (size : Nat) : align_size w size % 16 = 0 := by
  rw [align_size_eq]
  split_ifs with h
  · cases w <;> decide
  · omega

/-- The rounding of a request that `size + align_mask` does not carry out of `size_t`. -/
theorem align_size_spec (w : ptrdiff_width) (size : Nat) (hs : size + 15 < w.size_range) :
    align_size w size % 16 = 0 ∧ w.min_size ≤ align_size w size ∧ size ≤ align_size w size ∧
      (w.min_size < size → align_size w size < size + 16) := by
  refine ⟨align_size_aligned w size, ?_⟩
  rw [align_size_eq]
  have hm : w.min_size % 16 = 0 := by cases w <;> decide
  split_ifs with h
  · exact ⟨le_refl _, h, fun h2 => absurd h (by omega)⟩
  · rw [Nat.mod_eq_of_lt hs]
    omega

end avl_heap

namespace avl_heap

open avl_node avl_tree

/-- In a state that satisfies the invariant, the size that `alloc` reports with a non-null
pointer is at least the rounded size. -/
theorem alloc_reports_rounded (w : ptrdiff_width) (s : heap_state) (size ptr out : Nat)
    (h : avl_heap) (a : Alloc) (runs : List (Nat × Nat)) (hinv : inv w s)
    (hcall : alloc_runs w s.heap s.allocator size = some (ptr, out, h, a, runs))
    (hptr : ptr ≠ 0) : align_size w size ≤ out := by
  unfold alloc_runs at hcall
  simp only [Option.bind_eq_bind, Option.bind_eq_some] at hcall
  obtain ⟨⟨found, h1, a1, runs1⟩, hloop, hcall⟩ := hcall
  obtain ⟨new, -, hinv1, hf⟩ := alloc_loop_inv w _ _ s.heap s.allocator s.outstanding s.runs []
    found h1 a1 runs1 hinv hloop
  cases found with
  | none =>
    simp only [Option.some.injEq, Prod.mk.injEq] at hcall
    exact absurd hcall.1.symm hptr
  | some blk =>
    simp only [Option.bind_eq_some] at hcall
    obtain ⟨⟨p, o, h2⟩, htake, hcall⟩ := hcall
    simp only [Option.some.injEq, Prod.mk.injEq] at hcall
    obtain ⟨rfl, rfl, -⟩ := hcall
    have hwf : heap_wf w h1 := hinv1.1
    have hms : blk ∈ inorder h1.size_tree ∧ align_size w size ≤ blk.size w := by
      rcases alloc_search_spec w h1 (align_size w size) hwf.2.2.1 with
        ⟨A, b, B, hio, -, hb, hres⟩ | ⟨-, hres⟩
      · rw [hres] at hf
        cases hf blk rfl
        exact ⟨by rw [hio]; simp, hb⟩
      · rw [hres] at hf
        cases hf blk rfl
    obtain ⟨h', htake', -⟩ := alloc_take_perm w h1 blk (align_size w size) hwf
      (hwf.2.2.2.2.1.mem_iff.1 hms.1) hms.2
    rw [htake'] at htake
    simp only [Option.some.injEq, Prod.mk.injEq] at htake
    rw [← htake.2.1]
    split_ifs
    · exact le_refl _
    · exact hms.2

/-- C11 at a request that `size + align_mask` carries out of `size_t`: on a 64-bit target the
request `2^64 - 15`, which is representable in `size_t`, is rounded to 0, which is less than
`min_size` and less than the request; on the heap with the single free region of 1 MiB at 4096
`alloc` of that request returns the non-null pointer 4096 and reports the size 0. -/
theorem align_size_wraps :
    2 ^ 64 - 15 < ptrdiff_width.w64.size_range ∧
    align_size ptrdiff_width.w64 (2 ^ 64 - 15) = 0 ∧
    ¬ ptrdiff_width.w64.min_size ≤ align_size ptrdiff_width.w64 (2 ^ 64 - 15) ∧
    ¬ 2 ^ 64 - 15 ≤ align_size ptrdiff_width.w64 (2 ^ 64 - 15) ∧
    alloc ptrdiff_width.w64 (one_region ptrdiff_width.w64 4096) ⟨[]⟩ (2 ^ 64 - 15) =
      some (4096, 0, one_region ptrdiff_width.w64 4096, ⟨[]⟩) :=
  ⟨by decide, by decide, by decide, by decide, rfl⟩

end avl_heap

namespace avl_heap

open avl_node avl_tree

/-- A region that does not overlap its two neighbours in address order shares no byte with any
free region. -/
theorem disjoint_of_neighbours (w : ptrdiff_width) (h : avl_heap) (ptr size : Nat)
    (X Y : List block) (hwf : heap_wf w h) (htight : tight w (inorder h.addr_tree))
    (hio : inorder h.addr_tree = X ++ Y)
    (hprev : ∀ a ∈ X.getLast?, a.base + a.size w ≤ ptr)
    (hnext : ∀ b ∈ Y.head?, ptr + size ≤ b.base) :
    ∀ r ∈ free_regions w h, disjoint r (ptr, size) := by
  intro r hr
  simp only [free_regions, List.mem_map] at hr
  obtain ⟨b, hb, rfl⟩ := hr
  have hbase := hwf.2.2.2.1
  rw [hio] at hb hbase
  unfold tight at htight
  rw [hio] at htight
  rcases List.mem_append.1 hb with hX | hY
  · have hend : b.base + b.size w ≤ ptr := by
      induction X using List.reverseRecOn with
      | nil => simp at hX
      | append_singleton X' l _ =>
        have hl := hprev l (by simp)
        rcases List.mem_append.1 hX with h1 | h1
        · rw [List.append_assoc] at htight
          have := (List.pairwise_append.1 htight).2.2 b h1 l (by simp)
          omega
        · simp only [List.mem_singleton] at h1
          subst h1
          exact hl
    exact Or.inr (Or.inr (Or.inl hend))
  · have hstart : ptr + size ≤ b.base := by
      cases Y with
      | nil => simp at hY
      | cons y Y' =>
        have hy := hnext y (by simp)
        rcases List.mem_cons.1 hY with h1 | h1
        · subst h1
          exact hy
        · have h2 := (List.pairwise_append.1 hbase).2.1
          have := (List.pairwise_cons.1 h2).1 b h1
          omega
    exact Or.inr (Or.inr (Or.inr hstart))

theorem covers_perm (rs ss : List (Nat × Nat)) (h : rs.Perm ss) (x : Nat) :
    covers rs x ↔ covers ss x := by
  unfold covers
  constructor
  · rintro ⟨r, hr, hx⟩
    exact ⟨r, h.mem_iff.1 hr, hx⟩
  · rintro ⟨r, hr, hx⟩
    exact ⟨r, h.mem_iff.2 hr, hx⟩

/-- C12: `free(ptr, size)` panics, whatever the heap, when `ptr` is null, `size < min_size` or
`ptr` is not a multiple of `alignment`: the call does not return and changes nothing.  When none
of the three holds, the heap is well formed with free regions strictly apart, the region
`[ptr, ptr + size)` lies in the address space and overlaps neither the free region next below it
(the last of `X`, which ends at or before `ptr`) nor the one next above it (the first of `Y`,
which starts at or after `ptr + size`), `free` returns: the bytes of the
region join the free set, `used` is decreased by `size` in `size_t`, and `total` stays.  The
free set is the same in both indices: the heap is again well formed (both trees legal, the size
tree ordered by size, the same blocks in both), its free regions are again strictly apart, and
the regions of the size tree cover the bytes that were free and the bytes of the region. -/
theorem free_contract (w : ptrdiff_width) :
    (∀ (h : avl_heap) (ptr size : Nat),
      ptr = 0 ∨ size < w.min_size ∨ ptr % alignment ≠ 0 → free w h ptr size = none) ∧
    (∀ (h : avl_heap) (ptr size : Nat) (X Y : List block),
      ptr ≠ 0 → w.min_size ≤ size → ptr % alignment = 0 →
      heap_wf w h → tight w (inorder h.addr_tree) → in_range w (inorder h.addr_tree) →
      ptr + size ≤ w.size_range →
      inorder h.addr_tree = X ++ Y →
      (∀ a ∈ X.getLast?, a.base + a.size w ≤ ptr) → (∀ b ∈ Y.head?, ptr + size ≤ b.base) →
      ∃ h', free w h ptr size = some h' ∧
        (∀ x, covers (free_regions w h') x ↔
          covers (free_regions w h) x ∨ (ptr ≤ x ∧ x < ptr + size)) ∧
        total_bytes (free_regions w h') = total_bytes (free_regions w h) + size ∧
        h'.used = (h.used + w.size_range - size) % w.size_range ∧
        (size ≤ h.used → h.used < w.size_range → h'.used = h.used - size) ∧
        h'.total = h.total ∧
        heap_wf w h' ∧ tight w (inorder h'.addr_tree) ∧
        (size_regions w h').Perm (free_regions w h') ∧
        (∀ x, covers (size_regions w h') x ↔
          covers (size_regions w h) x ∨ (ptr ≤ x ∧ x < ptr + size))) := by
  have h16 : alignment = 16 := by decide
  constructor
  · intro h ptr size hbad
    unfold free
    rw [if_pos]
    rw [and_align_mask, ← h16]
    exact hbad
  · intro h ptr size X Y hp hs ha hwf htight hrange hps hio hprev hnext
    obtain ⟨h', hins, hwf', htight', -, -, hcov, htot, hu, ht⟩ :=
      insert_region w h [] ptr size hwf htight hrange
        (fun r _ o ho => absurd ho (List.not_mem_nil o)) hp hs hps
        (disjoint_of_neighbours w h ptr size X Y hwf htight hio hprev hnext)
        (fun o ho => absurd ho (List.not_mem_nil o))
    refine ⟨{ h' with used_size := (h'.used_size + w.size_range - size) % w.size_range },
      ?_, hcov, htot, ?_, ?_, ht, hwf', htight', size_regions_perm w h' hwf'.2.2.2.2.1, ?_⟩
    · unfold free
      rw [if_neg (by
        rw [and_align_mask, ← h16]
        simp only [not_or, not_lt, ne_eq, not_not]
        exact ⟨hp, hs, ha⟩)]
      simp only [hins, Option.bind_eq_bind, Option.some_bind]
    · show (h'.used_size + w.size_range - size) % w.size_range = _
      rw [hu]
      rfl
    · intro h1 h2
      show (h'.used_size + w.size_range - size) % w.size_range = _
      rw [hu]
      exact sub_size_t w _ _ h2 h1
    · intro x
      have h1 := covers_perm _ _ (size_regions_perm w h' hwf'.2.2.2.2.1) x
      have h2 := covers_perm _ _ (size_regions_perm w h hwf.2.2.2.2.1) x
      exact h1.trans ((hcov x).trans (or_congr_left h2.symm))

theorem free_contract_witness :
    (4096 : Nat) ≠ 0 ∧ ptrdiff_width.w64.min_size ≤ 64 ∧ 4096 % alignment = 0 ∧
    heap_wf ptrdiff_width.w64 after_alloc_17.heap ∧
    tight ptrdiff_width.w64 (inorder after_alloc_17.heap.addr_tree) ∧
    in_range ptrdiff_width.w64 (inorder after_alloc_17.heap.addr_tree) ∧
    4096 + 64 ≤ ptrdiff_width.w64.size_range ∧
    inorder after_alloc_17.heap.addr_tree = [] ++ [block.create ptrdiff_width.w64 4160 1048512] ∧
    ∃ h', free ptrdiff_width.w64 after_alloc_17.heap 4096 64 = some h' ∧
      (∀ x, covers (free_regions ptrdiff_width.w64 h') x ↔
        covers (free_regions ptrdiff_width.w64 after_alloc_17.heap) x ∨ (4096 ≤ x ∧ x < 4096 + 64)) ∧
      total_bytes (free_regions ptrdiff_width.w64 h') =
        total_bytes (free_regions ptrdiff_width.w64 after_alloc_17.heap) + 64 ∧
      h'.used = (after_alloc_17.heap.used + ptrdiff_width.w64.size_range - 64) %
        ptrdiff_width.w64.size_range ∧
      (64 ≤ after_alloc_17.heap.used → after_alloc_17.heap.used < ptrdiff_width.w64.size_range →
        h'.used = after_alloc_17.heap.used - 64) ∧
      h'.total = after_alloc_17.heap.total ∧
      heap_wf ptrdiff_width.w64 h' ∧ tight ptrdiff_width.w64 (inorder h'.addr_tree) ∧
      (size_regions ptrdiff_width.w64 h').Perm (free_regions ptrdiff_width.w64 h') ∧
      (∀ x, covers (size_regions ptrdiff_width.w64 h') x ↔
        covers (size_regions ptrdiff_width.w64 after_alloc_17.heap) x ∨
          (4096 ≤ x ∧ x < 4096 + 64)) :=
  ⟨by decide, by decide, by decide, (reachable_inv _ _ after_alloc_17_reachable).1,
    (reachable_inv _ _ after_alloc_17_reachable).2.1,
    (reachable_inv _ _ after_alloc_17_reachable).2.2.1, by decide, rfl,
    (free_contract ptrdiff_width.w64).2 after_alloc_17.heap 4096 64 []
      [block.create ptrdiff_width.w64 4160 1048512] (by decide) (by decide) (by decide)
      (reachable_inv _ _ after_alloc_17_reachable).1
      (reachable_inv _ _ after_alloc_17_reachable).2.1
      (reachable_inv _ _ after_alloc_17_reachable).2.2.1 (by decide) rfl
      (fun a ha => by simp at ha)
      (fun b hb => by
        simp only [List.head?_cons, Option.mem_def, Option.some.injEq] at hb
        rw [← hb]
        decide)⟩

end avl_heap

namespace avl_heap

open avl_node avl_tree

/-- The search of `alloc` on a tree, ordered or not, whose blocks are all too small keeps the
initial value of `found_block`. -/
theorem search_all_small (w : ptrdiff_width) (size : Nat) (t : avl_node block) (s0 : Option block)
    (hsmall : ∀ a ∈ inorder t, a.size w < size) :
    (search (fun (found_block : Option block) (cur_block : block) =>
        if cur_block.size w ≥ size then ((-1 : Int), some cur_block) else ((1 : Int), found_block))
      t s0).2 = s0 := by
  induction t generalizing s0 with
  | nullptr => rfl
  | mk l r b d _ ihr =>
    have hd : ¬ d.size w ≥ size := by
      have := hsmall d (by simp [inorder])
      omega
    unfold search
    simp only [if_neg hd]
    rw [if_neg (by decide), if_neg (by decide)]
    exact ihr s0 (fun a ha => hsmall a (by simp [inorder, ha]))

/-- C13: when the rounded size `r = align_size(size)` exceeds the size of every free region and
the backing allocator answers the request of `r * 16` bytes (computed in `size_t`) with a null
pointer or with a run of less than `min_size` bytes, `expand` reports 0 and `alloc` returns
null; the heap (both trees, `used` and `total`) is exactly what it was before the call. -/
theorem alloc_out_of_memory (w : ptrdiff_width) (h : avl_heap) (allocator : Alloc) (size : Nat)
    (hbig : ∀ b ∈ inorder h.size_tree, b.size w < align_size w size)
    (hnull : (allocator.alloc (align_size w size * 16 % w.size_range)).1.1 = 0 ∨
      (allocator.alloc (align_size w size * 16 % w.size_range)).1.2 < w.min_size) :
    expand w h allocator (align_size w size * 16 % w.size_range) =
      some (0, h, (allocator.alloc (align_size w size * 16 % w.size_range)).2) ∧
    alloc w h allocator size =
      some (0, align_size w size, h,
        (allocator.alloc (align_size w size * 16 % w.size_range)).2) := by
  have hsearch : alloc_search w h (align_size w size) = none :=
    search_all_small w _ h.size_tree none hbig
  have hrej : ¬ ((allocator.alloc (align_size w size * 16 % w.size_range)).1.1 ≠ 0 ∧
      (allocator.alloc (align_size w size * 16 % w.size_range)).1.2 ≥ w.min_size) := by
    intro hc
    rcases hnull with h0 | h0
    · exact hc.1 h0
    · exact absurd hc.2 (by omega)
  have hexp : expand_run w h allocator (align_size w size * 16 % w.size_range) =
      some (none, h, (allocator.alloc (align_size w size * 16 % w.size_range)).2) := by
    unfold expand_run
    simp only [if_neg hrej]
  constructor
  · unfold expand
    rw [hexp]
    rfl
  · unfold alloc alloc_runs
    have hloop : alloc_loop w (align_size w size) (allocator.answers.length + 2) h allocator [] =
        some (none, h, (allocator.alloc (align_size w size * 16 % w.size_range)).2, []) := by
      rw [show allocator.answers.length + 2 = (allocator.answers.length + 1) + 1 from rfl]
      unfold alloc_loop
      simp only [hsearch]
      rw [Nat.shiftLeft_eq, show (2 : Nat) ^ 4 = 16 from rfl, hexp]
    simp only [hloop, Option.bind_eq_bind, Option.some_bind, Option.map_some']

/-- The out-of-memory scenario of the specification on a 64-bit target: the backing allocator
has granted its one run of 64 bytes, which `alloc(8)` has taken whole; `alloc(128)` then asks
`expand(2048)`, the allocator returns null, and `alloc` returns null with the heap unchanged. -/
theorem alloc_out_of_memory_witness :
    alloc ptrdiff_width.w64 empty ⟨[fun _ => (4096, 64)]⟩ 8 =
      some (4096, 64, ⟨nullptr, nullptr, 64, 64⟩, ⟨[]⟩) ∧
    align_size ptrdiff_width.w64 128 * 16 % ptrdiff_width.w64.size_range = 2048 ∧
    (∀ b ∈ inorder (⟨nullptr, nullptr, 64, 64⟩ : avl_heap).size_tree,
      b.size ptrdiff_width.w64 < align_size ptrdiff_width.w64 128) ∧
    ((⟨[]⟩ : Alloc).alloc
      (align_size ptrdiff_width.w64 128 * 16 % ptrdiff_width.w64.size_range)).1.1 = 0 ∧
    expand ptrdiff_width.w64 ⟨nullptr, nullptr, 64, 64⟩ ⟨[]⟩
        (align_size ptrdiff_width.w64 128 * 16 % ptrdiff_width.w64.size_range) =
      some (0, ⟨nullptr, nullptr, 64, 64⟩,
        ((⟨[]⟩ : Alloc).alloc
          (align_size ptrdiff_width.w64 128 * 16 % ptrdiff_width.w64.size_range)).2) ∧
    alloc ptrdiff_width.w64 ⟨nullptr, nullptr, 64, 64⟩ ⟨[]⟩ 128 =
      some (0, align_size ptrdiff_width.w64 128, ⟨nullptr, nullptr, 64, 64⟩,
        ((⟨[]⟩ : Alloc).alloc
          (align_size ptrdiff_width.w64 128 * 16 % ptrdiff_width.w64.size_range)).2) :=
  ⟨rfl, by decide, fun b hb => absurd hb (List.not_mem_nil b), rfl,
    alloc_out_of_memory ptrdiff_width.w64 ⟨nullptr, nullptr, 64, 64⟩ ⟨[]⟩ 128
      (fun b hb => absurd hb (List.not_mem_nil b)) (Or.inl rfl)⟩

end avl_heap

namespace avl_set

open avl_node avl_tree

variable {T : Type}

/-- `head_node()` points to the first node of the in-order traversal, and is null on the empty
tree. -/
theorem head_node_first (t : avl_node (Nat × T)) :
    data_of (head_node t).node = (inorder t).head? := by
  by_cases ht : t = nullptr
  · subst ht
    rfl
  · obtain ⟨ps, r, b, d, h1, -, h3, h4, -⟩ := leftmost_spec t ht []
    unfold head_node
    rw [h1]
    simp only [after, List.append_nil] at h4
    rw [← h4]
    rfl

/-- What `erase(it)` does on a set whose tree is legal, for an iterator to a stored node: the
node leaves the tree, `count` is decreased by one in `size_t`, and the returned iterator points
to the first node that the set had before the call. -/
theorem erase_returns_head [DecidableEq T] (w : ptrdiff_width) (s : avl_set T) (d : Nat × T)
    (hleg : legal s.tree) (hnd : (inorder s.tree).Nodup) (hmem : d ∈ inorder s.tree) :
    ∃ t X Y, erase w s ⟨some d⟩ =
        some (⟨(inorder s.tree).head?⟩, ⟨t, (s.count + w.size_range - 1) % w.size_range⟩) ∧
      legal t ∧ inorder s.tree = X ++ d :: Y ∧ inorder t = X ++ Y := by
  obtain ⟨t, X, Y, he, hlt, hio, hit⟩ := erase_spec s.tree d hleg hnd hmem
  refine ⟨t, X, Y, ?_, hlt, hio, hit⟩
  unfold erase iterator.increment
  simp only [Option.bind_eq_bind, Option.some_bind, he, head_node_first]

/-- C14 on the set of the values 10, 20 and 30, which three `insert` calls build from the empty
set: `erase` of the iterator to 20 removes 20 and leaves `size()` at 2, and returns an iterator
to 10, the first element, where the in-order successor of 20 is 30; `erase` of the iterator to
30, the last element, also returns an iterator to 10, not the null past-the-end iterator. -/
theorem erase_returns_first :
    ((insert ptrdiff_width.w64 (fun a b => decide (a < b)) initial 1 10).bind fun r1 =>
      (insert ptrdiff_width.w64 (fun a b => decide (a < b)) r1.2 2 20).bind fun r2 =>
        (insert ptrdiff_width.w64 (fun a b => decide (a < b)) r2.2 3 30).map fun r3 =>
          (r3.2.tree, r3.2.count)) = some (three_values.tree, three_values.count) ∧
    inorder three_values.tree = [(1, 10), (2, 20), (3, 30)] ∧
    ((erase ptrdiff_width.w64 three_values ⟨some (2, 20)⟩).map fun r =>
      (r.1.ptr, inorder r.2.tree, r.2.size)) = some (some (1, 10), [(1, 10), (3, 30)], 2) ∧
    ((erase ptrdiff_width.w64 three_values ⟨some (3, 30)⟩).map fun r =>
      (r.1.ptr, inorder r.2.tree, r.2.size)) = some (some (1, 10), [(1, 10), (2, 20)], 2) :=
  ⟨rfl, rfl, rfl, rfl⟩

end avl_set

namespace avl_set

open avl_node avl_tree

variable {T : Type}

theorem strict_weak_data_cmp (less_than : T → T → Bool) (hsw : strict_weak less_than) :
    strict_weak (data_cmp less_than) :=
  ⟨fun a b h => hsw.1 a.2 b.2 h, fun a b c h1 h2 => hsw.2 a.2 b.2 c.2 h1 h2⟩

/-- The three-way search of `find` on a tree whose in-order traversal is non-decreasing: it
ends at a node equivalent to the key, or runs off the tree when no node is equivalent to the
key. -/
theorem search_three_way (less_than : T → T → Bool) (hsw : strict_weak less_than) (key : T)
    (t : avl_node (Nat × T)) (hord : ordered (data_cmp less_than) (inorder t)) :
    (∀ e, data_of (search (fun (_ : Unit) (cur : Nat × T) =>
        if less_than key cur.2 then ((-1 : Int), ())
        else if less_than cur.2 key then ((1 : Int), ())
        else ((0 : Int), ())) t ()).1 = some e →
      e ∈ inorder t ∧ less_than key e.2 = false ∧ less_than e.2 key = false) ∧
    (data_of (search (fun (_ : Unit) (cur : Nat × T) =>
        if less_than key cur.2 then ((-1 : Int), ())
        else if less_than cur.2 key then ((1 : Int), ())
        else ((0 : Int), ())) t ()).1 = none →
      ∀ e ∈ inorder t, less_than key e.2 = true ∨ less_than e.2 key = true) := by
  induction t with
  | nullptr =>
    refine ⟨fun e h => ?_, fun _ e he => ?_⟩
    · simp [search, data_of] at h
    · simp [inorder] at he
  | mk l r b d ihl ihr =>
    simp only [inorder] at hord
    rw [ordered_append, ordered_cons] at hord
    obtain ⟨hol, ⟨hdr, hor⟩, hlr⟩ := hord
    unfold search
    by_cases h1 : less_than key d.2 = true
    · simp only [h1, if_true]
      rw [if_neg (by decide), if_pos (by decide)]
      obtain ⟨ih1, ih2⟩ := ihl hol
      refine ⟨fun e he => ?_, fun hn e he => ?_⟩
      · obtain ⟨h3, h4⟩ := ih1 e he
        exact ⟨by simp [inorder, h3], h4⟩
      · simp only [inorder, List.mem_append, List.mem_cons] at he
        rcases he with he | rfl | he
        · exact ih2 hn e he
        · exact Or.inl h1
        · left
          by_contra hc
          have hc2 : less_than key e.2 = false := by simpa using hc
          have := hsw.2 key e.2 d.2 hc2 (hdr e he)
          rw [this] at h1
          exact Bool.false_ne_true h1
    · have h1f : less_than key d.2 = false := by simpa using h1
      by_cases h2 : less_than d.2 key = true
      · simp only [h1f, h2, if_true, Bool.false_eq_true, if_false]
        rw [if_neg (by decide), if_neg (by decide)]
        obtain ⟨ih1, ih2⟩ := ihr hor
        refine ⟨fun e he => ?_, fun hn e he => ?_⟩
        · obtain ⟨h3, h4⟩ := ih1 e he
          exact ⟨by simp [inorder, h3], h4⟩
        · simp only [inorder, List.mem_append, List.mem_cons] at he
          rcases he with he | rfl | he
          · right
            by_contra hc
            have hc2 : less_than e.2 key = false := by simpa using hc
            have := hsw.2 d.2 e.2 key (hlr e he d (by simp)) hc2
            rw [this] at h2
            exact Bool.false_ne_true h2
          · exact Or.inr h2
          · exact ih2 hn e he
      · have h2f : less_than d.2 key = false := by simpa using h2
        simp only [h1f, h2f, Bool.false_eq_true, if_false]
        rw [if_pos trivial]
        refine ⟨fun e he => ?_, fun hn => ?_⟩
        · simp only [data_of, Option.some.injEq] at he
          subst he
          exact ⟨by simp [inorder], h1f, h2f⟩
        · simp [data_of] at hn

/-- The tree of a set built by `insert` and `erase` calls is a legal AVL tree of distinct nodes
whose in-order traversal is non-decreasing. -/
theorem reachable_ordered [DecidableEq T] (w : ptrdiff_width) (less_than : T → T → Bool)
    (hsw : strict_weak less_than) (s : avl_set T) (hs : reachable w less_than s) :
    legal s.tree ∧ (inorder s.tree).Nodup ∧ ordered (data_cmp less_than) (inorder s.tree) := by
  induction hs with
  | init => exact ⟨trivial, List.nodup_nil, List.Pairwise.nil⟩
  | insert s addr value it s' _ hnew hcall ih =>
    obtain ⟨hleg, hnd, hord⟩ := ih
    obtain ⟨t, A, B, hins, hlt, hio, hit, hpos⟩ :=
      insert_spec (data_cmp less_than) s.tree (addr, value) hleg
    unfold insert at hcall
    simp only [hins, Option.bind_eq_bind, Option.some_bind, Option.some.injEq, Prod.mk.injEq]
      at hcall
    obtain ⟨-, rfl⟩ := hcall
    obtain ⟨hA, hB⟩ := hpos (strict_weak_data_cmp less_than hsw) hord
    refine ⟨hlt, ?_, ?_⟩
    · show (inorder t).Nodup
      rw [hit]
      rw [hio] at hnd hnew
      have hnot : (addr, value) ∉ A ++ B := fun hm => hnew _ hm rfl
      rw [List.nodup_append] at hnd ⊢
      refine ⟨hnd.1, List.nodup_cons.2 ⟨fun hm => hnot (List.mem_append_right _ hm), hnd.2.1⟩, ?_⟩
      intro a ha hb
      rcases List.mem_cons.1 hb with rfl | hb
      · exact hnot (List.mem_append_left _ ha)
      · exact hnd.2.2 ha hb
    · show ordered (data_cmp less_than) (inorder t)
      rw [hit]
      rw [hio, ordered_append] at hord
      rw [ordered_append, ordered_cons]
      refine ⟨hord.1, ⟨hB, hord.2.1⟩, ?_⟩
      intro a ha b hb
      rcases List.mem_cons.1 hb with rfl | hb
      · exact hA a ha
      · exact hord.2.2 a ha b hb
  | erase s d it s' _ hmem hcall ih =>
    obtain ⟨hleg, hnd, hord⟩ := ih
    obtain ⟨t, X, Y, he, hlt, hio, hit⟩ := erase_returns_head w s d hleg hnd hmem
    rw [he] at hcall
    simp only [Option.some.injEq, Prod.mk.injEq] at hcall
    obtain ⟨-, rfl⟩ := hcall
    have hsub : (X ++ Y).Sublist (X ++ d :: Y) :=
      List.Sublist.append_left (List.sublist_cons_self d Y) X
    refine ⟨hlt, ?_, ?_⟩
    · show (inorder t).Nodup
      rw [hit]
      rw [hio] at hnd
      exact hnd.sublist hsub
    · show ordered (data_cmp less_than) (inorder t)
      rw [hit]
      rw [hio] at hord
      exact List.Pairwise.sublist hsub hord

end avl_set

namespace avl_set

open avl_node avl_tree

variable {T : Type}

theorem three_values_reachable :
    reachable ptrdiff_width.w64 (fun a b : Nat => decide (a < b)) three_values :=
  reachable.insert ⟨avl_node.mk nullptr (avl_node.mk nullptr nullptr 0 (2, 20)) 1 (1, 10), 2⟩
    3 30 ⟨some (3, 30)⟩ three_values
    (reachable.insert ⟨avl_node.mk nullptr nullptr 0 (1, 10), 1⟩ 2 20 ⟨some (2, 20)⟩ _
      (reachable.insert initial 1 10 ⟨some (1, 10)⟩ _ reachable.init
        (fun n hn => absurd hn (List.not_mem_nil n)) rfl)
      (by simp [inorder]) rfl)
    (by simp [inorder]) rfl

theorem strict_weak_nat_lt : strict_weak (fun a b : Nat => decide (a < b)) :=
  ⟨fun a b h => by
      simp only [decide_eq_true_eq, decide_eq_false_iff_not] at h ⊢
      omega,
    fun a b c h1 h2 => by
      simp only [decide_eq_false_iff_not] at h1 h2 ⊢
      omega⟩

/-- The search of `find` on a set built by `insert` and `erase` calls (equal values allowed)
under a strict weak ordering ends at a stored node whose value is equivalent to the key (neither
is less than the other) if at least one such node is stored, and at the null pointer if none
is. -/
theorem find_search_equivalent [DecidableEq T] (w : ptrdiff_width) (less_than : T → T → Bool)
    (hsw : strict_weak less_than) (s : avl_set T) (hs : reachable w less_than s) (key : T) :
    ((∃ e ∈ inorder s.tree, less_than key e.2 = false ∧ less_than e.2 key = false) →
      ∃ e, find_search less_than s key = some e ∧ e ∈ inorder s.tree ∧
        less_than key e.2 = false ∧ less_than e.2 key = false) ∧
    ((¬ ∃ e ∈ inorder s.tree, less_than key e.2 = false ∧ less_than e.2 key = false) →
      find_search less_than s key = none) := by
  obtain ⟨-, -, hord⟩ := reachable_ordered w less_than hsw s hs
  obtain ⟨h1, h2⟩ := search_three_way less_than hsw key s.tree hord
  constructor
  · rintro ⟨e, he, hk, hk2⟩
    cases hf : find_search less_than s key with
    | none =>
      rcases h2 hf e he with h | h
      · rw [hk] at h
        exact absurd h Bool.false_ne_true
      · rw [hk2] at h
        exact absurd h Bool.false_ne_true
    | some e2 => exact ⟨e2, rfl, h1 e2 hf⟩
  · intro hno
    cases hf : find_search less_than s key with
    | none => rfl
    | some e2 =>
      obtain ⟨h3, h4⟩ := h1 e2 hf
      exact absurd ⟨e2, h3, h4⟩ hno

/-- The constructor call of `find` is ill-formed whatever the set and the key: `find` returns no
iterator. -/
theorem find_no_iterator (less_than : T → T → Bool) (s : avl_set T) (key : T) :
    find less_than s key = none := rfl

/-- C15 on the set of the values 10, 20 and 30, which `insert` calls build: the value 20 is
stored, and the three-way search of `find(20)` ends at its node; but `find` is a `const` member
that passes `this` to the constructor `iterator(avl_set *, node *)`, the call is ill-formed, and
`find(20)` returns no iterator to the stored element.  A non-const `this` with the same node
makes the iterator to that element. -/
theorem find_ill_formed :
    reachable ptrdiff_width.w64 (fun a b : Nat => decide (a < b)) three_values ∧
    (2, 20) ∈ inorder three_values.tree ∧
    find_search (fun a b : Nat => decide (a < b)) three_values 20 = some (2, 20) ∧
    find (fun a b : Nat => decide (a < b)) three_values 20 = none ∧
    (iterator.construct this_pointer.non_const
      (find_search (fun a b : Nat => decide (a < b)) three_values 20)).map (fun it => it.ptr) =
        some (some (2, 20)) :=
  ⟨three_values_reachable, by decide, rfl, rfl, rfl⟩

end avl_set

namespace avl_tree

open avl_node parent_link

variable {T : Type}

/-- The ascent of `next_node` ends at the first ancestor that has the node in its left subtree:
the place in the same tree that comes just after the subtree `cur`. -/
theorem next_ascend_place (ps : List (parent_link T)) (cur : avl_node T) :
    (after ps = [] ∧ next_ascend ps cur = none) ∨
    (∃ p pl pr pb y, next_ascend ps cur = some p ∧ p.node = mk pl pr pb y ∧
      root_of p.parents p.node = root_of ps cur ∧
      before p.parents ++ inorder pl = before ps ++ inorder cur ∧
      y :: (inorder pr ++ after p.parents) = after ps) := by
  induction ps generalizing cur with
  | nil => exact Or.inl ⟨rfl, rfl⟩
  | cons q ps ih =>
    cases q with
    | of_left r b d =>
      exact Or.inr ⟨⟨ps, mk cur r b d⟩, cur, r, b, d, rfl, rfl, rfl, rfl, by simp [after]⟩
    | of_right l b d =>
      rcases ih (mk l cur b d) with ⟨h1, h2⟩ | ⟨p, pl, pr, pb, y, h1, h2, h3, h4, h5⟩
      · exact Or.inl ⟨h1, h2⟩
      · exact Or.inr ⟨p, pl, pr, pb, y, h1, h2, h3, by rw [h4]; simp [before, inorder], h5⟩

/-- The ascent of `prev_node` ends at the first ancestor that has the node in its right subtree:
the place in the same tree that comes just before the subtree `cur`. -/
theorem prev_ascend_place (ps : List (parent_link T)) (cur : avl_node T) :
    (before ps = [] ∧ prev_ascend ps cur = none) ∨
    (∃ p pl pr pb y, prev_ascend ps cur = some p ∧ p.node = mk pl pr pb y ∧
      root_of p.parents p.node = root_of ps cur ∧
      inorder pr ++ after p.parents = inorder cur ++ after ps ∧
      (before p.parents ++ inorder pl) ++ [y] = before ps) := by
  induction ps generalizing cur with
  | nil => exact Or.inl ⟨rfl, rfl⟩
  | cons q ps ih =>
    cases q with
    | of_right l b d =>
      exact Or.inr ⟨⟨ps, mk l cur b d⟩, l, cur, b, d, rfl, rfl, rfl, rfl, by simp [before]⟩
    | of_left r b d =>
      rcases ih (mk cur r b d) with ⟨h1, h2⟩ | ⟨p, pl, pr, pb, y, h1, h2, h3, h4, h5⟩
      · exact Or.inl ⟨h1, h2⟩
      · exact Or.inr ⟨p, pl, pr, pb, y, h1, h2, h3, by rw [h4]; simp [after, inorder], h5⟩

/-- C16: in every tree and for every node `n` of it (the node `mk l r b d` below the chain of
parents `ps`; the links are consistent by construction), with `A` the nodes before `n` and `B`
the nodes after `n` in the in-order traversal of the tree: `next_node(n)` returns null when `B`
is empty, that is when `n` is the tail node, and otherwise returns a node of the same tree whose
place in the traversal is just after `n` (the nodes before it are `A` and `n`, and it is the
first of `B`); `prev_node(n)` returns null when `A` is empty, that is when `n` is the head node,
and otherwise a node of the same tree whose place is just before `n`. -/
theorem next_prev_node (ps : List (parent_link T)) (l r : avl_node T) (b : Int) (d : T) :
    inorder (root_of ps (mk l r b d)) = (before ps ++ inorder l) ++ d :: (inorder r ++ after ps) ∧
    ((inorder r ++ after ps = [] ∧ next_node ⟨ps, mk l r b d⟩ = some none) ∨
      (∃ p pl pr pb y, next_node ⟨ps, mk l r b d⟩ = some (some p) ∧ p.node = mk pl pr pb y ∧
        root_of p.parents p.node = root_of ps (mk l r b d) ∧
        before p.parents ++ inorder pl = (before ps ++ inorder l) ++ [d] ∧
        y :: (inorder pr ++ after p.parents) = inorder r ++ after ps)) ∧
    ((before ps ++ inorder l = [] ∧ prev_node ⟨ps, mk l r b d⟩ = some none) ∨
      (∃ p pl pr pb y, prev_node ⟨ps, mk l r b d⟩ = some (some p) ∧ p.node = mk pl pr pb y ∧
        root_of p.parents p.node = root_of ps (mk l r b d) ∧
        inorder pr ++ after p.parents = d :: (inorder r ++ after ps) ∧
        (before p.parents ++ inorder pl) ++ [y] = before ps ++ inorder l)) := by
  refine ⟨by rw [inorder_root_of]; simp [inorder], ?_, ?_⟩
  · cases r with
    | nullptr =>
      rcases next_ascend_place ps (mk l nullptr b d) with ⟨h1, h2⟩ | ⟨p, pl, pr, pb, y, h1, h2, h3, h4, h5⟩
      · exact Or.inl ⟨by simp [inorder, h1], by simp [next_node, h2]⟩
      · exact Or.inr ⟨p, pl, pr, pb, y, by simp [next_node, h1], h2, h3,
          by rw [h4]; simp [inorder], by rw [h5]; simp [inorder]⟩
    | mk rl rr rb rd =>
      obtain ⟨ps2, r2, b2, y, h1, h2, h3, h4, -⟩ :=
        leftmost_spec (mk rl rr rb rd) (by simp) (of_right l b d :: ps)
      refine Or.inr ⟨⟨ps2, mk nullptr r2 b2 y⟩, nullptr, r2, b2, y, ?_, rfl, ?_, ?_, ?_⟩
      · simp only [next_node]
        rw [h1]
      · rw [h2]
        rfl
      · show before ps2 ++ inorder nullptr = _
        rw [h3]
        simp [before, inorder]
      · show y :: (inorder r2 ++ after ps2) = _
        have : y :: (inorder r2 ++ after ps2) = y :: inorder r2 ++ after ps2 := rfl
        rw [this, h4]
        rfl
  · cases l with
    | nullptr =>
      rcases prev_ascend_place ps (mk nullptr r b d) with ⟨h1, h2⟩ | ⟨p, pl, pr, pb, y, h1, h2, h3, h4, h5⟩
      · exact Or.inl ⟨by simp [inorder, h1], by simp [prev_node, h2]⟩
      · exact Or.inr ⟨p, pl, pr, pb, y, by simp [prev_node, h1], h2, h3,
          by rw [h4]; simp [inorder], by rw [h5]; simp [inorder]⟩
    | mk ll lr lb ld =>
      obtain ⟨ps2, l2, b2, y, h1, h2, h3, h4, -⟩ :=
        rightmost_spec (mk ll lr lb ld) (by simp) (of_left r b d :: ps)
      refine Or.inr ⟨⟨ps2, mk l2 nullptr b2 y⟩, l2, nullptr, b2, y, ?_, rfl, ?_, ?_, ?_⟩
      · simp only [prev_node]
        rw [h1]
      · rw [h2]
        rfl
      · show inorder nullptr ++ after ps2 = _
        rw [h4]
        simp [after, inorder]
      · show (before ps2 ++ inorder l2) ++ [y] = _
        rw [List.append_assoc, h3]
        rfl

end avl_tree

namespace block

/-- C17: for every size `s` representable in `size_t` the header that `block(s)` constructs
stores the low half of `s` in the payload of `size_node` and the high half in the payload of
`addr_node`, both values of `half_size_t`, and `size()` reports `s`; so `size_cmp` orders two
such blocks exactly as their full sizes are ordered. -/
theorem round_trip (w : ptrdiff_width) (ptr s : Nat) (hs : s < w.size_range) :
    (create w ptr s).size w = s ∧
    (create w ptr s).size_node = s % 2 ^ w.half_size_shift ∧
    (create w ptr s).addr_node = s / 2 ^ w.half_size_shift ∧
    (create w ptr s).wf w ∧
    ∀ ptr2 s2 : Nat, s2 < w.size_range →
      (size_cmp w (create w ptr s) (create w ptr2 s2) = true ↔ s < s2) := by
  refine ⟨size_create w ptr s hs, ?_, ?_, create_wf w ptr s, ?_⟩
  · show s &&& w.half_size_mask = _
    unfold ptrdiff_width.half_size_mask
    rw [Nat.and_pow_two_sub_one_eq_mod]
  · show (s >>> w.half_size_shift) % 2 ^ w.half_size_shift = _
    rw [Nat.shiftRight_eq_div_pow]
    apply Nat.mod_eq_of_lt
    apply Nat.div_lt_of_lt_mul
    rw [← pow_add, ← two_mul]
    exact hs
  · intro ptr2 s2 hs2
    unfold size_cmp
    rw [size_create w ptr s hs, size_create w ptr2 s2 hs2, decide_eq_true_eq]

theorem round_trip_witness :
    2 ^ 32 + 80 < ptrdiff_width.w64.size_range ∧
    (create ptrdiff_width.w64 4096 (2 ^ 32 + 80)).size ptrdiff_width.w64 = 2 ^ 32 + 80 ∧
    (create ptrdiff_width.w64 4096 (2 ^ 32 + 80)).size_node =
      (2 ^ 32 + 80) % 2 ^ ptrdiff_width.w64.half_size_shift ∧
    (create ptrdiff_width.w64 4096 (2 ^ 32 + 80)).addr_node =
      (2 ^ 32 + 80) / 2 ^ ptrdiff_width.w64.half_size_shift ∧
    (create ptrdiff_width.w64 4096 (2 ^ 32 + 80)).wf ptrdiff_width.w64 ∧
    ∀ ptr2 s2 : Nat, s2 < ptrdiff_width.w64.size_range →
      (size_cmp ptrdiff_width.w64 (create ptrdiff_width.w64 4096 (2 ^ 32 + 80))
        (create ptrdiff_width.w64 ptr2 s2) = true ↔ 2 ^ 32 + 80 < s2) :=
  ⟨by decide, round_trip ptrdiff_width.w64 4096 (2 ^ 32 + 80) (by decide)⟩

end block

namespace avl_heap

open avl_node avl_tree

/-- The coalescing insert of an aligned region into a heap of aligned blocks leaves a heap of
aligned blocks. -/
theorem insert_aligned (w : ptrdiff_width) (h : avl_heap) (p s : Nat)
    (hwf : heap_wf w h) (htight : tight w (inorder h.addr_tree))
    (hrange : in_range w (inorder h.addr_tree))
    (hp : p ≠ 0) (hs : w.min_size ≤ s) (hps : p + s ≤ w.size_range)
    (hdisj : ∀ r ∈ free_regions w h, disjoint r (p, s))
    (hal : ∀ b ∈ inorder h.addr_tree, b.base % alignment = 0 ∧ b.size w % alignment = 0)
    (hpa : p % alignment = 0) (hsa : s % alignment = 0) (h' : avl_heap)
    (hcall : avl_heap.insert w h (block.create w p s) = some h') :
    ∀ b ∈ inorder h'.addr_tree, b.base % alignment = 0 ∧ b.size w % alignment = 0 := by
  obtain ⟨h2, X, Y, pm, nm, hins, -, -, -, hio, hio', -, -, hcs, -, -⟩ :=
    coalesce_insert_spec w h p s hwf htight hrange hp hs hps
      (fun a ha => hdisj (a.base, a.size w) (by
        unfold free_regions
        exact List.mem_map.2 ⟨a, ha, rfl⟩))
  rw [hins] at hcall
  cases hcall
  have h16 : alignment = 16 := by decide
  rw [h16] at hal hpa hsa ⊢
  have hX : ∀ b ∈ X, b.base % 16 = 0 ∧ b.size w % 16 = 0 :=
    fun b hb => hal b (by rw [hio]; simp [hb])
  have hY : ∀ b ∈ Y, b.base % 16 = 0 ∧ b.size w % 16 = 0 :=
    fun b hb => hal b (by rw [hio]; simp [hb])
  have hpm : ∀ y ∈ pm, y.base % 16 = 0 ∧ y.size w % 16 = 0 :=
    fun y hy => hal y (by
      rw [hio]
      have : y ∈ Option.toList pm := by simpa using hy
      simp [this])
  have hnm : ∀ y ∈ nm, y.base % 16 = 0 ∧ y.size w % 16 = 0 :=
    fun y hy => hal y (by
      rw [hio]
      have : y ∈ Option.toList nm := by simpa using hy
      simp [this])
  intro b hb
  rw [hio'] at hb
  rcases List.mem_append.1 hb with hb | hb
  · exact hX b hb
  · rcases List.mem_cons.1 hb with rfl | hb
    · rw [hcs, block.create_base]
      cases pm with
      | none =>
        cases nm with
        | none =>
          simp only [Option.elim_none]
          exact ⟨hpa, by omega⟩
        | some z =>
          have := hnm z rfl
          simp only [Option.elim_none, Option.elim_some]
          exact ⟨hpa, by omega⟩
      | some y =>
        have hy := hpm y rfl
        cases nm with
        | none =>
          simp only [Option.elim_none, Option.elim_some]
          exact ⟨hy.1, by omega⟩
        | some z =>
          have := hnm z rfl
          simp only [Option.elim_some]
          exact ⟨hy.1, by omega⟩
    · exact hY b hb

/-- `expand` keeps the blocks of the heap aligned when the run it takes is aligned. -/
theorem expand_aligned (w : ptrdiff_width) (s : heap_state) (size : Nat)
    (run : Option (Nat × Nat)) (h : avl_heap) (a : Alloc) (hinv : inv w s)
    (hal : aligned_state w s)
    (hcall : expand_run w s.heap s.allocator size = some (run, h, a))
    (hrun : ∀ r ∈ run, r.1 % alignment = 0 ∧ r.2 % alignment = 0) :
    aligned_state w ⟨h, a, s.outstanding, s.runs ++ Option.toList run⟩ := by
  obtain ⟨heap, allocator, O, runs⟩ := s
  obtain ⟨answers⟩ := allocator
  obtain ⟨hwf, htight, hrange, -, -, -, -, -, hcov, -, -, -, hfresh⟩ := hinv
  simp only at hcall hfresh hwf htight hrange hcov
  cases answers with
  | nil =>
    simp only [expand_run, Alloc.alloc, ne_eq, not_true_eq_false, false_and, if_false,
      Option.some.injEq, Prod.mk.injEq] at hcall
    obtain ⟨rfl, rfl, rfl⟩ := hcall
    exact hal
  | cons f rest =>
    simp only [expand_run, Alloc.alloc] at hcall
    have hf := hfresh size
    by_cases hacc : (f size).1 ≠ 0 ∧ (f size).2 ≥ w.min_size
    · rw [if_pos hacc] at hcall hf
      obtain ⟨hf1, hf2, -⟩ := hf
      simp only [Option.bind_eq_bind, Option.bind_eq_some, Option.some.injEq,
        Prod.mk.injEq] at hcall
      obtain ⟨h', hins, rfl, rfl, rfl⟩ := hcall
      have hdF : ∀ r ∈ free_regions w heap, disjoint r ((f size).1, (f size).2) := by
        intro r hr
        refine disjoint_of_covered runs r _ ?_ hf2
        intro x h1 h2
        exact (hcov x).1 (Or.inl (covers_free_region w _ r hr x h1 h2))
      have hr := hrun ((f size).1, (f size).2) rfl
      exact ⟨insert_aligned w heap _ _ hwf htight hrange hacc.1 hacc.2 hf1 hdF hal.1 hr.1 hr.2
        h' hins, hal.2⟩
    · rw [if_neg hacc] at hcall
      simp only [Option.some.injEq, Prod.mk.injEq] at hcall
      obtain ⟨rfl, rfl, rfl⟩ := hcall
      exact hal

/-- `free` of an outstanding allocation keeps the blocks of the heap aligned. -/
theorem free_aligned (w : ptrdiff_width) (s : heap_state) (ptr size : Nat) (h : avl_heap)
    (hinv : inv w s) (hal : aligned_state w s) (hmem : (ptr, size) ∈ s.outstanding)
    (hcall : free w s.heap ptr size = some h) :
    aligned_state w ⟨h, s.allocator, s.outstanding.erase (ptr, size), s.runs⟩ := by
  obtain ⟨hwf, htight, hrange, hOr, -, hFO, -, -, -, -, -, -, -⟩ := hinv
  unfold free at hcall
  split_ifs at hcall with hpanic
  simp only [not_or, not_lt] at hpanic
  obtain ⟨hp, hs, -⟩ := hpanic
  simp only [Option.bind_eq_bind, Option.bind_eq_some, Option.some.injEq] at hcall
  obtain ⟨h', hins, rfl⟩ := hcall
  have ho := hal.2 _ hmem
  exact ⟨insert_aligned w s.heap ptr size hwf htight hrange hp hs (hOr _ hmem)
    (fun r hr => hFO r hr _ hmem) hal.1 ho.1 ho.2 h' hins,
    fun o ho => hal.2 o (List.mem_of_mem_erase ho)⟩

end avl_heap

namespace avl_heap

open avl_node avl_tree

/-- The loop of `alloc` keeps the blocks of the heap aligned when the runs it takes are
aligned. -/
theorem alloc_loop_aligned (w : ptrdiff_width) (size n : Nat) (h : avl_heap) (a : Alloc)
    (O R0 acc : List (Nat × Nat)) (found : Option block) (h' : avl_heap) (a' : Alloc)
    (acc' : List (Nat × Nat)) (hinv : inv w ⟨h, a, O, R0⟩) (hal : aligned_state w ⟨h, a, O, R0⟩)
    (hcall : alloc_loop w size n h a acc = some (found, h', a', acc'))
    (hruns : ∀ r ∈ acc', r.1 % alignment = 0 ∧ r.2 % alignment = 0) :
    aligned_state w ⟨h', a', O, R0⟩ := by
  induction n generalizing h a R0 acc with
  | zero => simp [alloc_loop] at hcall
  | succ n ih =>
    unfold alloc_loop at hcall
    cases hs : alloc_search w h size with
    | some blk =>
      simp only [hs, Option.some.injEq, Prod.mk.injEq] at hcall
      obtain ⟨rfl, rfl, rfl, rfl⟩ := hcall
      exact hal
    | none =>
      simp only [hs] at hcall
      cases he : expand_run w h a ((size <<< 4) % w.size_range) with
      | none => simp [he] at hcall
      | some res =>
        obtain ⟨run, h1, a1⟩ := res
        have hstep := expand_step w ⟨h, a, O, R0⟩ _ run h1 a1 hinv he
        cases run with
        | none =>
          simp only [he, Option.some.injEq, Prod.mk.injEq] at hcall
          obtain ⟨rfl, rfl, rfl, rfl⟩ := hcall
          exact expand_aligned w ⟨h, a, O, R0⟩ _ none h1 a1 hinv hal he
            (fun r hr => by cases hr)
        | some run =>
          simp only [he] at hcall
          obtain ⟨new, hacc, -, -⟩ := alloc_loop_inv w size n h1 a1 O (R0 ++ [run]) (acc ++ [run])
            found h' a' acc' (by simpa using hstep) hcall
          have hrun : run.1 % alignment = 0 ∧ run.2 % alignment = 0 :=
            hruns run (by rw [hacc]; simp)
          have hal1 := expand_aligned w ⟨h, a, O, R0⟩ _ (some run) h1 a1 hinv hal he
            (fun r hr => by cases hr; exact hrun)
          exact ih h1 a1 (R0 ++ [run]) (acc ++ [run]) (by simpa using hstep) hal1 hcall

/-- `alloc` keeps the blocks of the heap aligned when the runs it takes are aligned, and the
pointer and the size it reports are aligned. -/
theorem alloc_aligned (w : ptrdiff_width) (s : heap_state) (size ptr size_out : Nat)
    (h : avl_heap) (a : Alloc) (runs : List (Nat × Nat)) (hinv : inv w s)
    (hal : aligned_state w s)
    (hcall : alloc_runs w s.heap s.allocator size = some (ptr, size_out, h, a, runs))
    (hruns : ∀ r ∈ runs, r.1 % alignment = 0 ∧ r.2 % alignment = 0) :
    aligned_state w ⟨h, a, if ptr = 0 then s.outstanding else (ptr, size_out) :: s.outstanding,
      s.runs ++ runs⟩ := by
  unfold alloc_runs at hcall
  simp only [Option.bind_eq_bind, Option.bind_eq_some] at hcall
  obtain ⟨⟨found, h1, a1, runs1⟩, hloop, hrest⟩ := hcall
  obtain ⟨new, hnew, hinv1, hf⟩ := alloc_loop_inv w _ _ s.heap s.allocator s.outstanding s.runs []
    found h1 a1 runs1 hinv hloop
  cases found with
  | none =>
    simp only [Option.some.injEq, Prod.mk.injEq] at hrest
    obtain ⟨rfl, rfl, rfl, rfl, rfl⟩ := hrest
    have := alloc_loop_aligned w _ _ s.heap s.allocator s.outstanding s.runs [] none h1 a1 runs1
      hinv hal hloop hruns
    exact ⟨this.1, by simpa using this.2⟩
  | some blk =>
    simp only [Option.bind_eq_some] at hrest
    obtain ⟨⟨p, so, h2⟩, htake, hrest⟩ := hrest
    simp only [Option.some.injEq, Prod.mk.injEq] at hrest
    obtain ⟨rfl, rfl, rfl, rfl, rfl⟩ := hrest
    have hal1 := alloc_loop_aligned w _ _ s.heap s.allocator s.outstanding s.runs [] (some blk)
      h1 a1 runs1 hinv hal hloop hruns
    obtain ⟨hwf, htight, hrange, -⟩ := hinv1
    simp only at hwf htight hrange
    have hms : blk ∈ inorder h1.size_tree ∧ align_size w size ≤ blk.size w := by
      rcases alloc_search_spec w h1 (align_size w size) hwf.2.2.1 with
        ⟨A, b, B, hio, -, hb, hres⟩ | ⟨-, hres⟩
      · rw [hres] at hf
        cases hf blk rfl
        exact ⟨by rw [hio]; simp, hb⟩
      · rw [hres] at hf
        cases hf blk rfl
    have hmem : blk ∈ inorder h1.addr_tree := hwf.2.2.2.2.1.mem_iff.1 hms.1
    obtain ⟨X, Y, hio⟩ := List.append_of_mem hmem
    obtain ⟨h', out, rem, htake', -, hio', -, hrem, -, -, -, -⟩ :=
      alloc_take_spec w h1 blk (align_size w size) X Y hwf htight hrange hio hms.2
    rw [htake'] at htake
    simp only [Option.some.injEq, Prod.mk.injEq] at htake
    obtain ⟨rfl, rfl, rfl⟩ := htake
    have hb0 : blk.base ≠ 0 := (hrange blk hmem).1
    rw [if_neg hb0]
    have h16 : alignment = 16 := by decide
    have hr16 := align_size_aligned w size
    obtain ⟨halb, halo⟩ := hal1
    simp only at halb halo
    rw [h16] at halb halo
    have hblk := halb blk hmem
    have hout : out % 16 = 0 := by
      rcases hrem with ⟨-, ho⟩ | ⟨c, -, -, -, -, ho⟩
      · rw [ho]
        exact hblk.2
      · rw [ho]
        exact hr16
    constructor
    · intro b hb
      show b.base % alignment = 0 ∧ b.size w % alignment = 0
      rw [h16]
      have hb' : b ∈ X ++ rem ++ Y := by rw [← hio']; exact hb
      rcases List.mem_append.1 hb' with hb' | hb'
      · rcases List.mem_append.1 hb' with hb' | hb'
        · exact halb b (by rw [hio]; simp [hb'])
        · rcases hrem with ⟨hr, -⟩ | ⟨c, hr, hc1, hc2, -, ho⟩
          · rw [hr] at hb'
            simp at hb'
          · rw [hr, List.mem_singleton] at hb'
            subst hb'
            rw [hc1, hc2]
            have := hms.2
            rw [ho] at hout ⊢
            exact ⟨by omega, by omega⟩
      · exact halb b (by rw [hio]; simp [hb'])
    · intro o ho
      show o.1 % alignment = 0 ∧ o.2 % alignment = 0
      rw [h16]
      rcases List.mem_cons.1 ho with rfl | ho
      · exact ⟨hblk.1, hout⟩
      · exact halo o ho

/-- In every reachable heap state whose runs are aligned, the free blocks and the outstanding
allocations are aligned. -/
theorem reachable_aligned (w : ptrdiff_width) (s : heap_state) (hs : reachable w s)
    (hruns : ∀ r ∈ s.runs, r.1 % alignment = 0 ∧ r.2 % alignment = 0) : aligned_state w s := by
  induction hs with
  | init allocator hfresh =>
    exact ⟨fun b hb => by simp [empty, inorder] at hb, fun o ho => by simp at ho⟩
  | expand s size run h a hs hcall ih =>
    have hinv := reachable_inv w s hs
    exact expand_aligned w s size run h a hinv
      (ih (fun r hr => hruns r (List.mem_append_left _ hr))) hcall
      (fun r hr => hruns r (List.mem_append_right _ (by simpa using hr)))
  | alloc s size ptr size_out h a runs hs hcall ih =>
    have hinv := reachable_inv w s hs
    exact alloc_aligned w s size ptr size_out h a runs hinv
      (ih (fun r hr => hruns r (List.mem_append_left _ hr))) hcall
      (fun r hr => hruns r (List.mem_append_right _ hr))
  | free s ptr size h hs hmem hcall ih =>
    have hinv := reachable_inv w s hs
    exact free_aligned w s ptr size h hinv (ih hruns) hmem hcall

end avl_heap

namespace avl_heap

open avl_node avl_tree

/-- C18: in every heap state reachable from the empty heap by `expand`, `alloc` and `free` calls
(each `free` passing a pointer and size reported by an earlier, not yet freed `alloc`; the
backing allocator returning fresh runs), when the base and the size of every run taken from the
backing allocator are multiples of `alignment` (16), the base and the size of every free region
are multiples of 16, the pointer of every outstanding allocation is a multiple of 16, and the
pointer that a further `alloc` returns, null or not, is a multiple of 16 when the runs that
call takes are aligned too. -/
theorem alignment_kept (w : ptrdiff_width) (s : heap_state) (hs : reachable w s)
    (hruns : ∀ r ∈ s.runs, r.1 % alignment = 0 ∧ r.2 % alignment = 0) :
    (∀ r ∈ free_regions w s.heap, r.1 % alignment = 0 ∧ r.2 % alignment = 0) ∧
    (∀ o ∈ s.outstanding, o.1 % alignment = 0) ∧
    (∀ (size ptr size_out : Nat) (h : avl_heap) (a : Alloc) (runs : List (Nat × Nat)),
      alloc_runs w s.heap s.allocator size = some (ptr, size_out, h, a, runs) →
      (∀ r ∈ runs, r.1 % alignment = 0 ∧ r.2 % alignment = 0) → ptr % alignment = 0) := by
  have hal := reachable_aligned w s hs hruns
  refine ⟨?_, fun o ho => (hal.2 o ho).1, ?_⟩
  · intro r hr
    simp only [free_regions, List.mem_map] at hr
    obtain ⟨b, hb, rfl⟩ := hr
    exact hal.1 b hb
  · intro size ptr size_out h a runs hcall hnew
    by_cases hp : ptr = 0
    · subst hp
      rfl
    · have := alloc_aligned w s size ptr size_out h a runs (reachable_inv w s hs) hal hcall hnew
      have h2 := this.2
      simp only [if_neg hp] at h2
      exact (h2 (ptr, size_out) (by simp)).1

theorem alignment_kept_witness :
    reachable ptrdiff_width.w64 after_alloc_17 ∧
    (∀ r ∈ after_alloc_17.runs, r.1 % alignment = 0 ∧ r.2 % alignment = 0) ∧
    (∀ r ∈ free_regions ptrdiff_width.w64 after_alloc_17.heap,
      r.1 % alignment = 0 ∧ r.2 % alignment = 0) ∧
    (∀ o ∈ after_alloc_17.outstanding, o.1 % alignment = 0) ∧
    (∀ (size ptr size_out : Nat) (h : avl_heap) (a : Alloc) (runs : List (Nat × Nat)),
      alloc_runs ptrdiff_width.w64 after_alloc_17.heap after_alloc_17.allocator size =
        some (ptr, size_out, h, a, runs) →
      (∀ r ∈ runs, r.1 % alignment = 0 ∧ r.2 % alignment = 0) → ptr % alignment = 0) :=
  ⟨after_alloc_17_reachable,
    fun r hr => by
      rw [show after_alloc_17.runs = [(4096, 2 ^ 20)] from rfl, List.mem_singleton] at hr
      rw [hr]
      exact ⟨by decide, by decide⟩,
    alignment_kept ptrdiff_width.w64 after_alloc_17 after_alloc_17_reachable
      (fun r hr => by
        rw [show after_alloc_17.runs = [(4096, 2 ^ 20)] from rfl, List.mem_singleton] at hr
        rw [hr]
        exact ⟨by decide, by decide⟩)⟩

end avl_heap

namespace avl_tree

open avl_node parent_link

variable {T : Type}

/-- C19 at the third row of the table in the header comment: the double rotation of `rebalance`
at the node 5 (balance -2, left child 2 with balance 1) first rotates the left child, which
leaves the pair `cur = -2`, `top = -2`; `rotate_right` maps it to `cur = 1`, `top = 0`, the true
height differences of the rotated subtree, and not to `cur = 1`, `top = -1` as the row states. -/
theorem rotate_right_row_three :
    rotate_left (mk (mk nullptr nullptr 0 1) (mk (mk nullptr nullptr 0 3) nullptr (-1) 4) 1 2 :
        avl_node Nat) =
      some (mk (mk (mk nullptr nullptr 0 1) (mk nullptr nullptr 0 3) 0 2) nullptr (-2) 4) ∧
    rotate_right (mk (mk (mk (mk nullptr nullptr 0 1) (mk nullptr nullptr 0 3) 0 2) nullptr (-2) 4)
        (mk nullptr nullptr 0 6) (-2) 5 : avl_node Nat) =
      some (mk (mk (mk nullptr nullptr 0 1) (mk nullptr nullptr 0 3) 0 2)
        (mk nullptr (mk nullptr nullptr 0 6) 1 5) 0 4) ∧
    rotate_right (mk (mk (mk (mk nullptr nullptr 0 1) (mk nullptr nullptr 0 3) 0 2) nullptr (-2) 4)
        (mk nullptr nullptr 0 6) (-2) 5 : avl_node Nat) ≠
      some (mk (mk (mk nullptr nullptr 0 1) (mk nullptr nullptr 0 3) 0 2)
        (mk nullptr (mk nullptr nullptr 0 6) 1 5) (-1) 4) ∧
    rotate (mk (mk (mk nullptr nullptr 0 1) (mk (mk nullptr nullptr 0 3) nullptr (-1) 4) 1 2)
        (mk nullptr nullptr 0 6) (-2) 5 : avl_node Nat) =
      some (mk (mk (mk nullptr nullptr 0 1) (mk nullptr nullptr 0 3) 0 2)
        (mk nullptr (mk nullptr nullptr 0 6) 1 5) 0 4) ∧
    legal (mk (mk (mk nullptr nullptr 0 1) (mk nullptr nullptr 0 3) 0 2)
        (mk nullptr (mk nullptr nullptr 0 6) 1 5) 0 4 : avl_node Nat) ∧
    ¬ legal (mk (mk (mk nullptr nullptr 0 1) (mk nullptr nullptr 0 3) 0 2)
        (mk nullptr (mk nullptr nullptr 0 6) 1 5) (-1) 4 : avl_node Nat) :=
  ⟨rfl, rfl, by decide, rfl, by simp [legal, height], by simp [legal, height]⟩

/-- C19, as the code has it: `rotate_right` maps the incoming stored balances
(`cur`, `top = cur.left`) to the outgoing balances as the rows of the table in the header comment
state, except for the third row, where the code gives `(-2, -2) -> (1, 0)`: `(-2,-1) -> (0,0)`;
`(-2,0) -> (-1,1)`; `(-2,-2) -> (1,0)`; `(-1,0) -> (0,1)`; `(-1,1) -> (0,2)`;
`(-1,-1) -> (1,1)`. -/
theorem rotate_right_table (tl tr r : avl_node T) (td d : T) :
    rotate_right (mk (mk tl tr (-1) td) r (-2) d) = some (mk tl (mk tr r 0 d) 0 td) ∧
    rotate_right (mk (mk tl tr 0 td) r (-2) d) = some (mk tl (mk tr r (-1) d) 1 td) ∧
    rotate_right (mk (mk tl tr (-2) td) r (-2) d) = some (mk tl (mk tr r 1 d) 0 td) ∧
    rotate_right (mk (mk tl tr 0 td) r (-1) d) = some (mk tl (mk tr r 0 d) 1 td) ∧
    rotate_right (mk (mk tl tr 1 td) r (-1) d) = some (mk tl (mk tr r 0 d) 2 td) ∧
    rotate_right (mk (mk tl tr (-1) td) r (-1) d) = some (mk tl (mk tr r 1 d) 1 td) :=
  ⟨rfl, rfl, rfl, rfl, rfl, rfl⟩

end avl_tree

namespace avl_tree

open avl_node parent_link

variable {T : Type}

/-- C20: for a subtree rooted at `cur` with right child `top` whose stored balances `c` and `t`
are the true height differences (right minus left), and for every pair that `rebalance` can hand
to a rotation (`c = 2` with `t` in `{0, 1, 2}`; `c = 1` with `t` in `{-1, 0, 1}`), `rotate_left`
returns `top` above `cur` with `cur.balance = c - 1 - max(t, 0)` and
`top.balance = t - 1 - (1 if c = t else 0)`, and these are again the true height differences of
the rotated subtree.  `rotate_right` satisfies the mirror image: for `cur` with left child `top`
and the pairs `c = -2` with `t` in `{0, -1, -2}`, `c = -1` with `t` in `{1, 0, -1}` it sets
`cur.balance = c + 1 + max(-t, 0)` and `top.balance = t + 1 + (1 if c = t else 0)`. -/
theorem rotate_balances (l tl tr r : avl_node T) (d td : T) (c t : Int) :
    (c = (height (mk tl tr t td) : Int) - (height l : Int) →
      t = (height tr : Int) - (height tl : Int) →
      (c = 2 ∧ (t = 0 ∨ t = 1 ∨ t = 2)) ∨ (c = 1 ∧ (t = -1 ∨ t = 0 ∨ t = 1)) →
      ∃ c' t', rotate_left (mk l (mk tl tr t td) c d) = some (mk (mk l tl c' d) tr t' td) ∧
        c' = c - 1 - max t 0 ∧ t' = t - 1 - (if c = t then 1 else 0) ∧
        c' = (height tl : Int) - (height l : Int) ∧
        t' = (height tr : Int) - (height (mk l tl c' d) : Int)) ∧
    (c = (height r : Int) - (height (mk tl tr t td) : Int) →
      t = (height tr : Int) - (height tl : Int) →
      (c = -2 ∧ (t = 0 ∨ t = -1 ∨ t = -2)) ∨ (c = -1 ∧ (t = 1 ∨ t = 0 ∨ t = -1)) →
      ∃ c' t', rotate_right (mk (mk tl tr t td) r c d) = some (mk tl (mk tr r c' d) t' td) ∧
        c' = c + 1 + max (-t) 0 ∧ t' = t + 1 + (if c = t then 1 else 0) ∧
        c' = (height r : Int) - (height tr : Int) ∧
        t' = (height (mk tr r c' d) : Int) - (height tl : Int)) := by
  constructor
  · intro hc ht hpair
    simp only [height] at hc
    refine ⟨_, _, rfl, ?_, ?_, ?_, ?_⟩
    · split_ifs <;> omega
    · simp only [decide_eq_true_eq]
      split_ifs <;> omega
    · split_ifs <;> omega
    · simp only [height, decide_eq_true_eq]
      split_ifs <;> omega
  · intro hc ht hpair
    simp only [height] at hc
    refine ⟨_, _, rfl, ?_, ?_, ?_, ?_⟩
    · split_ifs <;> omega
    · simp only [decide_eq_true_eq]
      split_ifs <;> omega
    · split_ifs <;> omega
    · simp only [height, decide_eq_true_eq]
      split_ifs <;> omega

theorem rotate_balances_witness :
    ((2 : Int) = (height (mk nullptr (mk nullptr nullptr 0 3) 1 2 : avl_node Nat) : Int) -
      (height (nullptr : avl_node Nat) : Int)) ∧
    ((1 : Int) = (height (mk nullptr nullptr 0 3 : avl_node Nat) : Int) -
      (height (nullptr : avl_node Nat) : Int)) ∧
    (∃ c' t', rotate_left (mk nullptr (mk nullptr (mk nullptr nullptr 0 3) 1 2) 2 1 : avl_node Nat) =
        some (mk (mk nullptr nullptr c' 1) (mk nullptr nullptr 0 3) t' 2) ∧
      c' = 2 - 1 - max 1 0 ∧ t' = 1 - 1 - (if (2 : Int) = 1 then 1 else 0) ∧
      c' = (height (nullptr : avl_node Nat) : Int) - (height (nullptr : avl_node Nat) : Int) ∧
      t' = (height (mk nullptr nullptr 0 3 : avl_node Nat) : Int) -
        (height (mk nullptr nullptr c' 1 : avl_node Nat) : Int)) ∧
    ((-2 : Int) = (height (nullptr : avl_node Nat) : Int) -
      (height (mk (mk nullptr nullptr 0 1) nullptr (-1) 2 : avl_node Nat) : Int)) ∧
    ((-1 : Int) = (height (nullptr : avl_node Nat) : Int) -
      (height (mk nullptr nullptr 0 1 : avl_node Nat) : Int)) ∧
    (∃ c' t', rotate_right (mk (mk (mk nullptr nullptr 0 1) nullptr (-1) 2) nullptr (-2) 3 :
          avl_node Nat) =
        some (mk (mk nullptr nullptr 0 1) (mk nullptr nullptr c' 3) t' 2) ∧
      c' = -2 + 1 + max (- -1) 0 ∧ t' = -1 + 1 + (if (-2 : Int) = -1 then 1 else 0) ∧
      c' = (height (nullptr : avl_node Nat) : Int) - (height (nullptr : avl_node Nat) : Int) ∧
      t' = (height (mk nullptr nullptr c' 3 : avl_node Nat) : Int) -
        (height (mk nullptr nullptr 0 1 : avl_node Nat) : Int)) :=
  ⟨by simp [height], by simp [height],
    (rotate_balances nullptr nullptr (mk nullptr nullptr 0 3) nullptr 1 2 2 1).1
      (by simp [height]) (by simp [height]) (Or.inl ⟨rfl, Or.inr (Or.inl rfl)⟩),
    by simp [height], by simp [height],
    (rotate_balances nullptr (mk nullptr nullptr 0 1) nullptr nullptr 3 2 (-2) (-1)).2
      (by simp [height]) (by simp [height]) (Or.inl ⟨rfl, Or.inr (Or.inl rfl)⟩)⟩

end avl_tree

namespace avl_heap

open avl_node avl_tree

/-- Free blocks that are strictly apart in address order have pairwise disjoint byte ranges. -/
theorem free_regions_disjoint (w : ptrdiff_width) (h : avl_heap)
    (htight : tight w (inorder h.addr_tree)) : (free_regions w h).Pairwise disjoint := by
  unfold free_regions
  rw [List.pairwise_map]
  exact htight.imp (fun {a b} hab => Or.inr (Or.inr (Or.inl (Nat.le_of_lt hab))))

/-- C21: in every heap state reachable from the empty heap by `expand`, `alloc` and `free` calls
(each `free` passing a pointer and size reported by an earlier, not yet freed `alloc`; the
backing allocator returning fresh non-overlapping runs) the byte ranges of the free regions and
of the outstanding allocations `[ptr, ptr + reported size)` are pairwise disjoint, and a byte
lies in one of them if and only if it lies in a run taken from the backing allocator.  A further
`alloc` that returns a non-null pointer hands out a range that shares no byte with an
allocation already outstanding nor with a region that is free after the call. -/
theorem bytes_partition (w : ptrdiff_width) (s : heap_state) (hs : reachable w s) :
    (free_regions w s.heap ++ s.outstanding).Pairwise disjoint ∧
    (∀ x, covers (free_regions w s.heap ++ s.outstanding) x ↔ covers s.runs x) ∧
    (∀ (size ptr size_out : Nat) (h : avl_heap) (a : Alloc) (runs : List (Nat × Nat)),
      alloc_runs w s.heap s.allocator size = some (ptr, size_out, h, a, runs) → ptr ≠ 0 →
      (∀ o ∈ s.outstanding, disjoint (ptr, size_out) o) ∧
      (∀ r ∈ free_regions w h, disjoint r (ptr, size_out)) ∧
      (∀ x, ptr ≤ x → x < ptr + size_out → covers (s.runs ++ runs) x)) := by
  have hinv := reachable_inv w s hs
  obtain ⟨-, htight, -, -, hOd, hFO, -, -, hcov, -, -, -, -⟩ := hinv
  refine ⟨?_, ?_, ?_⟩
  · rw [List.pairwise_append]
    exact ⟨free_regions_disjoint w s.heap htight, hOd, hFO⟩
  · intro x
    rw [covers_append]
    exact hcov x
  · intro size ptr size_out h a runs hcall hp
    have hinv2 := reachable_inv w _ (reachable.alloc s size ptr size_out h a runs hs hcall)
    obtain ⟨-, -, -, -, hOd2, hFO2, -, -, hcov2, -, -, -, -⟩ := hinv2
    simp only [if_neg hp] at hOd2 hFO2 hcov2
    refine ⟨(List.pairwise_cons.1 hOd2).1, fun r hr => hFO2 r hr _ (List.mem_cons_self _ _), ?_⟩
    intro x h1 h2
    exact (hcov2 x).1 (Or.inr ⟨(ptr, size_out), List.mem_cons_self _ _, h1, h2⟩)

theorem bytes_partition_witness :
    reachable ptrdiff_width.w64 after_alloc_17 ∧
    (free_regions ptrdiff_width.w64 after_alloc_17.heap ++ after_alloc_17.outstanding).Pairwise
      disjoint ∧
    (∀ x, covers (free_regions ptrdiff_width.w64 after_alloc_17.heap ++
        after_alloc_17.outstanding) x ↔ covers after_alloc_17.runs x) ∧
    (∀ (size ptr size_out : Nat) (h : avl_heap) (a : Alloc) (runs : List (Nat × Nat)),
      alloc_runs ptrdiff_width.w64 after_alloc_17.heap after_alloc_17.allocator size =
        some (ptr, size_out, h, a, runs) → ptr ≠ 0 →
      (∀ o ∈ after_alloc_17.outstanding, disjoint (ptr, size_out) o) ∧
      (∀ r ∈ free_regions ptrdiff_width.w64 h, disjoint r (ptr, size_out)) ∧
      (∀ x, ptr ≤ x → x < ptr + size_out → covers (after_alloc_17.runs ++ runs) x)) :=
  ⟨after_alloc_17_reachable,
    bytes_partition ptrdiff_width.w64 after_alloc_17 after_alloc_17_reachable⟩

end avl_heap
